import Mathlib

/-!
Verification of the configuration-store core of MouseTracks (`core/ini.py`).

The Python module is shallowly embedded: Python's dynamically typed scalar
values become the inductive `PyVal`; the loosely-typed metadata dictionaries
backing each config entry become the `Entry` structure whose fields are
`Option`s (a `none` field models an absent dictionary key); Python exceptions
become an explicit `Except PyExc` result.  Stateful methods are modelled as
pure functions from state to state.  Floats are modelled as exact rationals:
the claims under study do not depend on binary rounding, and exact decimal
printing/parsing gives the same round-trip algebra that Python's
shortest-repr floats have.  String operations are implemented on the
character lists underlying `String`, mirroring Python's (ASCII-range)
behaviour and keeping every definition kernel-executable.
-/

namespace Ini

/-- A Python runtime value as used by `core/ini.py`: one of the four scalar
config types, or `None` (any value outside the four scalar types behaves
like `None` for the operations modelled here: it fails numeric coercion with
a `TypeError` and is skipped by the `isinstance` scalar test). -/
inductive PyVal where
  | int (n : Int)
  | float (q : Rat)
  | str (s : String)
  | bool (b : Bool)
  | none
deriving DecidableEq

/-- The Python `type` objects the module stores under the `'type'` key.
`noneType` stands for any type outside the four supported scalar types
(`config_items` lookup on it raises `KeyError`, calling it raises
`TypeError`, and `_DEFAULT_VALUES` lookup on it raises `KeyError`). -/
inductive TypeTag where
  | int
  | float
  | str
  | bool
  | noneType
deriving DecidableEq

/-- The Python exceptions that the modelled code can raise or catch. -/
inductive PyExc where
  | keyError
  | valueError
  | typeError
  | attributeError
  | nameError
deriving DecidableEq

/-- Decidable equality for `Except` results (needed to state executable
facts about fallible operations). -/
instance [DecidableEq ε] [DecidableEq α] : DecidableEq (Except ε α) := fun a b =>
  match a, b with
  | .ok x, .ok y =>
      if h : x = y then isTrue (by rw [h]) else isFalse (fun hh => by cases hh; exact h rfl)
  | .error x, .error y =>
      if h : x = y then isTrue (by rw [h]) else isFalse (fun hh => by cases hh; exact h rfl)
  | .ok _, .error _ => isFalse (fun hh => by cases hh)
  | .error _, .ok _ => isFalse (fun hh => by cases hh)

/-- `type(v)` for a scalar value. -/
def pyTypeOf : PyVal → TypeTag
  | .int _ => .int
  | .float _ => .float
  | .str _ => .str
  | .bool _ => .bool
  | .none => .noneType

/-- Python truthiness `bool(v)` for the modelled values. -/
def pyTruthy : PyVal → Bool
  | .int n => n != 0
  | .float q => q != 0
  | .str s => s ≠ ""
  | .bool b => b
  | .none => false

/-! ### Character-level string primitives

Python string methods are modelled directly on the character list of a
`String`, matching Python's behaviour on the ASCII range. -/

/-- The characters Python's `str.strip()` removes. -/
def pyIsSpace (c : Char) : Bool :=
  c = ' ' ∨ c = '\t' ∨ c = '\n' ∨ c = '\r' ∨ c = '\x0b' ∨ c = '\x0c'

/-- `s.strip()` on a character list. -/
def stripChars (cs : List Char) : List Char :=
  ((cs.dropWhile pyIsSpace).reverse.dropWhile pyIsSpace).reverse

/-- Python `s.strip()`. -/
def pyStrip (s : String) : String :=
  String.mk (stripChars s.data)

/-- Python `str.lower` (ASCII case mapping). -/
def strLower (s : String) : String :=
  String.mk (s.data.map Char.toLower)

/-- Python `s.startswith('_')`. -/
def startsWithUnderscore (s : String) : Bool :=
  match s.data with
  | '_' :: _ => true
  | _ => false

/-- Lexicographic (code-point) comparison, Python's `<` on strings. -/
def lexLt : List Char → List Char → Bool
  | [], [] => false
  | [], _ :: _ => true
  | _ :: _, [] => false
  | a :: as, b :: bs => if a < b then true else if b < a then false else lexLt as bs

/-- Python `s1 < s2` on strings. -/
def strLt (a b : String) : Bool :=
  lexLt a.data b.data

/-- Everything before the first occurrence of `//` (the head of Python's
`line.split('//')`). -/
def takeBeforeComment : List Char → List Char
  | '/' :: '/' :: _ => []
  | c :: rest => c :: takeBeforeComment rest
  | [] => []

/-- Whether `//` occurs in the character list. -/
def hasCommentMarker : List Char → Bool
  | '/' :: '/' :: _ => true
  | _ :: rest => hasCommentMarker rest
  | [] => false

/-- Split at the first `=`, Python's `s.split('=', 1)`; `Option.none` when
there is no `=` (whereupon the caller's 2-tuple unpacking raises
`ValueError`). -/
def splitFirstEq (cs : List Char) : Option (List Char × List Char) :=
  match cs with
  | [] => Option.none
  | '=' :: rest => Option.some ([], rest)
  | c :: rest =>
      match splitFirstEq rest with
      | Option.some (a, b) => Option.some (c :: a, b)
      | Option.none => Option.none

/-- Python `s.replace('\n', '\\n')` on a character list. -/
def escapeNewlines (cs : List Char) : List Char :=
  cs.flatMap (fun c => if c = '\n' then ['\\', 'n'] else [c])

/-- Python `'\n' in s` (via the character list). -/
def hasNewline (cs : List Char) : Bool :=
  cs.any (fun c => c = '\n')

/-- Python `s.split('\n')` on a character list. -/
def splitNewlines : List Char → List (List Char)
  | [] => [[]]
  | '\n' :: rest => [] :: splitNewlines rest
  | c :: rest =>
      match splitNewlines rest with
      | l :: ls => (c :: l) :: ls
      | [] => [[c]]

/-- Python `'\n'.join(lines)` on character lists. -/
def joinNewlines : List (List Char) → List Char
  | [] => []
  | [l] => l
  | l :: l2 :: ls => l ++ '\n' :: joinNewlines (l2 :: ls)

/-- The file round trip `save` performs between its in-memory line list and
the text on disk: the lines are written `'\n'.join`-ed, and a later `load`
re-splits the file's text on `'\n'`.  A line holding a literal newline is
therefore read back as two lines. -/
def fileRoundTrip (lines : List String) : List String :=
  (splitNewlines (joinNewlines (lines.map String.data))).map
    (fun cs => String.mk cs)

/-! ### Scalar coercions -/

/-- Truncation of a rational toward zero, as Python `int(float)` does. -/
def ratTrunc (q : Rat) : Int :=
  Int.tdiv q.num q.den

/-- Render a rational the way the model prints a Python float: integral
values as `n.0`, other finite-decimal values in fixed-point form.  Binary
floats always have a finite decimal expansion, so the fallback branch is
unreachable for values a real Python float can take.  (Python switches to
scientific notation for very large/small magnitudes; the model keeps
fixed-point form, which `float()` parses back to the same value, preserving
the round-trip algebra.) -/
def floatRepr (q : Rat) : String :=
  if q.den = 1 then toString q.num ++ ".0"
  else
    match (List.range 1200).find? (fun k => 10 ^ (k + 1) % q.den = 0) with
    | Option.some k =>
        let k := k + 1
        let n := q.num * ((10 ^ k : Nat) / q.den : Nat)
        let sign := if n < 0 then "-" else ""
        let a := n.natAbs
        let ip := a / 10 ^ k
        let fp := a % 10 ^ k
        let fs := toString fp
        let pad := String.mk (List.replicate (k - fs.length) '0')
        sign ++ toString ip ++ "." ++ pad ++ fs
    | Option.none => toString q.num ++ "/" ++ toString q.den

/-- Python `str(v)`. -/
def pyStrFn : PyVal → String
  | .int n => toString n
  | .float q => floatRepr q
  | .str s => s
  | .bool b => if b then "True" else "False"
  | .none => "None"

/-- Parse the digits of a nonempty digit string; `Option.none` if any
character is not a decimal digit or the string is empty. -/
def parseDigits (cs : List Char) : Option Nat :=
  match cs with
  | [] => Option.none
  | _ =>
    cs.foldl (fun acc c =>
      match acc with
      | Option.none => Option.none
      | Option.some n => if c.isDigit then Option.some (n * 10 + (c.toNat - '0'.toNat)) else Option.none)
      (Option.some 0)

/-- Split an optional leading sign from a character list, returning the sign
as an integer factor. -/
def splitSign : List Char → Int × List Char
  | '-' :: cs => (-1, cs)
  | '+' :: cs => (1, cs)
  | cs => (1, cs)

/-- Python `int(s)` for a string: strip whitespace, optional sign, decimal
digits; anything else raises `ValueError`. -/
def parseIntStr (s : String) : Except PyExc Int :=
  let cs := stripChars s.data
  let (sgn, cs) := splitSign cs
  match parseDigits cs with
  | Option.some n => .ok (sgn * n)
  | Option.none => .error .valueError

/-- Python `float(s)` for a string: strip whitespace, optional sign, then
`digits[.digits]` or `.digits`, with an optional decimal exponent.
(`inf`/`nan` forms are outside the rational model and rejected.) -/
def parseFloatStr (s : String) : Except PyExc Rat :=
  let cs := stripChars s.data
  let (sgn, cs) := splitSign cs
  let intPart := cs.takeWhile Char.isDigit
  let rest := cs.dropWhile Char.isDigit
  let (fracPart, rest) :=
    match rest with
    | '.' :: r => (r.takeWhile Char.isDigit, r.dropWhile Char.isDigit)
    | r => (([] : List Char), r)
  let (expo, rest) :=
    match rest with
    | 'e' :: r | 'E' :: r =>
        let (esgn, r) := splitSign r
        (Option.some (esgn, r.takeWhile Char.isDigit), r.dropWhile Char.isDigit)
    | r => (Option.none, r)
  if rest ≠ [] then .error .valueError
  else if intPart = [] ∧ fracPart = [] then .error .valueError
  else
    let ip : Nat := (parseDigits intPart).getD 0
    let fp : Nat := (parseDigits fracPart).getD 0
    let mantissa : Int := sgn * (ip * 10 ^ fracPart.length + fp)
    let den : Nat := 10 ^ fracPart.length
    match expo with
    | Option.none => .ok (mkRat mantissa den)
    | Option.some (esgn, eds) =>
        match parseDigits eds with
        | Option.none => .error .valueError
        | Option.some e =>
            if esgn < 0 then .ok (mkRat mantissa (den * 10 ^ e))
            else .ok (mkRat (mantissa * 10 ^ e) den)

/-- Calling a type object on a value — `int(v)`, `float(v)`, `str(v)`,
`bool(v)` — with Python's exception behaviour (`ValueError` on a failed
numeric parse of a string, `TypeError` on numeric coercion of `None`). -/
def coerce : TypeTag → PyVal → Except PyExc PyVal
  | .int, .int n => .ok (.int n)
  | .int, .bool b => .ok (.int (if b then 1 else 0))
  | .int, .float q => .ok (.int (ratTrunc q))
  | .int, .str s => (parseIntStr s).map .int
  | .int, .none => .error .typeError
  | .float, .int n => .ok (.float n)
  | .float, .bool b => .ok (.float (if b then 1 else 0))
  | .float, .float q => .ok (.float q)
  | .float, .str s => (parseFloatStr s).map .float
  | .float, .none => .error .typeError
  | .str, v => .ok (.str (pyStrFn v))
  | .bool, v => .ok (.bool (pyTruthy v))
  | .noneType, _ => .error .typeError

/-- Numeric view of a value, for Python's `max`/`min` comparisons between a
value and a declared bound (`TypeError` when not a number, as in Python 3). -/
def toRatNum : PyVal → Except PyExc Rat
  | .int n => .ok n
  | .float q => .ok q
  | .bool b => .ok (if b then 1 else 0)
  | .str _ => .error .typeError
  | .none => .error .typeError

/-- Python `max(a, b)`: the first argument when it is ≥ the second. -/
def pyMaxPy (a b : PyVal) : Except PyExc PyVal := do
  let ra ← toRatNum a
  let rb ← toRatNum b
  if rb ≤ ra then pure a else pure b

/-- Python `min(a, b)`: the first argument when it is ≤ the second. -/
def pyMinPy (a b : PyVal) : Except PyExc PyVal := do
  let ra ← toRatNum a
  let rb ← toRatNum b
  if ra ≤ rb then pure a else pure b

/-- Python `v.lower()`: only strings have the method (`AttributeError`
otherwise). -/
def pyLower : PyVal → Except PyExc PyVal
  | .str s => .ok (.str (strLower s))
  | _ => .error .attributeError

/-! ### Association lists: the model of Python dictionaries

Python dicts preserve insertion order; assignment to an existing key keeps
its position, a new key is appended.  `lookupKey`, `setKey` and `eraseKey`
model `d[k]`, `d[k] = v` and `del d[k]`/`d.pop(k)`. -/

/-- `d.get(k)` on an insertion-ordered dictionary. -/
def lookupKey [DecidableEq κ] : List (κ × α) → κ → Option α
  | [], _ => Option.none
  | (k', v) :: t, k => if k' = k then Option.some v else lookupKey t k

/-- `d[k] = v`: replace in place, or append a new key. -/
def setKey [DecidableEq κ] : List (κ × α) → κ → α → List (κ × α)
  | [], k, v => [(k, v)]
  | (k', v') :: t, k, v => if k' = k then (k, v) :: t else (k', v') :: setKey t k v

/-- `del d[k]` / `d.pop(k)`: remove the (unique) binding of `k`. -/
def eraseKey [DecidableEq κ] : List (κ × α) → κ → List (κ × α)
  | [], _ => []
  | (k', v') :: t, k => if k' = k then t else (k', v') :: eraseKey t k

/-! ### The priority resolver `_get_priority_order` -/

/-- Ascending insertion into a sorted list of strings (Python string
comparison is code-point lexicographic). -/
def insertSorted (x : String) : List String → List String
  | [] => [x]
  | y :: ys => if strLt y x then y :: insertSorted x ys else x :: y :: ys

/-- Python `sorted` on a list of strings. -/
def sortStrs : List String → List String
  | [] => []
  | x :: xs => insertSorted x (sortStrs xs)

/-- One step of building the `priorities` dict:
`priorities[priority].append(k)` with `KeyError` fallback
`priorities[priority] = [k]`. -/
def addToBucket (gs : List (Option Int × List String)) (p : Option Int) (k : String) :
    List (Option Int × List String) :=
  match lookupKey gs p with
  | Option.some ks => setKey gs p (ks ++ [k])
  | Option.none => gs ++ [(p, [k])]

/-- One iteration of the grouping loop of `_get_priority_order`: skip
`_`-prefixed keys, group the rest by their declared priority (`prioOf v`,
falling back to the `default` argument, which also covers the
`AttributeError` path for non-dict values). -/
def bucketStep (prioOf : α → Option Int) (dflt : Option Int)
    (gs : List (Option Int × List String)) (kv : String × α) :
    List (Option Int × List String) :=
  if startsWithUnderscore kv.1 then gs
  else
    let priority := match prioOf kv.2 with
      | Option.some p => Option.some p
      | Option.none => dflt
    addToBucket gs priority kv.1

/-- The grouping loop of `_get_priority_order` over all values. -/
def buildPriorities (values : List (String × α)) (prioOf : α → Option Int)
    (dflt : Option Int) : List (Option Int × List String) :=
  values.foldl (bucketStep prioOf dflt) []

/-- The integer priorities present among the groups. -/
def intKeys (gs : List (Option Int × List String)) : List Int :=
  gs.filterMap Prod.fst

/-- `min(i for i in priorities if i is not None)` with the `ValueError`
fallback to `0`. -/
def startSlot (gs : List (Option Int × List String)) : Int :=
  match intKeys gs with
  | [] => 0
  | n :: ns => ns.foldl min n

/-- An upper bound on the integer priorities (used to size the loop fuel). -/
def maxKInt (gs : List (Option Int × List String)) : Int :=
  (intKeys gs).foldl max 0

/-- Iteration bound for the `while priorities` loop: each iteration either
pops a group or moves `current` one slot closer to the largest priority. -/
def fuelFor (gs : List (Option Int × List String)) (current : Int) : Nat :=
  gs.length + (maxKInt gs + 1 - current).toNat + 1

/-- The `while priorities:` loop of `_get_priority_order`, indexed by an
iteration bound.  The `0` fuel case returns the accumulator; it is
unreachable from `_get_priority_order`'s entry state, where `fuelFor` is a
proven-sufficient bound — on such states the Python loop terminates and the
model agrees with it step by step. -/
def ploopN (egl : Bool) :
    Nat → List (Option Int × List String) → Int → List String → List String → List String
  | _, [], _, order, endAcc => order ++ endAcc
  | 0, _ :: _, _, order, endAcc => order ++ endAcc
  | n + 1, g :: gs, current, order, endAcc =>
    let groups := g :: gs
    match lookupKey groups (Option.some current) with
    | Option.some ks =>
        ploopN egl n (eraseKey groups (Option.some current)) (current + 1)
          (order ++ sortStrs ks) endAcc
    | Option.none =>
        match lookupKey groups Option.none with
        | Option.some ks =>
            if egl then
              ploopN egl n (eraseKey groups Option.none) (current + 1) order (sortStrs ks)
            else
              ploopN egl n (eraseKey groups Option.none) (current + 1)
                (order ++ sortStrs ks) endAcc
        | Option.none => ploopN egl n groups (current + 1) order endAcc

/-- `_get_priority_order(values, key='__priority__', default=None,
empty_goes_last=True)`.  `prioOf` abstracts `v.get(key, ·)` together with
the `AttributeError` fallback: it returns the declared integer priority of
a value when there is one.  Returns `order + end`. -/
def _get_priority_order (values : List (String × α)) (prioOf : α → Option Int)
    (dflt : Option Int) (empty_goes_last : Bool) : List String :=
  let priorities := buildPriorities values prioOf dflt
  let current := startSlot priorities
  ploopN empty_goes_last (fuelFor priorities current) priorities current [] []

theorem priorityOrder_sample_fill :
    _get_priority_order
      [("a", Option.some (2 : Int)), ("c", Option.none)] id Option.none false = ["a", "c"] := by
  decide

theorem priorityOrder_sample_last :
    _get_priority_order
      [("a", Option.some (2 : Int)), ("b", Option.some 0), ("c", Option.none),
       ("d", Option.some 0)] id Option.none true = ["b", "d", "a", "c"] := by
  decide

/-! ### The data model of `Config`

An `Entry` is the metadata dictionary backing one config variable.  Every
field is optional: `Option.none` models the key being absent from the
Python dict. -/

/-- One variable's metadata dictionary (`value`, `default`, `type`, `lock`,
`min`, `max`, `valid`, `case_sensitive`, `allow_empty`, `__info__`,
`__priority__`).  `lock`, `case_sensitive` and `allow_empty` are read
through `.get(key, False)` truthiness, so they are kept as raw values. -/
structure Entry where
  value? : Option PyVal := Option.none
  type? : Option TypeTag := Option.none
  default? : Option PyVal := Option.none
  lock? : Option PyVal := Option.none
  min? : Option PyVal := Option.none
  max? : Option PyVal := Option.none
  valid? : Option (List String) := Option.none
  case_sensitive? : Option PyVal := Option.none
  allow_empty? : Option PyVal := Option.none
  info? : Option String := Option.none
  priority? : Option Int := Option.none
deriving DecidableEq

/-- A value of the raw default-schema dictionary: a bare scalar or a
metadata dictionary.  (A value of any other shape is skipped by
`_load_from_dict`'s `isinstance` tests; `PyVal.none` under `scalar` plays
that role.) -/
inductive RawVal where
  | scalar (v : PyVal)
  | dict (e : Entry)
deriving DecidableEq

/-- One heading's raw schema dictionary: variable name → raw value.  May
contain reserved keys such as `__info__` and `__priority__`. -/
abbrev RawVars := List (String × RawVal)

/-- The default schema: heading name → raw variables. -/
abbrev Schema := List (String × RawVars)

/-- The live variables of one heading. -/
abbrev Vars := List (String × Entry)

/-- The live data: heading name → variables. -/
abbrev Data := List (String × Vars)

/-- The state of a `Config` object: `_data`, `_backup`, `_default`,
`_default_settings`, `_editable_dict` and `is_new`.  (`hidden` only filters
iteration/`repr` views and plays no part in the modelled operations.) -/
structure ConfigState where
  data : Data
  backup : List (String × List (String × PyVal))
  defaults : Schema
  default_settings : Option Entry
  editable_dict : Bool
  is_new : Bool
deriving DecidableEq

/-- `__priority__` of a raw schema value: `v.get('__priority__', default)`
returns the declared value for a dict, and the `AttributeError` handler
turns a scalar into the default. -/
def prioOfRawVal : RawVal → Option Int
  | .dict e => e.priority?
  | .scalar _ => Option.none

/-- `__priority__` of a heading's raw variables dictionary (an integer
scalar stored under the reserved key). -/
def prioOfRawVars (rv : RawVars) : Option Int :=
  match lookupKey rv "__priority__" with
  | Option.some (.scalar (.int p)) => Option.some p
  | _ => Option.none

/-- `Config._DEFAULT_VALUES[t]` (`KeyError` outside the four entries). -/
def defaultValueFor : TypeTag → Except PyExc PyVal
  | .int => .ok (.int 0)
  | .float => .ok (.float 0)
  | .str => .ok (.str "")
  | .bool => .ok (.bool false)
  | .noneType => .error .keyError

/-- Fill missing keys of `info` from the `default_settings` dictionary
(`if option_name not in info: info[option_name] = option_value`). -/
def fillFromSettings (info ds : Entry) : Entry where
  value? := info.value?.orElse (fun _ => ds.value?)
  type? := info.type?.orElse (fun _ => ds.type?)
  default? := info.default?.orElse (fun _ => ds.default?)
  lock? := info.lock?.orElse (fun _ => ds.lock?)
  min? := info.min?.orElse (fun _ => ds.min?)
  max? := info.max?.orElse (fun _ => ds.max?)
  valid? := info.valid?.orElse (fun _ => ds.valid?)
  case_sensitive? := info.case_sensitive?.orElse (fun _ => ds.case_sensitive?)
  allow_empty? := info.allow_empty?.orElse (fun _ => ds.allow_empty?)
  info? := info.info?.orElse (fun _ => ds.info?)
  priority? := info.priority?.orElse (fun _ => ds.priority?)

/-- The body of `_load_from_dict` for one raw schema value: normalize a
scalar to `{'value': v}`, skip shapes that are neither scalar nor dict
(result `Option.none`), fill from `default_settings`, infer `type` from
`value` (or `value` from `type` via `_DEFAULT_VALUES`), and set
`default := value`. -/
def normalizeInfo (settings : Option Entry) (raw : RawVal) :
    Option (Except PyExc Entry) :=
  let base? : Option Entry :=
    match raw with
    | .scalar v =>
        match v with
        | .none => Option.none
        | v => Option.some { value? := Option.some v }
    | .dict e => Option.some e
  match base? with
  | Option.none => Option.none
  | Option.some base =>
    Option.some (do
      let info := match settings with
        | Option.some ds => fillFromSettings base ds
        | Option.none => base
      let info ←
        match info.type?, info.value? with
        | Option.none, Option.some v => pure { info with type? := Option.some (pyTypeOf v) }
        | Option.none, Option.none => throw PyExc.keyError
        | Option.some t, Option.none => do
            let dv ← defaultValueFor t
            pure { info with value? := Option.some dv }
        | Option.some _, Option.some _ => pure info
      match info.value? with
      | Option.some v => pure { info with default? := Option.some v }
      | Option.none => throw PyExc.keyError)

/-- One variable of `_load_from_dict`: normalize (or skip) the raw value
and record it in the live variables and the backup. -/
def initVarStep (settings : Option Entry) (acc : Vars × List (String × PyVal))
    (ve : String × RawVal) : Except PyExc (Vars × List (String × PyVal)) := do
  let (vars, bk) := acc
  match normalizeInfo settings ve.2 with
  | Option.none => pure (vars, bk)
  | Option.some r => do
      let info ← r
      match info.value? with
      | Option.some v => pure (setKey vars ve.1 info, setKey bk ve.1 v)
      | Option.none => throw PyExc.keyError

/-- One heading of `_load_from_dict`. -/
def initHeadingStep (settings : Option Entry)
    (acc : Data × List (String × List (String × PyVal))) (hv : String × RawVars) :
    Except PyExc (Data × List (String × List (String × PyVal))) := do
  let (data, backup) := acc
  let (vars, bk) ← hv.2.foldlM (initVarStep settings) ([], [])
  pure (setKey data hv.1 vars, setKey backup hv.1 bk)

/-- `Config.__init__` / `Config._load_from_dict`: build the live data and
the backup snapshot from the default schema. -/
def initConfig (defaults : Schema) (settings : Option Entry) (editable : Bool) :
    Except PyExc ConfigState := do
  let (data, backup) ← defaults.foldlM (initHeadingStep settings) ([], [])
  pure { data := data, backup := backup, defaults := defaults,
         default_settings := settings, editable_dict := editable, is_new := false }

/-! ### Config items: `create_config_item` and validation -/

/-- `int.__new__` / `float.__new__` / `str.__new__` / (for the bool wrapper)
`int.__new__` applied to the stored value when constructing a config item
view; only its exception behaviour matters. -/
def newCoerce (t : TypeTag) (v : PyVal) : Except PyExc PyVal :=
  match t with
  | .bool => coerce .int v
  | t => coerce t v

/-- `create_config_item(d)`: pick the wrapper class from `d['type']`
(`KeyError` outside the four types), run `__new__` (for strings with
`case_sensitive` set, lower-case the stored value in place; then construct
the primitive from `d['value']`), and run `_ConfigItem.__init__`, which
re-coerces `d['default']` (falling back to `d['value']`) in place.
Returns the updated dictionary and the chosen class's type. -/
def createConfigItem (d : Entry) : Except PyExc (Entry × TypeTag) := do
  let t ←
    match d.type? with
    | Option.some .noneType => throw PyExc.keyError
    | Option.some t => pure t
    | Option.none => throw PyExc.keyError
  let d ←
    match t with
    | .str =>
        if pyTruthy ((d.case_sensitive?).getD (.bool false)) then
          match d.value? with
          | Option.some v => do
              let low ← pyLower v
              pure { d with value? := Option.some low }
          | Option.none => throw PyExc.keyError
        else pure d
    | _ => pure d
  let v ←
    match d.value? with
    | Option.some v => pure v
    | Option.none => throw PyExc.keyError
  let _ ← newCoerce t v
  let dflt := (d.default?).getD v
  let dflt' ← coerce t dflt
  pure ({ d with default? := Option.some dflt' }, t)

/-- `_ConfigItemNumber._validate` (shared by the int and float wrappers):
`None` when locked; coerce via `d['type']`, catching only `ValueError`;
clamp into the declared `min`/`max` bounds. -/
def validateNumber (d : Entry) (t : TypeTag) (value : PyVal) :
    Except PyExc (Option PyVal) := do
  if pyTruthy ((d.lock?).getD (.bool false)) then pure Option.none
  else do
    match coerce t value with
    | .error .valueError => pure Option.none
    | .error e => throw e
    | .ok v => do
        let v ←
          match d.min? with
          | Option.some m => pyMaxPy v m
          | Option.none => pure v
        let v ←
          match d.max? with
          | Option.some m => pyMinPy v m
          | Option.none => pure v
        pure (Option.some v)

/-- `_ConfigItemStr._validate`: `None` when locked; `str(value).strip()`;
empty strings only pass with `allow_empty`; with a `valid` list, fold case
unless `case_sensitive` and require membership. -/
def validateStr (d : Entry) (value : PyVal) : Except PyExc (Option PyVal) := do
  if pyTruthy ((d.lock?).getD (.bool false)) then pure Option.none
  else do
    let s := pyStrip (pyStrFn value)
    if s = "" then
      if pyTruthy ((d.allow_empty?).getD (.bool false)) then pure (Option.some (.str s))
      else pure Option.none
    else
      let cs := pyTruthy ((d.case_sensitive?).getD (.bool false))
      match d.valid? with
      | Option.none => pure (Option.some (.str s))
      | Option.some validList =>
          if cs then
            if s ∈ validList then pure (Option.some (.str s)) else pure Option.none
          else
            let validList := validList.map strLower
            let s := strLower s
            if s ∈ validList then pure (Option.some (.str s)) else pure Option.none

/-- `_ConfigItemBool._validate`: `None` when locked; strings are matched
against the fixed falsy token set, everything else uses truthiness. -/
def validateBool (d : Entry) (value : PyVal) : Except PyExc (Option PyVal) :=
  if pyTruthy ((d.lock?).getD (.bool false)) then .ok Option.none
  else
    match value with
    | .str s =>
        if strLower s ∈ ["0", "f", "false", "no", "null", "n"] then
          .ok (Option.some (.bool false))
        else .ok (Option.some (.bool true))
    | v => .ok (Option.some (.bool (pyTruthy v)))

/-- `_validate` of the wrapper class chosen for type `t`.  (`noneType`
cannot reach here: `create_config_item` raises `KeyError` first.) -/
def validateItem (d : Entry) (t : TypeTag) (value : PyVal) :
    Except PyExc (Option PyVal) :=
  match t with
  | .int => validateNumber d .int value
  | .float => validateNumber d .float value
  | .str => validateStr d value
  | .bool => validateBool d value
  | .noneType => throw PyExc.keyError

/-- The `value` property setter of `_ConfigItem`: store the validated value
unless validation reported `None`. -/
def setValue (d : Entry) (t : TypeTag) (value : PyVal) : Except PyExc Entry := do
  match ← validateItem d t value with
  | Option.some v => pure { d with value? := Option.some v }
  | Option.none => pure d

/-- `_ConfigDict.__setitem__`: look the variable up (on `KeyError`, raise if
the dict is not editable, else create a fresh metadata dict from
`default_settings` with the raw value and an inferred type); return
untouched when locked; otherwise construct the config item (with its
in-place dictionary effects) and route the value through validation. -/
def dictSetitem (settings : Option Entry) (editable : Bool) (vars : Vars)
    (item : String) (value : PyVal) : Except PyExc Vars := do
  let (vars, info) ←
    match lookupKey vars item with
    | Option.some info => pure (vars, info)
    | Option.none =>
        if editable then
          let d : Entry := match settings with
            | Option.some ds => ds
            | Option.none => {}
          let d := { d with value? := Option.some value }
          let d := if d.type? = Option.none
            then { d with type? := Option.some (pyTypeOf value) } else d
          pure (setKey vars item d, d)
        else throw PyExc.keyError
  if pyTruthy ((info.lock?).getD (.bool false)) then pure vars
  else do
    let (d, t) ← createConfigItem info
    let d ← setValue d t value
    match d.value? with
    | Option.some _ => pure (setKey vars item d)
    | Option.none => throw PyExc.keyError

/-- `config[header][variable] = value`: `Config.__getitem__` (raises
`KeyError` on an unknown heading) followed by `_ConfigDict.__setitem__`. -/
def configSetVar (st : ConfigState) (header item : String) (value : PyVal) :
    Except PyExc ConfigState := do
  match lookupKey st.data header with
  | Option.none => throw PyExc.keyError
  | Option.some vars => do
      let vars' ← dictSetitem st.default_settings st.editable_dict vars item value
      pure { st with data := setKey st.data header vars' }

/-- `Config.__delitem__`: `del self._data[item]` — no editability check. -/
def configDelitem (st : ConfigState) (item : String) : Except PyExc ConfigState :=
  match lookupKey st.data item with
  | Option.some _ => .ok { st with data := eraseKey st.data item }
  | Option.none => .error .keyError

/-- `_ConfigDict.__delitem__`: `del self._data[item]` — no editability
check. -/
def dictDelitem (vars : Vars) (item : String) : Except PyExc Vars :=
  match lookupKey vars item with
  | Option.some _ => .ok (eraseKey vars item)
  | Option.none => .error .keyError

/-- `config[header][variable]` deletion at the store level:
`Config.__getitem__` then `_ConfigDict.__delitem__`. -/
def configDelVar (st : ConfigState) (header item : String) :
    Except PyExc ConfigState := do
  match lookupKey st.data header with
  | Option.none => throw PyExc.keyError
  | Option.some vars => do
      let vars' ← dictDelitem vars item
      pure { st with data := setKey st.data header vars' }

/-! ### Loading: `_update_from_file` -/

/-- One iteration of `_update_from_file`'s line loop: strip, drop the `//`
comment tail, skip blanks, recognise `[Heading]` lines, otherwise split
once on `=` (a missing `=` makes the tuple unpacking raise `ValueError`)
and assign through the section store, swallowing only `KeyError`. -/
def processLine (st : ConfigState) (header : Option String) (line : String) :
    Except PyExc (ConfigState × Option String) := do
  let cs := stripChars (takeBeforeComment (stripChars line.data))
  match cs with
  | [] => pure (st, header)
  | c :: rest =>
      if c = '[' ∧ (c :: rest).getLast (by simp) = ']' then
        pure (st, Option.some (String.mk ((c :: rest).drop 1).dropLast))
      else
        match splitFirstEq (c :: rest) with
        | Option.none => throw PyExc.valueError
        | Option.some (a, b) =>
            let varName := String.mk (stripChars a)
            let value := String.mk (stripChars b)
            match header with
            | Option.none => throw PyExc.nameError
            | Option.some h =>
                match configSetVar st h varName (.str value) with
                | .ok st' => pure (st', header)
                | .error .keyError => pure (st, header)
                | .error e => throw e

/-- `_update_from_file` on the lines of a file (file reading abstracted:
the model takes the list of lines; the `header` name starts unbound). -/
def updateFromFileLines (st : ConfigState) (lines : List String) :
    Except PyExc ConfigState := do
  let (st, _) ←
    lines.foldlM (fun (acc : ConfigState × Option String) line =>
      processLine acc.1 acc.2 line) (st, (Option.none : Option String))
  pure st

/-- `Config.load(config_file, *default_files)`: apply the readable default
files in reverse order, then the primary file; a missing primary file only
marks the store as new.  Files are modelled as `Option (List String)`
(`Option.none` = unreadable / `IOError`). -/
def configLoad (st : ConfigState) (primary : Option (List String))
    (defaultFiles : List (Option (List String))) : Except PyExc ConfigState := do
  let st ←
    defaultFiles.reverse.foldlM
      (fun st f =>
        match f with
        | Option.some lines => updateFromFileLines st lines
        | Option.none => pure st)
      st
  match primary with
  | Option.some lines => updateFromFileLines st lines
  | Option.none => pure { st with is_new := true }

/-! ### Serialization: `_build_for_file` and `save` -/

/-- Ensure `info['type']` is present, as `_build_for_file` does for a
metadata dict lacking it: infer from `value`, else fall back to
`default_settings['type']`, else re-raise the `KeyError`. -/
def ensureType (settings : Option Entry) (e : Entry) : Except PyExc Entry :=
  match e.type? with
  | Option.some _ => .ok e
  | Option.none =>
    match e.value? with
    | Option.some v => .ok { e with type? := Option.some (pyTypeOf v) }
    | Option.none =>
      match settings with
      | Option.none => .error .keyError
      | Option.some ds =>
          match ds.type? with
          | Option.some t => .ok { e with type? := Option.some t }
          | Option.none => .error .keyError

/-- The line for one variable: the `'{} = {}'` format with
newline escaping (or the keys-only placeholder), plus the optional padded
`// comment` from `info['__info__']`. -/
def buildVarLine (keysOnly : Bool) (commentSpacing minCommentSpacing : Int)
    (ignoreComments : Bool) (varName : String) (value : PyVal)
    (comment? : Option String) : String :=
  let line :=
    if keysOnly then varName ++ " = "
    else String.mk (escapeNewlines (varName ++ " = " ++ pyStrFn value).data)
  match comment? with
  | Option.none => line
  | Option.some comment =>
      let comment := if ignoreComments then "" else comment
      if comment = "" then line
      else
        let extra : Int := commentSpacing - line.length
        line ++ String.mk (List.replicate (max minCommentSpacing extra).toNat ' ')
          ++ "// " ++ comment

/-- The body of `_build_for_file` for one variable of one heading: fetch the
live (or default) metadata, normalize its shape, and emit the line; the
`type`-filling writes back into the owning dictionary (`_data` in changes
mode, `_default` otherwise). -/
def buildVar (changes keysOnly : Bool) (commentSpacing minCommentSpacing : Int)
    (ignoreComments : Bool) (settings : Option Entry) (data : Data)
    (defaults : Schema) (heading varName : String) :
    Except PyExc (String × Data × Schema) := do
  let (e, data, defaults) ←
    if changes then do
      let vars ←
        match lookupKey data heading with
        | Option.some vars => pure vars
        | Option.none => throw PyExc.keyError
      let e ←
        match lookupKey vars varName with
        | Option.some e => pure e
        | Option.none => throw PyExc.keyError
      let e' ← ensureType settings e
      pure (e', setKey data heading (setKey vars varName e'), defaults)
    else do
      let rv ←
        match lookupKey defaults heading with
        | Option.some rv => pure rv
        | Option.none => throw PyExc.keyError
      match lookupKey rv varName with
      | Option.none => throw PyExc.keyError
      | Option.some (.scalar v) =>
          pure ({ value? := Option.some v, type? := Option.some (pyTypeOf v) },
            data, defaults)
      | Option.some (.dict e) => do
          let e' ← ensureType settings e
          pure (e', data, setKey defaults heading (setKey rv varName (.dict e')))
  let t ←
    match e.type? with
    | Option.some t => pure t
    | Option.none => throw PyExc.keyError
  let dv ← defaultValueFor t
  let value := (e.value?).getD dv
  pure (buildVarLine keysOnly commentSpacing minCommentSpacing ignoreComments
    varName value e.info?, data, defaults)

/-- The heading-comment lines: `self._default[heading]['__info__']` split on
newlines, each prefixed `// ` (`AttributeError` when the reserved key holds
anything but a string). -/
def headingInfoLines (rv : RawVars) : Except PyExc (List String) :=
  match lookupKey rv "__info__" with
  | Option.none => .ok []
  | Option.some (.scalar (.str s)) =>
      .ok ((splitNewlines s.data).map (fun l => "// " ++ String.mk l))
  | Option.some _ => .error .attributeError

/-- One variable of `_build_for_file`'s inner loop: skip variables deleted
from an editable store, otherwise emit the line via `buildVar`. -/
def buildVarStep (changes keysOnly : Bool) (commentSpacing minCommentSpacing : Int)
    (ignoreComments : Bool) (settings : Option Entry) (editable : Bool)
    (heading : String) (acc : List String × Data × Schema) (varName : String) :
    Except PyExc (List String × Data × Schema) := do
  let (output, data, defaults) := acc
  let deleted : Bool :=
    match lookupKey data heading with
    | Option.some vars => (lookupKey vars varName).isNone
    | Option.none => true
  if editable ∧ deleted then
    pure (output, data, defaults)
  else do
    let (line, data, defaults) ←
      buildVar changes keysOnly commentSpacing minCommentSpacing
        ignoreComments settings data defaults heading varName
    pure (output ++ [line], data, defaults)

/-- One heading of `_build_for_file`'s outer loop: skip headings deleted
from an editable store, otherwise emit the `[Heading]` line, the heading
comment lines, every variable in priority order, and a final blank line. -/
def buildHeadingStep (changes keysOnly : Bool)
    (commentSpacing minCommentSpacing : Int) (ignoreComments : Bool)
    (settings : Option Entry) (editable : Bool)
    (acc : List String × Data × Schema) (heading : String) :
    Except PyExc (List String × Data × Schema) := do
  let (output, data, defaults) := acc
  if editable ∧ lookupKey data heading = Option.none then
    pure (output, data, defaults)
  else do
    let output := output ++ ["[" ++ heading ++ "]"]
    let rv ←
      match lookupKey defaults heading with
      | Option.some rv => pure rv
      | Option.none => throw PyExc.keyError
    let infoLines ← headingInfoLines rv
    let output := output ++ infoLines
    let acc2 ←
      (_get_priority_order rv prioOfRawVal Option.none true).foldlM
        (buildVarStep changes keysOnly commentSpacing minCommentSpacing
          ignoreComments settings editable heading)
        (output, data, defaults)
    pure (acc2.1 ++ [""], acc2.2.1, acc2.2.2)

/-- `_build_for_file`: iterate the headings of the default schema in
priority order (skipping, when editable, those deleted from the live data),
emit the `[Heading]` line, the heading comment, and every variable in
priority order (skipping, when editable, deleted variables), with a blank
line after each heading.  Returns the full `output` list (the method
returns `'\n'.join(output[:-1])`) together with the possibly updated
state. -/
def buildForFile (st : ConfigState) (changes keysOnly : Bool)
    (commentSpacing minCommentSpacing : Int) (ignoreComments : Bool) :
    Except PyExc (List String × ConfigState) := do
  let acc ←
    (_get_priority_order st.defaults prioOfRawVars Option.none true).foldlM
      (buildHeadingStep changes keysOnly commentSpacing minCommentSpacing
        ignoreComments st.default_settings st.editable_dict)
      ([], st.data, st.defaults)
  pure (acc.1, { st with data := acc.2.1, defaults := acc.2.2 })

/-- `Config.save(file_name, changes=True, keys_only=False,
comment_spacing=0, ignore_comments=None)`: the lines of the written file
(the `[:-1]` drop of the final blank) and the updated state.  Writing to
disk and `create_folder` are external. -/
def configSave (st : ConfigState) (keysOnly : Bool) :
    Except PyExc (List String × ConfigState) := do
  let (output, st') ← buildForFile st true keysOnly 0 8 false
  pure (output.dropLast, st')

/-! ### `reload` -/

/-- `Config.reload()`: write every backup value back through the validating
assignment path. -/
def configReload (st : ConfigState) : Except PyExc ConfigState :=
  st.backup.foldlM
    (fun st hv =>
      hv.2.foldlM (fun st ve => configSetVar st hv.1 ve.1 ve.2) st)
    st

/-! ### Operation sequences

The mutating operations a store undergoes after construction, for claims
quantifying over "any sequence of loads and writes". -/

/-- A post-construction operation on the store. -/
inductive Op where
  | write (header item : String) (value : PyVal)
  | loadFile (lines : List String)
  | markNew
  | save (keysOnly : Bool)
  | reload

/-- Apply one operation. -/
def applyOp (st : ConfigState) : Op → Except PyExc ConfigState
  | .write h i v => configSetVar st h i v
  | .loadFile lines => updateFromFileLines st lines
  | .markNew => pure { st with is_new := true }
  | .save keysOnly => do
      let (_, st') ← configSave st keysOnly
      pure st'
  | .reload => configReload st

/-- Apply a sequence of operations. -/
def applyOps (st : ConfigState) (ops : List Op) : Except PyExc ConfigState :=
  ops.foldlM applyOp st

/-! ### Observation helpers -/

/-- The entry stored for `(heading, item)`, if any. -/
def entryAt (st : ConfigState) (heading item : String) : Option Entry :=
  (lookupKey st.data heading).bind (fun vars => lookupKey vars item)

/-- The current value stored for `(heading, item)`, if any. -/
def entryValue (st : ConfigState) (heading item : String) : Option PyVal :=
  (entryAt st heading item).bind (fun e => e.value?)

/-- The backup-snapshot value recorded for `(heading, item)`, if any. -/
def backupVal (st : ConfigState) (heading item : String) : Option PyVal :=
  (lookupKey st.backup heading).bind (fun bk => lookupKey bk item)

/-- The metadata of an entry that validation depends on (everything except
the mutable `value`/`default` slots). -/
def metaOf (e : Entry) :=
  (e.type?, e.lock?, e.min?, e.max?, e.valid?, e.case_sensitive?, e.allow_empty?,
   e.info?, e.priority?)

/-- Whether the entry's `lock` flag is truthy. -/
def lockedE (e : Entry) : Bool :=
  pyTruthy ((e.lock?).getD (.bool false))

/-! ### Association-list lemmas -/

theorem lookupKey_setKey_self [DecidableEq κ] (l : List (κ × α)) (k : κ) (v : α) :
    lookupKey (setKey l k v) k = Option.some v := by
  induction l with
  | nil => simp [setKey, lookupKey]
  | cons p t ih =>
      obtain ⟨k', v'⟩ := p
      by_cases h : k' = k
      · simp [setKey, h, lookupKey]
      · simp [setKey, h, lookupKey, ih]

theorem lookupKey_setKey_ne [DecidableEq κ] (l : List (κ × α)) (k k' : κ) (v : α)
    (h : k' ≠ k) : lookupKey (setKey l k v) k' = lookupKey l k' := by
  induction l with
  | nil => simp [setKey, lookupKey, Ne.symm h]
  | cons p t ih =>
      obtain ⟨k₀, v₀⟩ := p
      by_cases h0 : k₀ = k
      · subst h0
        simp [setKey, lookupKey, Ne.symm h]
      · simp only [setKey, if_neg h0]
        by_cases h1 : k₀ = k'
        · simp [lookupKey, h1]
        · simp [lookupKey, h1, ih]

theorem setKey_eq_of_lookup [DecidableEq κ] (l : List (κ × α)) (k : κ) (v : α)
    (h : lookupKey l k = Option.some v) : setKey l k v = l := by
  induction l with
  | nil => simp [lookupKey] at h
  | cons p t ih =>
      obtain ⟨k', v'⟩ := p
      by_cases h0 : k' = k
      · subst h0
        simp [lookupKey] at h
        simp [setKey, h]
      · simp [lookupKey, h0] at h
        simp [setKey, h0, ih h]

theorem keys_setKey_of_lookup [DecidableEq κ] (l : List (κ × α)) (k : κ) (v w : α)
    (h : lookupKey l k = Option.some w) :
    (setKey l k v).map Prod.fst = l.map Prod.fst := by
  induction l with
  | nil => simp [lookupKey] at h
  | cons p t ih =>
      obtain ⟨k', v'⟩ := p
      by_cases h0 : k' = k
      · subst h0
        simp [setKey]
      · simp [lookupKey, h0] at h
        simp [setKey, h0, ih h]

theorem lookupKey_eq_none_iff [DecidableEq κ] (l : List (κ × α)) (k : κ) :
    lookupKey l k = Option.none ↔ k ∉ l.map Prod.fst := by
  induction l with
  | nil => simp [lookupKey]
  | cons p t ih =>
      obtain ⟨k', v'⟩ := p
      by_cases h : k' = k
      · subst h
        simp [lookupKey]
      · simp [lookupKey, h, ih, Ne.symm h]

theorem eraseKey_sublist [DecidableEq κ] (l : List (κ × α)) (k : κ) :
    (eraseKey l k).Sublist l := by
  induction l with
  | nil => simp [eraseKey]
  | cons p t ih =>
      obtain ⟨k', v'⟩ := p
      by_cases h : k' = k
      · simp [eraseKey, h]
      · simpa [eraseKey, h] using ih

theorem length_eraseKey_of_lookup [DecidableEq κ] (l : List (κ × α)) (k : κ) (v : α)
    (h : lookupKey l k = Option.some v) : (eraseKey l k).length + 1 = l.length := by
  induction l with
  | nil => simp [lookupKey] at h
  | cons p t ih =>
      obtain ⟨k', v'⟩ := p
      by_cases h0 : k' = k
      · simp [eraseKey, h0]
      · simp [lookupKey, h0] at h
        simp [eraseKey, h0, ih h]

theorem lookup_eraseKey_ne [DecidableEq κ] (l : List (κ × α)) (k k' : κ)
    (h : k' ≠ k) : lookupKey (eraseKey l k) k' = lookupKey l k' := by
  induction l with
  | nil => simp [eraseKey]
  | cons p t ih =>
      obtain ⟨k₀, v₀⟩ := p
      by_cases h0 : k₀ = k
      · subst h0
        simp [eraseKey, lookupKey, Ne.symm h]
      · by_cases h1 : k₀ = k'
        · subst h1
          simp [eraseKey, h0, lookupKey]
        · simp [eraseKey, h0, lookupKey, h1, ih]

theorem not_mem_keys_eraseKey_of_nodup [DecidableEq κ] (l : List (κ × α)) (k : κ)
    (hnd : (l.map Prod.fst).Nodup) : k ∉ (eraseKey l k).map Prod.fst := by
  induction l with
  | nil => simp [eraseKey]
  | cons p t ih =>
      obtain ⟨k', v'⟩ := p
      simp only [List.map_cons, List.nodup_cons] at hnd
      by_cases h : k' = k
      · subst h
        simpa [eraseKey] using hnd.1
      · simp only [eraseKey, if_neg h, List.map_cons, List.mem_cons]
        rintro (rfl | hmem)
        · exact h rfl
        · exact ih hnd.2 hmem

theorem lookup_eraseKey_self_of_nodup [DecidableEq κ] (l : List (κ × α)) (k : κ)
    (hnd : (l.map Prod.fst).Nodup) : lookupKey (eraseKey l k) k = Option.none :=
  (lookupKey_eq_none_iff _ _).mpr (not_mem_keys_eraseKey_of_nodup l k hnd)

theorem keys_eraseKey_sublist [DecidableEq κ] (l : List (κ × α)) (k : κ) :
    ((eraseKey l k).map Prod.fst).Sublist (l.map Prod.fst) :=
  (eraseKey_sublist l k).map Prod.fst

/-! ### Counting the keys that the priority loop emits -/

/-- The number of occurrences of `k` across all buckets. -/
def countBuckets (k : String) (gs : List (Option Int × List String)) : Nat :=
  (gs.map (fun g => g.2.count k)).sum

theorem countBuckets_eraseKey (gs : List (Option Int × List String))
    (p : Option Int) (ks : List String) (k : String)
    (h : lookupKey gs p = Option.some ks) :
    countBuckets k gs = ks.count k + countBuckets k (eraseKey gs p) := by
  induction gs with
  | nil => simp [lookupKey] at h
  | cons g t ih =>
      obtain ⟨q, ks₀⟩ := g
      by_cases h0 : q = p
      · subst h0
        simp [lookupKey] at h
        subst h
        simp [countBuckets, eraseKey]
      · simp [lookupKey, h0] at h
        simp only [countBuckets, eraseKey, if_neg h0, List.map_cons, List.sum_cons]
        have := ih h
        simp only [countBuckets] at this
        omega

theorem insertSorted_count (x : String) (l : List String) (k : String) :
    (insertSorted x l).count k = l.count k + (if x = k then 1 else 0) := by
  induction l with
  | nil => simp [insertSorted, List.count_cons, List.count_nil, beq_iff_eq]
  | cons y t ih =>
      cases hxy : strLt y x with
      | true =>
          simp only [insertSorted, hxy, if_true, List.count_cons, ih, beq_iff_eq]
          omega
      | false =>
          simp only [insertSorted, hxy, Bool.false_eq_true, if_false,
            List.count_cons, beq_iff_eq]

theorem sortStrs_count (l : List String) (k : String) :
    (sortStrs l).count k = l.count k := by
  induction l with
  | nil => simp [sortStrs]
  | cons x t ih =>
      simp only [sortStrs, insertSorted_count, ih, List.count_cons, beq_iff_eq]

/-! ### Bounds on the integer priorities -/

theorem foldl_max_init_le (l : List Int) (a : Int) : a ≤ l.foldl max a := by
  induction l generalizing a with
  | nil => simp
  | cons x t ih => exact le_trans (le_max_left a x) (ih (max a x))

theorem mem_le_foldl_max (l : List Int) (a : Int) : ∀ m ∈ l, m ≤ l.foldl max a := by
  induction l generalizing a with
  | nil => simp
  | cons x t ih =>
      intro m hm
      rcases List.mem_cons.mp hm with rfl | hm
      · exact le_trans (le_max_right a m) (foldl_max_init_le t (max a m))
      · exact ih (max a x) m hm

theorem foldl_max_le (l : List Int) (a b : Int) (ha : a ≤ b)
    (hl : ∀ m ∈ l, m ≤ b) : l.foldl max a ≤ b := by
  induction l generalizing a with
  | nil => simpa
  | cons x t ih =>
      exact ih (max a x) (max_le ha (hl x (List.mem_cons_self x t)))
        (fun m hm => hl m (List.mem_cons_of_mem x hm))

theorem le_maxKInt (gs : List (Option Int × List String)) :
    ∀ m ∈ intKeys gs, m ≤ maxKInt gs :=
  mem_le_foldl_max (intKeys gs) 0

theorem maxKInt_nonneg (gs : List (Option Int × List String)) : 0 ≤ maxKInt gs :=
  foldl_max_init_le (intKeys gs) 0

theorem maxKInt_mono (gs gs' : List (Option Int × List String))
    (h : ∀ m ∈ intKeys gs', m ∈ intKeys gs) : maxKInt gs' ≤ maxKInt gs :=
  foldl_max_le (intKeys gs') 0 (maxKInt gs) (maxKInt_nonneg gs)
    (fun m hm => le_maxKInt gs m (h m hm))

theorem mem_intKeys_of_eraseKey (gs : List (Option Int × List String))
    (p : Option Int) : ∀ m ∈ intKeys (eraseKey gs p), m ∈ intKeys gs := by
  intro m hm
  exact ((eraseKey_sublist gs p).filterMap Prod.fst).subset hm

theorem foldl_min_init_le (l : List Int) (a : Int) : l.foldl min a ≤ a := by
  induction l generalizing a with
  | nil => simp
  | cons x t ih => exact le_trans (ih (min a x)) (min_le_left a x)

theorem foldl_min_le_mem (l : List Int) (a : Int) : ∀ m ∈ l, l.foldl min a ≤ m := by
  induction l generalizing a with
  | nil => simp
  | cons x t ih =>
      intro m hm
      rcases List.mem_cons.mp hm with rfl | hm
      · exact le_trans (foldl_min_init_le t (min a m)) (min_le_right a m)
      · exact ih (min a x) m hm

theorem startSlot_le (gs : List (Option Int × List String)) :
    ∀ m ∈ intKeys gs, startSlot gs ≤ m := by
  intro m hm
  unfold startSlot
  cases h : intKeys gs with
  | nil => rw [h] at hm; simp at hm
  | cons n ns =>
      rw [h] at hm
      rcases List.mem_cons.mp hm with rfl | hm
      · exact foldl_min_init_le ns m
      · exact foldl_min_le_mem ns n m hm

theorem mem_intKeys_of_lookup_none (gs : List (Option Int × List String))
    (hgs : gs ≠ []) (hnone : lookupKey gs Option.none = Option.none) :
    ∃ m, m ∈ intKeys gs := by
  cases gs with
  | nil => exact absurd rfl hgs
  | cons g t =>
      obtain ⟨q, ks⟩ := g
      cases q with
      | none => simp [lookupKey] at hnone
      | some m => exact ⟨m, by simp [intKeys]⟩

theorem not_mem_intKeys_of_lookup_none (gs : List (Option Int × List String))
    (c : Int) (h : lookupKey gs (Option.some c) = Option.none) :
    c ∉ intKeys gs := by
  intro hmem
  rw [lookupKey_eq_none_iff] at h
  simp only [intKeys, List.mem_filterMap] at hmem
  obtain ⟨⟨q, ks⟩, hq, hqc⟩ := hmem
  exact h (by
    simp only [List.mem_map]
    exact ⟨(q, ks), hq, by simpa using hqc⟩)

theorem mem_keys_of_mem_intKeys (gs : List (Option Int × List String)) (m : Int)
    (h : m ∈ intKeys gs) : Option.some m ∈ gs.map Prod.fst := by
  simp only [intKeys, List.mem_filterMap] at h
  obtain ⟨⟨q, ks⟩, hq, hqc⟩ := h
  simp only [List.mem_map]
  exact ⟨(q, ks), hq, by simpa using hqc⟩

/-! ### The grouping step -/

theorem countBuckets_setKey_append (gs : List (Option Int × List String))
    (p : Option Int) (ks : List String) (k' k : String)
    (h : lookupKey gs p = Option.some ks) :
    countBuckets k (setKey gs p (ks ++ [k'])) =
      countBuckets k gs + (if k' = k then 1 else 0) := by
  induction gs with
  | nil => simp [lookupKey] at h
  | cons g t ih =>
      obtain ⟨q, ks₀⟩ := g
      by_cases h0 : q = p
      · subst h0
        simp [lookupKey] at h
        subst h
        simp only [setKey, if_pos rfl, countBuckets, List.map_cons, List.sum_cons,
          List.count_append]
        simp [List.count_cons, beq_iff_eq]
        omega
      · simp only [lookupKey, if_neg h0] at h
        simp only [setKey, if_neg h0, countBuckets, List.map_cons, List.sum_cons]
        have := ih h
        simp only [countBuckets] at this
        omega

theorem countBuckets_addToBucket (gs : List (Option Int × List String))
    (p : Option Int) (k' k : String) :
    countBuckets k (addToBucket gs p k') =
      countBuckets k gs + (if k' = k then 1 else 0) := by
  unfold addToBucket
  cases hl : lookupKey gs p with
  | none =>
      simp only [countBuckets, List.map_append, List.sum_append, List.map_cons,
        List.sum_cons, List.map_nil, List.sum_nil]
      simp [List.count_cons, beq_iff_eq]
  | some ks => exact countBuckets_setKey_append gs p ks k' k hl

theorem keys_addToBucket_nodup (gs : List (Option Int × List String))
    (p : Option Int) (k : String) (hnd : (gs.map Prod.fst).Nodup) :
    ((addToBucket gs p k).map Prod.fst).Nodup := by
  unfold addToBucket
  cases hl : lookupKey gs p with
  | none =>
      rw [lookupKey_eq_none_iff] at hl
      simp only [List.map_append, List.map_cons, List.map_nil]
      rw [List.nodup_append]
      exact ⟨hnd, List.nodup_singleton p,
        fun a ha hpa => hl (by rwa [List.mem_singleton.mp hpa] at ha)⟩
  | some ks =>
      rw [keys_setKey_of_lookup gs p _ ks hl]
      exact hnd

theorem buildPriorities_fold (prioOf : α → Option Int) (dflt : Option Int)
    (values : List (String × α)) :
    ∀ acc, ((acc.map Prod.fst).Nodup) →
      (((values.foldl (bucketStep prioOf dflt) acc).map Prod.fst).Nodup ∧
       ∀ k, startsWithUnderscore k = false →
         countBuckets k (values.foldl (bucketStep prioOf dflt) acc) =
           countBuckets k acc + (values.map Prod.fst).count k) := by
  induction values with
  | nil => intro acc hnd; simpa using hnd
  | cons kv rest ih =>
      intro acc hnd
      obtain ⟨key, v⟩ := kv
      simp only [List.foldl_cons]
      by_cases hu : startsWithUnderscore key = true
      · have hstep : bucketStep prioOf dflt acc (key, v) = acc := by
          simp [bucketStep, hu]
        rw [hstep]
        obtain ⟨ihn, ihc⟩ := ih acc hnd
        refine ⟨ihn, fun k hk => ?_⟩
        rw [ihc k hk]
        have hne : key ≠ k := by
          rintro rfl
          rw [hu] at hk
          cases hk
        simp [List.count_cons, beq_iff_eq, hne]
      · rw [Bool.not_eq_true] at hu
        have hstep : bucketStep prioOf dflt acc (key, v) =
            addToBucket acc (match prioOf v with
              | Option.some p => Option.some p
              | Option.none => dflt) key := by
          simp [bucketStep, hu]
        rw [hstep]
        set p := (match prioOf v with
          | Option.some p => Option.some p
          | Option.none => dflt) with hp
        obtain ⟨ihn, ihc⟩ := ih (addToBucket acc p key)
          (keys_addToBucket_nodup acc p key hnd)
        refine ⟨ihn, fun k hk => ?_⟩
        rw [ihc k hk, countBuckets_addToBucket]
        simp only [List.map_cons, List.count_cons, beq_iff_eq]
        omega

/-! ### The loop: fuel sufficiency and key multiplicity -/

theorem ploopN_count (egl : Bool) (k : String) :
    ∀ n gs current order endAcc,
      (∀ m ∈ intKeys gs, current ≤ m) →
      ((gs.map Prod.fst).Nodup) →
      (lookupKey gs Option.none = Option.none ∨ endAcc = []) →
      fuelFor gs current ≤ n →
      (ploopN egl n gs current order endAcc).count k =
        order.count k + endAcc.count k + countBuckets k gs := by
  intro n
  induction n using Nat.strong_induction_on with
  | _ n ihn =>
    intro gs current order endAcc hge hnd hend hfuel
    cases gs with
    | nil =>
        cases n <;> simp [ploopN, countBuckets, List.count_append]
    | cons g gs' =>
        cases n with
        | zero => simp [fuelFor] at hfuel
        | succ m =>
          have hm : m < m + 1 := Nat.lt_succ_self m
          simp only [ploopN]
          cases hcur : lookupKey (g :: gs') (Option.some current) with
          | some ks =>
              have hlen := length_eraseKey_of_lookup (g :: gs') (Option.some current) ks hcur
              have hmax := maxKInt_mono (g :: gs') (eraseKey (g :: gs') (Option.some current))
                (mem_intKeys_of_eraseKey (g :: gs') (Option.some current))
              have hge₂ : ∀ x ∈ intKeys (eraseKey (g :: gs') (Option.some current)),
                  current + 1 ≤ x := by
                intro x hx
                have hx' := mem_intKeys_of_eraseKey (g :: gs') (Option.some current) x hx
                have h1 := hge x hx'
                rcases lt_or_eq_of_le h1 with h2 | h2
                · omega
                · exfalso
                  rw [← h2] at hx
                  exact not_mem_keys_eraseKey_of_nodup (g :: gs') (Option.some current)
                    hnd (mem_keys_of_mem_intKeys _ current hx)
              have hnd₂ := hnd.sublist (keys_eraseKey_sublist (g :: gs') (Option.some current))
              have hend₂ : lookupKey (eraseKey (g :: gs') (Option.some current))
                  Option.none = Option.none ∨ endAcc = [] := by
                rcases hend with h1 | h1
                · exact Or.inl (by rw [lookup_eraseKey_ne _ _ _ (by simp)]; exact h1)
                · exact Or.inr h1
              have hfuel₂ : fuelFor (eraseKey (g :: gs') (Option.some current))
                  (current + 1) ≤ m := by
                have hnn := maxKInt_nonneg (eraseKey (g :: gs') (Option.some current))
                simp only [fuelFor] at hfuel ⊢
                omega
              rw [ihn m hm _ _ _ _ hge₂ hnd₂ hend₂ hfuel₂]
              rw [countBuckets_eraseKey (g :: gs') (Option.some current) ks k hcur]
              simp only [List.count_append, sortStrs_count]
              omega
          | none =>
              cases hnone : lookupKey (g :: gs') Option.none with
              | some ks =>
                  have hendnil : endAcc = [] := by
                    rcases hend with h1 | h1
                    · rw [h1] at hnone; cases hnone
                    · exact h1
                  have hlen := length_eraseKey_of_lookup (g :: gs') Option.none ks hnone
                  have hmax := maxKInt_mono (g :: gs') (eraseKey (g :: gs') Option.none)
                    (mem_intKeys_of_eraseKey (g :: gs') Option.none)
                  have hge₂ : ∀ x ∈ intKeys (eraseKey (g :: gs') Option.none),
                      current + 1 ≤ x := by
                    intro x hx
                    have hx' := mem_intKeys_of_eraseKey (g :: gs') Option.none x hx
                    have h1 := hge x hx'
                    rcases lt_or_eq_of_le h1 with h2 | h2
                    · omega
                    · exfalso
                      rw [← h2] at hx'
                      exact not_mem_intKeys_of_lookup_none (g :: gs') current hcur hx'
                  have hnd₂ := hnd.sublist (keys_eraseKey_sublist (g :: gs') Option.none)
                  have hend₂ : lookupKey (eraseKey (g :: gs') Option.none)
                      Option.none = Option.none ∨ sortStrs ks = [] :=
                    Or.inl (lookup_eraseKey_self_of_nodup (g :: gs') Option.none hnd)
                  have hend₂' : lookupKey (eraseKey (g :: gs') Option.none)
                      Option.none = Option.none ∨ endAcc = [] :=
                    Or.inl (lookup_eraseKey_self_of_nodup (g :: gs') Option.none hnd)
                  have hfuel₂ : fuelFor (eraseKey (g :: gs') Option.none)
                      (current + 1) ≤ m := by
                    have hnn := maxKInt_nonneg (eraseKey (g :: gs') Option.none)
                    simp only [fuelFor] at hfuel ⊢
                    omega
                  have hcb := countBuckets_eraseKey (g :: gs') Option.none ks k hnone
                  cases egl with
                  | true =>
                      simp only [if_true]
                      rw [ihn m hm _ _ _ _ hge₂ hnd₂ hend₂ hfuel₂]
                      rw [hcb, hendnil]
                      simp only [List.count_nil, sortStrs_count]
                      omega
                  | false =>
                      simp only [Bool.false_eq_true, if_false]
                      rw [ihn m hm _ _ _ _ hge₂ hnd₂ hend₂' hfuel₂]
                      rw [hcb]
                      simp only [List.count_append, sortStrs_count]
                      omega
              | none =>
                  obtain ⟨m₀, hm₀⟩ := mem_intKeys_of_lookup_none (g :: gs')
                    (by simp) hnone
                  have hge₂ : ∀ x ∈ intKeys (g :: gs'), current + 1 ≤ x := by
                    intro x hx
                    have h1 := hge x hx
                    rcases lt_or_eq_of_le h1 with h2 | h2
                    · omega
                    · exfalso
                      rw [← h2] at hx
                      exact not_mem_intKeys_of_lookup_none (g :: gs') current hcur hx
                  have hfuel₂ : fuelFor (g :: gs') (current + 1) ≤ m := by
                    have hmx := le_maxKInt (g :: gs') m₀ hm₀
                    have h1 := hge₂ m₀ hm₀
                    simp only [fuelFor] at hfuel ⊢
                    omega
                  exact ihn m hm _ _ _ _ hge₂ hnd hend hfuel₂

theorem ploopN_fuel_succ (egl : Bool) :
    ∀ n gs current order endAcc,
      (∀ m ∈ intKeys gs, current ≤ m) →
      ((gs.map Prod.fst).Nodup) →
      fuelFor gs current ≤ n →
      ploopN egl n gs current order endAcc =
        ploopN egl (n + 1) gs current order endAcc := by
  intro n
  induction n using Nat.strong_induction_on with
  | _ n ihn =>
    intro gs current order endAcc hge hnd hfuel
    cases gs with
    | nil => cases n <;> simp [ploopN]
    | cons g gs' =>
        cases n with
        | zero => simp [fuelFor] at hfuel
        | succ m =>
          have hm : m < m + 1 := Nat.lt_succ_self m
          rw [show m + 1 + 1 = Nat.succ (m + 1) from rfl, ploopN.eq_3, ploopN.eq_3]
          cases hcur : lookupKey (g :: gs') (Option.some current) with
          | some ks =>
              simp only [hcur]
              have hlen := length_eraseKey_of_lookup (g :: gs') (Option.some current) ks hcur
              have hmax := maxKInt_mono (g :: gs') (eraseKey (g :: gs') (Option.some current))
                (mem_intKeys_of_eraseKey (g :: gs') (Option.some current))
              have hge₂ : ∀ x ∈ intKeys (eraseKey (g :: gs') (Option.some current)),
                  current + 1 ≤ x := by
                intro x hx
                have hx' := mem_intKeys_of_eraseKey (g :: gs') (Option.some current) x hx
                have h1 := hge x hx'
                rcases lt_or_eq_of_le h1 with h2 | h2
                · omega
                · exfalso
                  rw [← h2] at hx
                  exact not_mem_keys_eraseKey_of_nodup (g :: gs') (Option.some current)
                    hnd (mem_keys_of_mem_intKeys _ current hx)
              have hnd₂ := hnd.sublist (keys_eraseKey_sublist (g :: gs') (Option.some current))
              have hfuel₂ : fuelFor (eraseKey (g :: gs') (Option.some current))
                  (current + 1) ≤ m := by
                have hnn := maxKInt_nonneg (eraseKey (g :: gs') (Option.some current))
                simp only [fuelFor] at hfuel ⊢
                omega
              exact ihn m hm _ _ _ _ hge₂ hnd₂ hfuel₂
          | none =>
              cases hnone : lookupKey (g :: gs') Option.none with
              | some ks =>
                  have hlen := length_eraseKey_of_lookup (g :: gs') Option.none ks hnone
                  have hmax := maxKInt_mono (g :: gs') (eraseKey (g :: gs') Option.none)
                    (mem_intKeys_of_eraseKey (g :: gs') Option.none)
                  have hge₂ : ∀ x ∈ intKeys (eraseKey (g :: gs') Option.none),
                      current + 1 ≤ x := by
                    intro x hx
                    have hx' := mem_intKeys_of_eraseKey (g :: gs') Option.none x hx
                    have h1 := hge x hx'
                    rcases lt_or_eq_of_le h1 with h2 | h2
                    · omega
                    · exfalso
                      rw [← h2] at hx'
                      exact not_mem_intKeys_of_lookup_none (g :: gs') current hcur hx'
                  have hnd₂ := hnd.sublist (keys_eraseKey_sublist (g :: gs') Option.none)
                  have hfuel₂ : fuelFor (eraseKey (g :: gs') Option.none)
                      (current + 1) ≤ m := by
                    have hnn := maxKInt_nonneg (eraseKey (g :: gs') Option.none)
                    simp only [fuelFor] at hfuel ⊢
                    omega
                  cases egl with
                  | true =>
                      simp only [if_true]
                      exact ihn m hm _ _ _ _ hge₂ hnd₂ hfuel₂
                  | false =>
                      simp only [Bool.false_eq_true, if_false]
                      exact ihn m hm _ _ _ _ hge₂ hnd₂ hfuel₂
              | none =>
                  obtain ⟨m₀, hm₀⟩ := mem_intKeys_of_lookup_none (g :: gs')
                    (by simp) hnone
                  have hge₂ : ∀ x ∈ intKeys (g :: gs'), current + 1 ≤ x := by
                    intro x hx
                    have h1 := hge x hx
                    rcases lt_or_eq_of_le h1 with h2 | h2
                    · omega
                    · exfalso
                      rw [← h2] at hx
                      exact not_mem_intKeys_of_lookup_none (g :: gs') current hcur hx
                  have hfuel₂ : fuelFor (g :: gs') (current + 1) ≤ m := by
                    have hmx := le_maxKInt (g :: gs') m₀ hm₀
                    have h1 := hge₂ m₀ hm₀
                    simp only [fuelFor] at hfuel ⊢
                    omega
                  exact ihn m hm _ _ _ _ hge₂ hnd hfuel₂

theorem ploopN_fuel_irrelevant (egl : Bool) (gs : List (Option Int × List String))
    (current : Int) (order endAcc : List String)
    (hge : ∀ m ∈ intKeys gs, current ≤ m)
    (hnd : (gs.map Prod.fst).Nodup) :
    ∀ extra : Nat,
      ploopN egl (fuelFor gs current + extra) gs current order endAcc =
        ploopN egl (fuelFor gs current) gs current order endAcc := by
  intro extra
  induction extra with
  | zero => rfl
  | succ e ihe =>
      rw [← ihe]
      have hstep := ploopN_fuel_succ egl (fuelFor gs current + e) gs current order
        endAcc hge hnd (Nat.le_add_right _ _)
      exact hstep.symm

/-! ### Claim C10 — termination and key multiplicity of the resolver -/

/-- C10: for every input mapping with integer-or-absent priorities (the
shape of the model's `prioOf`) and distinct keys, the priority-order
computation terminates — running the `while` loop with any extra fuel
beyond the chosen bound changes nothing, i.e. the loop has emptied its
dict — and the result contains each key not beginning with the underscore
marker exactly once. -/
theorem C10_priority_total {α : Type _} (values : List (String × α))
    (prioOf : α → Option Int) (dflt : Option Int) (egl : Bool)
    (hnd : (values.map Prod.fst).Nodup) :
    (∀ extra : Nat,
      ploopN egl (fuelFor (buildPriorities values prioOf dflt)
          (startSlot (buildPriorities values prioOf dflt)) + extra)
        (buildPriorities values prioOf dflt)
        (startSlot (buildPriorities values prioOf dflt)) [] [] =
      _get_priority_order values prioOf dflt egl) ∧
    (∀ k, k ∈ values.map Prod.fst → startsWithUnderscore k = false →
      (_get_priority_order values prioOf dflt egl).count k = 1) := by
  obtain ⟨hgnd, hgcount⟩ := buildPriorities_fold prioOf dflt values [] (by simp)
  constructor
  · intro extra
    unfold _get_priority_order
    exact ploopN_fuel_irrelevant egl _ _ [] [] (startSlot_le _) hgnd extra
  · intro k hk hku
    unfold _get_priority_order
    rw [ploopN_count egl k (fuelFor (buildPriorities values prioOf dflt)
        (startSlot (buildPriorities values prioOf dflt)))
      (buildPriorities values prioOf dflt)
      (startSlot (buildPriorities values prioOf dflt)) [] []
      (startSlot_le _) hgnd (Or.inr rfl) le_rfl]
    have h1 := hgcount k hku
    simp only [countBuckets, List.map_nil, List.sum_nil, Nat.zero_add] at h1
    simp only [List.count_nil, countBuckets, buildPriorities]
    rw [h1]
    simp [List.count_eq_one_of_mem hnd hk]

/-- Witness for C10 at a concrete mapping. -/
theorem C10_witness :
    (_get_priority_order [("a", Option.some (2 : Int)), ("_hidden", Option.none),
      ("c", Option.none)] id Option.none true).count "c" = 1 :=
  (C10_priority_total [("a", Option.some (2 : Int)), ("_hidden", Option.none),
    ("c", Option.none)] id Option.none true (by decide)).2 "c" (by decide) (by decide)

/-! ### Claim C3 — lock invariance -/

/-- C3: for every entry whose lock flag is truthy, a write through
`_ConfigDict.__setitem__` — whatever the type or value of the input — leaves
the store (in particular the entry's stored value) unchanged:
`__setitem__` returns before any mutation when `info.get('lock', False)` is
truthy. -/
theorem C3_lock_invariance (st : ConfigState) (h v : String) (vars : Vars)
    (e : Entry) (value : PyVal)
    (hh : lookupKey st.data h = Option.some vars)
    (hv : lookupKey vars v = Option.some e)
    (hlock : lockedE e = true) :
    configSetVar st h v value = .ok st := by
  simp only [lockedE] at hlock
  simp only [configSetVar, dictSetitem, hh, hv]
  simp only [pure, Except.pure, Except.bind, bind]
  simp [hlock, setKey_eq_of_lookup st.data h vars hh]

/-- Witness for C3 at a concrete locked entry. -/
def c3st : ConfigState where
  data := [("H", [("v",
    { value? := Option.some (.int 1), type? := Option.some .int,
      default? := Option.some (.int 1), lock? := Option.some (.bool true) })])]
  backup := [("H", [("v", .int 1)])]
  defaults := [("H", [("v", .dict
    { value? := Option.some (.int 1), type? := Option.some .int,
      lock? := Option.some (.bool true) })])]
  default_settings := Option.none
  editable_dict := true
  is_new := false

theorem C3_witness : configSetVar c3st "H" "v" (.str "boom") = .ok c3st :=
  C3_lock_invariance c3st "H" "v" _ _ (.str "boom") rfl rfl rfl

/-! ### Claim C4 — the "empty fills gap" example -/

/-- The input `{a: priority 2, c: no priority}`. -/
def c4values : List (String × RawVal) :=
  [("a", .dict { priority? := Option.some 2 }), ("c", .dict {})]

/-- C4 counterexample: with `empty_goes_last=False` ("empty fills gap") the
resolver does **not** return `[c, a]`: slots start at the minimum explicit
priority 2, which holds `a`, so the unprioritized group lands at slot 3. -/
theorem C4_counterexample :
    _get_priority_order c4values prioOfRawVal Option.none false ≠ ["c", "a"] := by
  decide

/-- C4 amended: for `{a: priority 2, c: no priority}` under "empty fills
gap", the resolver returns `[a, c]` — the starting slot is the minimum
explicit priority (2), taken by `a`, and the unprioritized group fills the
first empty slot after it. -/
theorem C4_priority_amended :
    _get_priority_order c4values prioOfRawVal Option.none false = ["a", "c"] := by
  decide

/-! ### Claim C7 — deletes are not guarded by editability -/

/-- A non-editable store with one heading and one entry. -/
def c7st : ConfigState where
  data := [("H", [("v",
    { value? := Option.some (.int 1), type? := Option.some .int,
      default? := Option.some (.int 1) })])]
  backup := [("H", [("v", .int 1)])]
  defaults := [("H", [("v", .scalar (.int 1))])]
  default_settings := Option.none
  editable_dict := false
  is_new := false

/-- C7: on a non-editable store, `Config.__delitem__` and
`_ConfigDict.__delitem__` **succeed** — `del self._data[item]` carries no
editability check, contradicting the constructor's documentation
("Enabling editable_dict will allow keys to be created and deleted.
Disable if config contains important values.").  Deleting the heading and
deleting the entry both go through with no error. -/
theorem C7_delete_unguarded :
    configDelitem c7st "H" = .ok { c7st with data := [] } ∧
    configDelVar c7st "H" "v" = .ok { c7st with data := [("H", [])] } := by
  decide

/-! ### Claim C5 — unknown keys during load -/

/-- An editable store (the constructor default) with schema `{H: {v: 5}}`. -/
def c5st : ConfigState where
  data := [("H", [("v",
    { value? := Option.some (.int 5), type? := Option.some .int,
      default? := Option.some (.int 5) })])]
  backup := [("H", [("v", .int 5)])]
  defaults := [("H", [("v", .scalar (.int 5))])]
  default_settings := Option.none
  editable_dict := true
  is_new := false

/-- C5 counterexample: on an editable store, an assignment line whose
variable name has no counterpart in the default schema is **not** skipped —
`_ConfigDict.__setitem__`'s `KeyError` handler creates a brand-new entry
(value `"x"`, inferred type `str`), so the store gains an entry. -/
theorem C5_counterexample :
    (updateFromFileLines c5st ["[H]", "newvar = x"]).map
        (fun st => entryValue st "H" "newvar") =
      .ok (Option.some (.str "x")) := by
  decide

/-- C5 amended: an assignment line for an unknown *heading* is always
silently skipped (no error, store unchanged), and an assignment line for an
unknown *variable* under a known heading is silently skipped when the store
is **not** editable; on an editable store such a line instead creates a new
entry (see the counterexample). -/
theorem C5_unknown_skip_amended (st : ConfigState) (line : String) (hd : String)
    (c : Char) (rest a b : List Char)
    (hcs : stripChars (takeBeforeComment (stripChars line.data)) = c :: rest)
    (hnh : ¬(c = '[' ∧ (c :: rest).getLast (by simp) = ']'))
    (hsp : splitFirstEq (c :: rest) = Option.some (a, b))
    (hskip : lookupKey st.data hd = Option.none ∨
      (st.editable_dict = false ∧
        ∀ vars, lookupKey st.data hd = Option.some vars →
          lookupKey vars (String.mk (stripChars a)) = Option.none)) :
    processLine st (Option.some hd) line = .ok (st, Option.some hd) := by
  simp only [processLine, hcs]
  rw [if_neg hnh]
  simp only [hsp]
  rcases hskip with hu | ⟨hed, hv⟩
  · simp [configSetVar, hu, pure, Except.pure]
  · cases hvars : lookupKey st.data hd with
    | none => simp [configSetVar, hvars, pure, Except.pure]
    | some vars =>
        simp [configSetVar, hvars, dictSetitem, hv vars hvars, hed, pure, Except.pure,
          Except.bind, bind, throw, throwThe, MonadExceptOf.throw]

/-- Witness for C5 at a concrete non-editable store and unknown variable. -/
def c5stNE : ConfigState :=
  { c5st with editable_dict := false }

theorem C5_witness :
    processLine c5stNE (Option.some "H") "newvar = x" = .ok (c5stNE, Option.some "H") :=
  C5_unknown_skip_amended c5stNE "newvar = x" "H" 'n'
    "ewvar = x".data "newvar ".data " x".data rfl
    (by decide) rfl
    (Or.inr ⟨rfl, by decide⟩)

/-! ### Claim C6 — failed coercion on write -/

/-- A store with an int entry (bounds 0–10). -/
def c6st : ConfigState where
  data := [("H", [("v",
    { value? := Option.some (.int 5), type? := Option.some .int,
      default? := Option.some (.int 5), min? := Option.some (.int 0),
      max? := Option.some (.int 10) })])]
  backup := [("H", [("v", .int 5)])]
  defaults := [("H", [("v", .dict
    { value? := Option.some (.int 5), type? := Option.some .int,
      min? := Option.some (.int 0), max? := Option.some (.int 10) })])]
  default_settings := Option.none
  editable_dict := true
  is_new := false

/-- C6 counterexample: writing `None` (standing for any non-scalar input)
to an int entry is **not** a silent no-op — `int(None)` raises `TypeError`,
which `_validate` does not catch (it only catches `ValueError`), so the
write raises. -/
theorem C6_counterexample :
    configSetVar c6st "H" "v" .none = .error .typeError := by
  decide

/-- C6 amended: for a numeric entry, a write whose coercion fails with
`ValueError` (the failure mode of numeric and textual inputs) is a silent
no-op — the prior value is retained and nothing is raised; coercion of
inputs outside the scalar types fails with an uncaught `TypeError` instead
(see the counterexample).  String and boolean entries never fail coercion. -/
theorem C6_coercion_noop_amended (st : ConfigState) (h v : String) (vars : Vars)
    (e : Entry) (t : TypeTag) (d cv cw value : PyVal)
    (hh : lookupKey st.data h = Option.some vars)
    (hv : lookupKey vars v = Option.some e)
    (ht : e.type? = Option.some t) (htn : t = .int ∨ t = .float)
    (hcv : e.value? = Option.some cv) (hnc : coerce t cv = .ok cw)
    (hd : e.default? = Option.some d) (hdc : coerce t d = .ok d)
    (hlock : lockedE e = false)
    (hfail : coerce t value = .error .valueError) :
    configSetVar st h v value = .ok st := by
  simp only [lockedE] at hlock
  obtain ⟨ev, et, ed, el, emn, emx, evd, ecs, eae, einf, epr⟩ := e
  dsimp only at ht hcv hd hlock
  subst ht hcv hd
  rcases htn with rfl | rfl <;>
    simp [configSetVar, dictSetitem, hh, hv, createConfigItem, newCoerce, hnc, hdc,
      setValue, validateItem, validateNumber, hlock, hfail, pure, Except.pure,
      Except.bind, bind, setKey_eq_of_lookup vars v _ hv,
      setKey_eq_of_lookup st.data h vars hh]

theorem C6_witness :
    configSetVar c6st "H" "v" (.str "abc") = .ok c6st :=
  C6_coercion_noop_amended c6st "H" "v" _ _ .int (.int 5) (.int 5) (.int 5)
    (.str "abc") rfl rfl rfl (Or.inl rfl) rfl rfl rfl rfl rfl rfl

/-! ### Claim C8 — string writes and case folding -/

/-- A store with a case-insensitive string entry and no allowed-values
list. -/
def c8st : ConfigState where
  data := [("H", [("s",
    { value? := Option.some (.str "x"), type? := Option.some .str,
      default? := Option.some (.str "x") })])]
  backup := [("H", [("s", .str "x")])]
  defaults := [("H", [("s", .scalar (.str "x"))])]
  default_settings := Option.none
  editable_dict := true
  is_new := false

/-- C8 counterexample: with `caseSensitive` false and no allowed-values
list, writing `"  Hello  "` stores `"Hello"` — trimmed but **not**
lower-cased (lower-casing happens only on the `valid`-list path). -/
theorem C8_counterexample :
    (configSetVar c8st "H" "s" (.str "  Hello  ")).map
        (fun st => entryValue st "H" "s") =
      .ok (Option.some (.str "Hello")) ∧
    PyVal.str "Hello" ≠ .str "hello" := by
  decide

/-- A successful write through `_ConfigDict.__setitem__` at the store
level: with the variable present, unlocked, `create_config_item` yielding
`(e₁, t)` and validation accepting `w`, the store's entry gets `value := w`
(and `create_config_item`'s in-place effects). -/
theorem configSetVar_store (st : ConfigState) (h v : String) (vars : Vars)
    (e e₁ : Entry) (t : TypeTag) (value w : PyVal)
    (hh : lookupKey st.data h = Option.some vars)
    (hv : lookupKey vars v = Option.some e)
    (hlock : lockedE e = false)
    (hcr : createConfigItem e = .ok (e₁, t))
    (hval : validateItem e₁ t value = .ok (Option.some w)) :
    configSetVar st h v value =
      .ok { st with
        data := setKey st.data h (setKey vars v { e₁ with value? := Option.some w }) } := by
  simp only [lockedE] at hlock
  simp [configSetVar, dictSetitem, hh, hv, hlock, hcr, setValue, hval,
    pure, Except.pure, Except.bind, bind]

/-- A rejected write through `_ConfigDict.__setitem__` at the store level:
validation reporting `None` leaves the entry's value as it was (only
`create_config_item`'s in-place effects are applied). -/
theorem configSetVar_reject (st : ConfigState) (h v : String) (vars : Vars)
    (e e₁ : Entry) (t : TypeTag) (value cv : PyVal)
    (hh : lookupKey st.data h = Option.some vars)
    (hv : lookupKey vars v = Option.some e)
    (hlock : lockedE e = false)
    (hcr : createConfigItem e = .ok (e₁, t))
    (hcv : e₁.value? = Option.some cv)
    (hval : validateItem e₁ t value = .ok Option.none) :
    configSetVar st h v value =
      .ok { st with data := setKey st.data h (setKey vars v e₁) } := by
  simp only [lockedE] at hlock
  simp [configSetVar, dictSetitem, hh, hv, hlock, hcr, setValue, hval, hcv,
    pure, Except.pure, Except.bind, bind]

/-- A successful string validation is never on a locked entry. -/
theorem validateStr_not_locked (e : Entry) (value w : PyVal)
    (hw : validateStr e value = .ok (Option.some w)) : lockedE e = false := by
  by_contra hc
  simp only [lockedE] at hc
  rw [Bool.not_eq_false] at hc
  simp [validateStr, hc, pure, Except.pure] at hw

/-- What a successful string validation stores when `case_sensitive` is
falsy: the trimmed text, lower-cased exactly on the `valid`-list path. -/
theorem validateStr_result (e : Entry) (value w : PyVal)
    (hcs : pyTruthy ((e.case_sensitive?).getD (.bool false)) = false)
    (hw : validateStr e value = .ok (Option.some w)) :
    (e.valid? = Option.none → w = .str (pyStrip (pyStrFn value))) ∧
    (∀ l, e.valid? = Option.some l → w = .str (strLower (pyStrip (pyStrFn value)))) := by
  have hlock := validateStr_not_locked e value w hw
  simp only [lockedE] at hlock
  constructor
  · intro hvalid
    simp only [validateStr, hlock, hvalid, Bool.false_eq_true, if_false] at hw
    by_cases hemp : pyStrip (pyStrFn value) = ""
    · simp only [hemp, if_pos rfl] at hw
      by_cases hae : pyTruthy ((e.allow_empty?).getD (.bool false)) = true
      · simp [hae, pure, Except.pure] at hw
        rw [← hw, hemp]
      · rw [Bool.not_eq_true] at hae
        simp [hae, pure, Except.pure] at hw
    · simp [hemp, pure, Except.pure] at hw
      rw [← hw]
  · intro l hvalid
    simp only [validateStr, hlock, hvalid, hcs, Bool.false_eq_true, if_false] at hw
    by_cases hemp : pyStrip (pyStrFn value) = ""
    · simp only [hemp, if_pos rfl] at hw
      by_cases hae : pyTruthy ((e.allow_empty?).getD (.bool false)) = true
      · simp [hae, pure, Except.pure] at hw
        rw [← hw, hemp]
        simp [strLower]
      · rw [Bool.not_eq_true] at hae
        simp [hae, pure, Except.pure] at hw
    · simp only [hemp, if_neg hemp] at hw
      by_cases hmem : strLower (pyStrip (pyStrFn value)) ∈ l.map strLower
      · simp [hmem, pure, Except.pure] at hw
        rw [← hw]
      · simp [hmem, pure, Except.pure] at hw

/-- C8 amended: for a string entry with `caseSensitive` falsy, a successful
write stores the input trimmed of surrounding whitespace; it is additionally
lower-cased exactly when an allowed-values list is configured (the
`valid`-list membership path is the only one that folds case). -/
theorem C8_string_write_amended (st : ConfigState) (h v : String) (vars : Vars)
    (e : Entry) (value w : PyVal) (cv ds : PyVal)
    (hh : lookupKey st.data h = Option.some vars)
    (hv : lookupKey vars v = Option.some e)
    (ht : e.type? = Option.some .str)
    (hcs : pyTruthy ((e.case_sensitive?).getD (.bool false)) = false)
    (hcv : e.value? = Option.some cv)
    (hd : e.default? = Option.some ds) (hds : ds = .str (pyStrFn ds))
    (hw : validateStr e value = .ok (Option.some w)) :
    configSetVar st h v value =
      .ok { st with data := setKey st.data h (setKey vars v { e with value? := Option.some w }) } ∧
    (e.valid? = Option.none → w = .str (pyStrip (pyStrFn value))) ∧
    (∀ l, e.valid? = Option.some l → w = .str (strLower (pyStrip (pyStrFn value)))) := by
  have hlock := validateStr_not_locked e value w hw
  have hchar := validateStr_result e value w hcs hw
  have hcreate : createConfigItem e = .ok (e, .str) := by
    have he : { e with default? := Option.some ds } = e := by rw [← hd]
    rw [hcv, ht] at he
    simp [createConfigItem, ht, hcs, hcv, hd, newCoerce, coerce, ← hds, he,
      pure, Except.pure, Except.bind, bind]
  refine ⟨?_, hchar⟩
  exact configSetVar_store st h v vars e e .str value w hh hv hlock hcreate
    (by simp [validateItem, hw])

theorem C8_witness :
    (configSetVar c8st "H" "s" (.str "  Hello  ") =
      .ok { c8st with data := setKey c8st.data "H" (setKey
        [("s", { value? := Option.some (.str "x"), type? := Option.some .str,
                 default? := Option.some (.str "x") })] "s"
        { value? := Option.some (.str "Hello"), type? := Option.some .str,
          default? := Option.some (.str "x") }) }) ∧
    PyVal.str "Hello" = .str (pyStrip (pyStrFn (.str "  Hello  "))) := by
  have h := C8_string_write_amended c8st "H" "s"
    [("s", { value? := Option.some (.str "x"), type? := Option.some .str,
             default? := Option.some (.str "x") })]
    { value? := Option.some (.str "x"), type? := Option.some .str,
      default? := Option.some (.str "x") }
    (.str "  Hello  ") (.str "Hello") (.str "x") (.str "x")
    rfl rfl rfl rfl rfl rfl rfl (by decide)
  exact ⟨h.1, by rw [h.2.1 rfl]⟩

/-! ### Shell preservation: no operation touches `_default`, `_backup`,
`_default_settings` or `_editable_dict` (in the save modes the claims
quantify over, `changes=True`). -/

/-- The store components other than the live data and the `is_new` flag. -/
def sameShell (st st' : ConfigState) : Prop :=
  st'.defaults = st.defaults ∧ st'.backup = st.backup ∧
  st'.default_settings = st.default_settings ∧ st'.editable_dict = st.editable_dict

theorem sameShell_refl (st : ConfigState) : sameShell st st :=
  ⟨rfl, rfl, rfl, rfl⟩

theorem sameShell_trans (a b c : ConfigState) (h1 : sameShell a b)
    (h2 : sameShell b c) : sameShell a c := by
  obtain ⟨x1, x2, x3, x4⟩ := h1
  obtain ⟨y1, y2, y3, y4⟩ := h2
  exact ⟨y1.trans x1, y2.trans x2, y3.trans x3, y4.trans x4⟩

/-- Fold preservation for `Except`-monadic folds. -/
theorem foldlM_preserve {β σ : Type} (P : σ → σ → Prop)
    (Prefl : ∀ s, P s s) (Ptrans : ∀ a b c, P a b → P b c → P a c)
    (f : σ → β → Except PyExc σ)
    (hf : ∀ s b s', f s b = .ok s' → P s s') :
    ∀ (l : List β) (s s' : σ), l.foldlM f s = .ok s' → P s s' := by
  intro l
  induction l with
  | nil =>
      intro s s' h
      simp only [List.foldlM_nil, pure, Except.pure] at h
      cases h
      exact Prefl s
  | cons b t ih =>
      intro s s' h
      simp only [List.foldlM_cons] at h
      cases hb : f s b with
      | error e => rw [hb] at h; simp [Except.bind, bind] at h
      | ok s₁ =>
          rw [hb] at h
          simp only [Except.bind, bind] at h
          exact Ptrans s s₁ s' (hf s b s₁ hb) (ih s₁ s' h)

theorem configSetVar_shell (st : ConfigState) (h i : String) (value : PyVal)
    (st' : ConfigState) (hok : configSetVar st h i value = .ok st') :
    sameShell st st' := by
  unfold configSetVar at hok
  cases hl : lookupKey st.data h with
  | none => rw [hl] at hok; simp [throw, throwThe, MonadExceptOf.throw] at hok
  | some vars =>
      rw [hl] at hok
      simp only [Except.bind, bind] at hok
      cases hd : dictSetitem st.default_settings st.editable_dict vars i value with
      | error e => rw [hd] at hok; simp at hok
      | ok vars' =>
          rw [hd] at hok
          simp only [pure, Except.pure] at hok
          cases hok
          exact ⟨rfl, rfl, rfl, rfl⟩

theorem processLine_shell (st : ConfigState) (hdr : Option String) (line : String)
    (st' : ConfigState) (hdr' : Option String)
    (hok : processLine st hdr line = .ok (st', hdr')) : sameShell st st' := by
  unfold processLine at hok
  cases hcs : stripChars (takeBeforeComment (stripChars line.data)) with
  | nil =>
      rw [hcs] at hok
      simp only [pure, Except.pure] at hok
      cases hok
      exact sameShell_refl st
  | cons c rest =>
      rw [hcs] at hok
      dsimp only at hok
      by_cases hbr : c = '[' ∧ (c :: rest).getLast (by simp) = ']'
      · rw [if_pos hbr] at hok
        simp only [pure, Except.pure] at hok
        cases hok
        exact sameShell_refl st
      · rw [if_neg hbr] at hok
        cases hsp : splitFirstEq (c :: rest) with
        | none => rw [hsp] at hok; simp [throw, throwThe, MonadExceptOf.throw] at hok
        | some ab =>
            obtain ⟨a, b⟩ := ab
            rw [hsp] at hok
            cases hdr with
            | none => simp [throw, throwThe, MonadExceptOf.throw] at hok
            | some hd =>
                dsimp only at hok
                cases hset : configSetVar st hd (String.mk (stripChars a))
                    (.str (String.mk (stripChars b))) with
                | ok st₂ =>
                    rw [hset] at hok
                    simp only [pure, Except.pure] at hok
                    cases hok
                    exact configSetVar_shell _ _ _ _ _ hset
                | error e =>
                    rw [hset] at hok
                    cases e with
                    | keyError =>
                        simp only [pure, Except.pure] at hok
                        cases hok
                        exact sameShell_refl st
                    | valueError => simp [throw, throwThe, MonadExceptOf.throw] at hok
                    | typeError => simp [throw, throwThe, MonadExceptOf.throw] at hok
                    | attributeError => simp [throw, throwThe, MonadExceptOf.throw] at hok
                    | nameError => simp [throw, throwThe, MonadExceptOf.throw] at hok

theorem updateFromFileLines_shell (st : ConfigState) (lines : List String)
    (st' : ConfigState) (hok : updateFromFileLines st lines = .ok st') :
    sameShell st st' := by
  unfold updateFromFileLines at hok
  cases hfold : lines.foldlM
      (fun (acc : ConfigState × Option String) line => processLine acc.1 acc.2 line)
      (st, (Option.none : Option String)) with
  | error e => rw [hfold] at hok; simp [Except.bind, bind] at hok
  | ok p =>
      rw [hfold] at hok
      simp only [Except.bind, bind, pure, Except.pure] at hok
      cases hok
      have := foldlM_preserve (fun a b : ConfigState × Option String => sameShell a.1 b.1)
        (fun s => sameShell_refl s.1) (fun a b c => sameShell_trans a.1 b.1 c.1)
        (fun acc line => processLine acc.1 acc.2 line)
        (fun s b s' hs => by
          cases s' with
          | mk s1 s2 => exact processLine_shell s.1 s.2 b s1 s2 hs)
        lines (st, Option.none) p hfold
      exact this

theorem configReload_shell (st : ConfigState) (st' : ConfigState)
    (hok : configReload st = .ok st') : sameShell st st' := by
  unfold configReload at hok
  exact foldlM_preserve sameShell sameShell_refl sameShell_trans _
    (fun s hv s' hs =>
      foldlM_preserve sameShell sameShell_refl sameShell_trans _
        (fun s2 ve s2' hs2 => configSetVar_shell s2 hv.1 ve.1 ve.2 s2' hs2)
        hv.2 s s' hs)
    st.backup st st' hok

theorem buildVar_true_defaults (keysOnly : Bool) (cs ms : Int) (ic : Bool)
    (settings : Option Entry) (data : Data) (defaults : Schema)
    (heading varName : String) (line : String) (data' : Data) (defaults' : Schema)
    (hok : buildVar true keysOnly cs ms ic settings data defaults heading varName =
      .ok (line, data', defaults')) : defaults' = defaults := by
  unfold buildVar at hok
  simp only [if_true, ite_true, Except.bind, bind, pure, Except.pure, throw,
    throwThe, MonadExceptOf.throw] at hok
  cases hl : lookupKey data heading with
  | none =>
      rw [hl] at hok
      simp at hok
  | some vars =>
      rw [hl] at hok
      try dsimp only at hok
      cases he : lookupKey vars varName with
      | none =>
          rw [he] at hok
          simp at hok
      | some e =>
          rw [he] at hok
          try dsimp only at hok
          cases het : ensureType settings e with
          | error ex =>
              rw [het] at hok
              simp at hok
          | ok e' =>
              rw [het] at hok
              try dsimp only at hok
              cases ht : e'.type? with
              | none =>
                  rw [ht] at hok
                  simp at hok
              | some t =>
                  rw [ht] at hok
                  try dsimp only at hok
                  cases hdv : defaultValueFor t with
                  | error ex =>
                      rw [hdv] at hok
                      simp at hok
                  | ok dv =>
                      rw [hdv] at hok
                      try dsimp only at hok
                      cases hok
                      rfl

theorem buildVarStep_true_defaults (keysOnly : Bool) (cs ms : Int) (ic : Bool)
    (settings : Option Entry) (editable : Bool) (heading : String)
    (acc acc' : List String × Data × Schema) (varName : String)
    (hok : buildVarStep true keysOnly cs ms ic settings editable heading acc varName =
      .ok acc') : acc'.2.2 = acc.2.2 := by
  obtain ⟨output, data, defaults⟩ := acc
  unfold buildVarStep at hok
  dsimp only at hok
  split at hok
  · simp only [pure, Except.pure] at hok
    cases hok
    rfl
  · simp only [Except.bind, bind] at hok
    cases hbv : buildVar true keysOnly cs ms ic settings data defaults heading varName with
    | error e => rw [hbv] at hok; simp at hok
    | ok r =>
        rw [hbv] at hok
        simp only [pure, Except.pure] at hok
        cases hok
        exact buildVar_true_defaults keysOnly cs ms ic settings data defaults heading
          varName r.1 r.2.1 r.2.2 (by rw [hbv])

theorem buildHeadingStep_true_defaults (keysOnly : Bool) (cs ms : Int) (ic : Bool)
    (settings : Option Entry) (editable : Bool)
    (acc acc' : List String × Data × Schema) (heading : String)
    (hok : buildHeadingStep true keysOnly cs ms ic settings editable acc heading =
      .ok acc') : acc'.2.2 = acc.2.2 := by
  obtain ⟨output, data, defaults⟩ := acc
  unfold buildHeadingStep at hok
  dsimp only at hok
  split at hok
  · simp only [pure, Except.pure] at hok
    cases hok
    rfl
  · simp only [Except.bind, bind] at hok
    cases hl : lookupKey defaults heading with
    | none => rw [hl] at hok; simp [throw, throwThe, MonadExceptOf.throw] at hok
    | some rv =>
        rw [hl] at hok
        simp only [pure, Except.pure] at hok
        cases hinfo : headingInfoLines rv with
        | error e => rw [hinfo] at hok; simp at hok
        | ok infoLines =>
            rw [hinfo] at hok
            try dsimp only at hok
            cases hfold : (_get_priority_order rv prioOfRawVal Option.none true).foldlM
                (buildVarStep true keysOnly cs ms ic settings editable heading)
                (output ++ ["[" ++ heading ++ "]"] ++ infoLines, data, defaults) with
            | error e => rw [hfold] at hok; simp at hok
            | ok acc2 =>
                rw [hfold] at hok
                simp only [pure, Except.pure] at hok
                cases hok
                have hdf := foldlM_preserve
                  (fun a b : List String × Data × Schema => b.2.2 = a.2.2)
                  (fun s => rfl) (fun a b c h1 h2 => h2.trans h1)
                  (buildVarStep true keysOnly cs ms ic settings editable heading)
                  (fun s v s' hs =>
                    buildVarStep_true_defaults keysOnly cs ms ic settings editable
                      heading s s' v hs)
                  _ _ _ hfold
                exact hdf

theorem buildForFile_true_state (st : ConfigState) (keysOnly : Bool)
    (cs ms : Int) (ic : Bool) (output : List String) (st' : ConfigState)
    (hok : buildForFile st true keysOnly cs ms ic = .ok (output, st')) :
    st'.defaults = st.defaults ∧ st'.backup = st.backup ∧
    st'.default_settings = st.default_settings ∧
    st'.editable_dict = st.editable_dict ∧ st'.is_new = st.is_new := by
  unfold buildForFile at hok
  simp only [Except.bind, bind] at hok
  cases hfold : (_get_priority_order st.defaults prioOfRawVars Option.none true).foldlM
      (buildHeadingStep true keysOnly cs ms ic st.default_settings st.editable_dict)
      ([], st.data, st.defaults) with
  | error e => rw [hfold] at hok; simp at hok
  | ok acc =>
      rw [hfold] at hok
      simp only [pure, Except.pure] at hok
      cases hok
      have hdf : acc.2.2 = st.defaults :=
        foldlM_preserve (fun a b : List String × Data × Schema => b.2.2 = a.2.2)
          (fun s => rfl) (fun a b c h1 h2 => h2.trans h1)
          (buildHeadingStep true keysOnly cs ms ic st.default_settings st.editable_dict)
          (fun s h s' hs =>
            buildHeadingStep_true_defaults keysOnly cs ms ic st.default_settings
              st.editable_dict s s' h hs)
          _ _ _ hfold
      exact ⟨hdf, rfl, rfl, rfl, rfl⟩

theorem applyOp_shell (st : ConfigState) (op : Op) (st' : ConfigState)
    (hok : applyOp st op = .ok st') : sameShell st st' := by
  cases op with
  | write h i v => exact configSetVar_shell st h i v st' hok
  | loadFile lines => exact updateFromFileLines_shell st lines st' hok
  | markNew =>
      simp only [applyOp, pure, Except.pure] at hok
      cases hok
      exact ⟨rfl, rfl, rfl, rfl⟩
  | save keysOnly =>
      simp only [applyOp, configSave] at hok
      cases hb : buildForFile st true keysOnly 0 8 false with
      | error e => rw [hb] at hok; simp [Except.bind, bind] at hok
      | ok p =>
          rw [hb] at hok
          simp only [Except.bind, bind, pure, Except.pure] at hok
          cases hok
          obtain ⟨h1, h2, h3, h4, _⟩ := buildForFile_true_state st keysOnly 0 8 false p.1 p.2
            (by rw [hb])
          exact ⟨h1, h2, h3, h4⟩
  | reload => exact configReload_shell st st' hok

theorem applyOps_shell (st : ConfigState) (ops : List Op) (st' : ConfigState)
    (hok : applyOps st ops = .ok st') : sameShell st st' :=
  foldlM_preserve sameShell sameShell_refl sameShell_trans applyOp
    (fun s op s' hs => applyOp_shell s op s' hs) ops st st' hok

theorem initConfig_defaults (S : Schema) (settings : Option Entry) (editable : Bool)
    (st₀ : ConfigState) (h0 : initConfig S settings editable = .ok st₀) :
    st₀.defaults = S ∧ st₀.default_settings = settings ∧
    st₀.editable_dict = editable := by
  unfold initConfig at h0
  simp only [Except.bind, bind] at h0
  cases hf : S.foldlM (initHeadingStep settings) ([], []) with
  | error e => rw [hf] at h0; simp at h0
  | ok p =>
      rw [hf] at h0
      simp only [pure, Except.pure] at h0
      cases h0
      exact ⟨rfl, rfl, rfl⟩

/-! ### Entry-level transition lemmas -/

theorem metaOf_fields (d d' : Entry) (h : metaOf d = metaOf d') :
    d.type? = d'.type? ∧ d.lock? = d'.lock? ∧ d.min? = d'.min? ∧
    d.max? = d'.max? ∧ d.valid? = d'.valid? ∧
    d.case_sensitive? = d'.case_sensitive? ∧ d.allow_empty? = d'.allow_empty? ∧
    d.info? = d'.info? ∧ d.priority? = d'.priority? := by
  unfold metaOf at h
  simp only [Prod.mk.injEq] at h
  exact h

/-- Validation reads only the metadata fields, never `value`/`default`. -/
theorem validateItem_congr (d d' : Entry) (t : TypeTag) (value : PyVal)
    (hm : metaOf d = metaOf d') :
    validateItem d t value = validateItem d' t value := by
  obtain ⟨_, hl, hmn, hmx, hvd, hcs, hae, _, _⟩ := metaOf_fields d d' hm
  cases t <;>
    simp [validateItem, validateNumber, validateStr, validateBool, hl, hmn, hmx,
      hvd, hcs, hae]

theorem lockedE_congr (d d' : Entry) (hm : metaOf d = metaOf d') :
    lockedE d = lockedE d' := by
  obtain ⟨_, hl, _⟩ := metaOf_fields d d' hm
  simp [lockedE, hl]

/-- What a successful `create_config_item` tells us about the updated
dictionary. -/
theorem createConfigItem_spec (d d₁ : Entry) (t : TypeTag)
    (h : createConfigItem d = .ok (d₁, t)) :
    d.type? = Option.some t ∧ metaOf d₁ = metaOf d ∧
    (∃ cv₁, d₁.value? = Option.some cv₁ ∧
      (d.value? = Option.some cv₁ ∨ (t = .str ∧ ∃ s, cv₁ = .str s))) ∧
    (∀ d₀, d.default? = Option.some d₀ → coerce t d₀ = .ok d₀ →
      d₁.default? = Option.some d₀) := by
  unfold createConfigItem at h
  simp only [Except.bind, bind, pure, Except.pure, throw, throwThe,
    MonadExceptOf.throw] at h
  cases ht : d.type? with
  | none => rw [ht] at h; simp at h
  | some t0 =>
      rw [ht] at h
      cases t0 with
      | noneType => simp at h
      | str =>
          dsimp only at h
          by_cases hcs : pyTruthy ((d.case_sensitive?).getD (.bool false)) = true
          · rw [if_pos hcs] at h
            cases hv : d.value? with
            | none => rw [hv] at h; simp at h
            | some cv =>
                rw [hv] at h
                dsimp only at h
                cases hlow : pyLower cv with
                | error e => rw [hlow] at h; simp at h
                | ok low =>
                    rw [hlow] at h
                    dsimp only at h
                    cases hnc : newCoerce .str low with
                    | error e => rw [hnc] at h; simp at h
                    | ok w =>
                        rw [hnc] at h
                        dsimp only at h
                        cases hdc : coerce .str (d.default?.getD low) with
                        | error e => rw [hdc] at h; simp at h
                        | ok dv =>
                            rw [hdc] at h
                            dsimp only at h
                            cases h
                            refine ⟨rfl, by simp [metaOf, ht], ⟨low, rfl, Or.inr ⟨rfl, ?_⟩⟩, ?_⟩
                            · cases cv <;> simp [pyLower] at hlow <;> simp [← hlow]
                            · intro d₀ hd₀ hfix
                              rw [hd₀] at hdc
                              simp only [Option.getD] at hdc
                              rw [hfix] at hdc
                              cases hdc
                              rfl
          · rw [if_neg hcs] at h
            cases hv : d.value? with
            | none => rw [hv] at h; simp at h
            | some cv =>
                rw [hv] at h
                dsimp only at h
                cases hnc : newCoerce .str cv with
                | error e => rw [hnc] at h; simp at h
                | ok w =>
                    rw [hnc] at h
                    dsimp only at h
                    cases hdc : coerce .str (d.default?.getD cv) with
                    | error e => rw [hdc] at h; simp at h
                    | ok dv =>
                        rw [hdc] at h
                        dsimp only at h
                        cases h
                        refine ⟨rfl, by simp [metaOf, ht], ⟨cv, rfl, Or.inl rfl⟩, ?_⟩
                        intro d₀ hd₀ hfix
                        rw [hd₀] at hdc
                        simp only [Option.getD] at hdc
                        rw [hfix] at hdc
                        cases hdc
                        rfl
      | int =>
          cases hv : d.value? with
          | none => rw [hv] at h; simp at h
          | some cv =>
              rw [hv] at h
              dsimp only at h
              cases hnc : newCoerce .int cv with
              | error e => rw [hnc] at h; simp at h
              | ok w =>
                  rw [hnc] at h
                  dsimp only at h
                  cases hdc : coerce .int (d.default?.getD cv) with
                  | error e => rw [hdc] at h; simp at h
                  | ok dv =>
                      rw [hdc] at h
                      dsimp only at h
                      cases h
                      refine ⟨rfl, by simp [metaOf, ht], ⟨cv, rfl, Or.inl rfl⟩, ?_⟩
                      intro d₀ hd₀ hfix
                      rw [hd₀] at hdc
                      simp only [Option.getD] at hdc
                      rw [hfix] at hdc
                      cases hdc
                      rfl
      | float =>
          cases hv : d.value? with
          | none => rw [hv] at h; simp at h
          | some cv =>
              rw [hv] at h
              dsimp only at h
              cases hnc : newCoerce .float cv with
              | error e => rw [hnc] at h; simp at h
              | ok w =>
                  rw [hnc] at h
                  dsimp only at h
                  cases hdc : coerce .float (d.default?.getD cv) with
                  | error e => rw [hdc] at h; simp at h
                  | ok dv =>
                      rw [hdc] at h
                      dsimp only at h
                      cases h
                      refine ⟨rfl, by simp [metaOf, ht], ⟨cv, rfl, Or.inl rfl⟩, ?_⟩
                      intro d₀ hd₀ hfix
                      rw [hd₀] at hdc
                      simp only [Option.getD] at hdc
                      rw [hfix] at hdc
                      cases hdc
                      rfl
      | bool =>
          cases hv : d.value? with
          | none => rw [hv] at h; simp at h
          | some cv =>
              rw [hv] at h
              dsimp only at h
              cases hnc : newCoerce .bool cv with
              | error e => rw [hnc] at h; simp at h
              | ok w =>
                  rw [hnc] at h
                  dsimp only at h
                  cases hdc : coerce .bool (d.default?.getD cv) with
                  | error e => rw [hdc] at h; simp at h
                  | ok dv =>
                      rw [hdc] at h
                      dsimp only at h
                      cases h
                      refine ⟨rfl, by simp [metaOf, ht], ⟨cv, rfl, Or.inl rfl⟩, ?_⟩
                      intro d₀ hd₀ hfix
                      rw [hd₀] at hdc
                      simp only [Option.getD] at hdc
                      rw [hfix] at hdc
                      cases hdc
                      rfl

/-- `create_config_item` succeeds when the dictionary has a usable type, a
value the primitive constructor accepts (lower-cased first for
case-sensitive strings), and a default that re-coerces to itself. -/
theorem createConfigItem_ok (d : Entry) (t : TypeTag) (cv d₀ w : PyVal)
    (ht : d.type? = Option.some t) (htn : t ≠ .noneType)
    (hcv : d.value? = Option.some cv)
    (hlow : t = .str → pyTruthy ((d.case_sensitive?).getD (.bool false)) = true →
      ∃ s, cv = .str s)
    (hnc : newCoerce t cv = .ok w)
    (hd : d.default? = Option.some d₀) (hdc : coerce t d₀ = .ok d₀) :
    ∃ d₁, createConfigItem d = .ok (d₁, t) := by
  unfold createConfigItem
  rw [ht]
  cases t with
  | noneType => exact absurd rfl htn
  | str =>
      by_cases hcs : pyTruthy ((d.case_sensitive?).getD (.bool false)) = true
      · obtain ⟨s, rfl⟩ := hlow rfl hcs
        refine Exists.intro { d with value? := Option.some (.str (strLower s)), default? := Option.some d₀ } ?_
        simp [hcs, hcv, pyLower, hd, hdc, newCoerce, coerce, pure, Except.pure,
          Except.bind, bind]
        exact ⟨ht.symm, by simpa [coerce] using hdc⟩
      · rw [Bool.not_eq_true] at hcs
        refine Exists.intro { d with default? := Option.some d₀ } ?_
        simp [hcs, hcv, hd, hdc, hnc, pure, Except.pure, Except.bind, bind]
  | int =>
      refine Exists.intro { d with default? := Option.some d₀ } ?_
      simp [hcv, hd, hdc, hnc, pure, Except.pure, Except.bind, bind]
  | float =>
      refine Exists.intro { d with default? := Option.some d₀ } ?_
      simp [hcv, hd, hdc, hnc, pure, Except.pure, Except.bind, bind]
  | bool =>
      refine Exists.intro { d with default? := Option.some d₀ } ?_
      simp [hcv, hd, hdc, hnc, pure, Except.pure, Except.bind, bind]

/-- A successful value-setter call either rejects (state kept) or stores
the validated value. -/
theorem setValue_spec (d d' : Entry) (t : TypeTag) (value : PyVal)
    (h : setValue d t value = .ok d') :
    (validateItem d t value = .ok Option.none ∧ d' = d) ∨
    (∃ w, validateItem d t value = .ok (Option.some w) ∧
      d' = { d with value? := Option.some w }) := by
  unfold setValue at h
  simp only [Except.bind, bind, pure, Except.pure] at h
  cases hv : validateItem d t value with
  | error e => rw [hv] at h; simp at h
  | ok r =>
      rw [hv] at h
      cases r with
      | none =>
          simp only [] at h
          cases h
          exact Or.inl ⟨rfl, rfl⟩
      | some w =>
          simp only [] at h
          cases h
          exact Or.inr ⟨w, rfl, rfl⟩

theorem setValue_of_validate (d : Entry) (t : TypeTag) (value : PyVal)
    (r : Option PyVal) (hv : validateItem d t value = .ok r) :
    setValue d t value = .ok (match r with
      | Option.some w => { d with value? := Option.some w }
      | Option.none => d) := by
  cases r with
  | some w => simp [setValue, hv, pure, Except.pure, Except.bind, bind]
  | none => simp [setValue, hv, pure, Except.pure, Except.bind, bind]

/-! ### Shapes of validated values -/

theorem exceptMap_ok {α β : Type} (f : α → β) (X : Except PyExc α) (w : β)
    (h : X.map f = .ok w) : ∃ v, X = .ok v ∧ w = f v := by
  cases X with
  | error e => simp [Except.map] at h
  | ok v =>
      simp [Except.map] at h
      exact ⟨v, rfl, h.symm⟩

theorem coerce_int_shape (v w : PyVal) (h : coerce .int v = .ok w) :
    ∃ n, w = .int n := by
  cases v <;> simp only [coerce] at h
  · cases h; exact ⟨_, rfl⟩
  · cases h; exact ⟨_, rfl⟩
  · obtain ⟨n, _, rfl⟩ := exceptMap_ok PyVal.int _ w h
    exact ⟨n, rfl⟩
  · cases h; exact ⟨_, rfl⟩
  · cases h

theorem coerce_float_shape (v w : PyVal) (h : coerce .float v = .ok w) :
    ∃ q, w = .float q := by
  cases v <;> simp only [coerce] at h
  · cases h; exact ⟨_, rfl⟩
  · cases h; exact ⟨_, rfl⟩
  · obtain ⟨q, _, rfl⟩ := exceptMap_ok PyVal.float _ w h
    exact ⟨q, rfl⟩
  · cases h; exact ⟨_, rfl⟩
  · cases h

theorem pyMaxPy_cases (a b c : PyVal) (h : pyMaxPy a b = .ok c) :
    (c = a ∨ c = b) ∧ (∃ r, toRatNum a = .ok r) ∧ ∃ r, toRatNum b = .ok r := by
  unfold pyMaxPy at h
  simp only [Except.bind, bind, pure, Except.pure] at h
  cases ha : toRatNum a with
  | error e => rw [ha] at h; simp at h
  | ok ra =>
      rw [ha] at h
      cases hb : toRatNum b with
      | error e => rw [hb] at h; simp at h
      | ok rb =>
          rw [hb] at h
          simp only [] at h
          split at h <;> (cases h; constructor)
          · exact Or.inl rfl
          · exact ⟨⟨ra, rfl⟩, ⟨rb, rfl⟩⟩
          · exact Or.inr rfl
          · exact ⟨⟨ra, rfl⟩, ⟨rb, rfl⟩⟩

theorem pyMinPy_cases (a b c : PyVal) (h : pyMinPy a b = .ok c) :
    (c = a ∨ c = b) ∧ (∃ r, toRatNum a = .ok r) ∧ ∃ r, toRatNum b = .ok r := by
  unfold pyMinPy at h
  simp only [Except.bind, bind, pure, Except.pure] at h
  cases ha : toRatNum a with
  | error e => rw [ha] at h; simp at h
  | ok ra =>
      rw [ha] at h
      cases hb : toRatNum b with
      | error e => rw [hb] at h; simp at h
      | ok rb =>
          rw [hb] at h
          simp only [] at h
          split at h <;> (cases h; constructor)
          · exact Or.inl rfl
          · exact ⟨⟨ra, rfl⟩, ⟨rb, rfl⟩⟩
          · exact Or.inr rfl
          · exact ⟨⟨ra, rfl⟩, ⟨rb, rfl⟩⟩

theorem validateNumber_shape (d : Entry) (t : TypeTag) (value w : PyVal)
    (htn : t = .int ∨ t = .float)
    (h : validateNumber d t value = .ok (Option.some w)) :
    ∃ r, toRatNum w = .ok r := by
  unfold validateNumber at h
  simp only [Except.bind, bind, pure, Except.pure] at h
  split at h
  · simp at h
  · cases hc : coerce t value with
    | error e =>
        rw [hc] at h
        cases e <;> simp at h
    | ok v0 =>
        rw [hc] at h
        have hv0 : ∃ r, toRatNum v0 = .ok r := by
          rcases htn with rfl | rfl
          · obtain ⟨n, rfl⟩ := coerce_int_shape value v0 hc
            exact ⟨n, rfl⟩
          · obtain ⟨q, rfl⟩ := coerce_float_shape value v0 hc
            exact ⟨q, rfl⟩
        cases hmn : d.min? with
        | none =>
            rw [hmn] at h
            simp only [] at h
            cases hmx : d.max? with
            | none =>
                rw [hmx] at h
                simp only [] at h
                cases h
                exact hv0
            | some m =>
                rw [hmx] at h
                simp only [] at h
                cases hmin : pyMinPy v0 m with
                | error e => rw [hmin] at h; simp at h
                | ok c =>
                    rw [hmin] at h
                    simp only [] at h
                    cases h
                    obtain ⟨hco, h1, h2⟩ := pyMinPy_cases v0 m w hmin
                    rcases hco with rfl | rfl
                    · exact h1
                    · exact h2
        | some m =>
            rw [hmn] at h
            simp only [] at h
            cases hmax : pyMaxPy v0 m with
            | error e => rw [hmax] at h; simp at h
            | ok c =>
                rw [hmax] at h
                simp only [] at h
                obtain ⟨hco, h1, h2⟩ := pyMaxPy_cases v0 m c hmax
                have hc0 : ∃ r, toRatNum c = .ok r := by
                  rcases hco with rfl | rfl
                  · exact h1
                  · exact h2
                cases hmx : d.max? with
                | none =>
                    rw [hmx] at h
                    simp only [] at h
                    cases h
                    exact hc0
                | some m2 =>
                    rw [hmx] at h
                    simp only [] at h
                    cases hmin : pyMinPy c m2 with
                    | error e => rw [hmin] at h; simp at h
                    | ok c2 =>
                        rw [hmin] at h
                        simp only [] at h
                        cases h
                        obtain ⟨hco2, h3, h4⟩ := pyMinPy_cases c m2 w hmin
                        rcases hco2 with rfl | rfl
                        · exact h3
                        · exact h4

theorem validateBool_shape (d : Entry) (value w : PyVal)
    (h : validateBool d value = .ok (Option.some w)) : ∃ b, w = .bool b := by
  unfold validateBool at h
  split at h
  · simp [pure, Except.pure] at h
  · split at h
    · split at h <;> (simp [pure, Except.pure] at h; exact ⟨_, h.symm⟩)
    · simp [pure, Except.pure] at h
      exact ⟨_, h.symm⟩

theorem validateStr_shape (d : Entry) (value w : PyVal)
    (h : validateStr d value = .ok (Option.some w)) : ∃ s, w = .str s := by
  unfold validateStr at h
  simp only [Except.bind, bind, pure, Except.pure] at h
  split at h
  · simp at h
  · split at h
    · split at h
      · simp at h
        exact ⟨_, h.symm⟩
      · simp at h
    · split at h
      · simp at h
        exact ⟨_, h.symm⟩
      · split at h
        · split at h
          · simp at h
            exact ⟨_, h.symm⟩
          · simp at h
        · split at h
          · simp at h
            exact ⟨_, h.symm⟩
          · simp at h

/-! ### Fold decomposition and keyed-list splitting -/

theorem exceptBind_ok {α β : Type} (x : Except PyExc α) (g : α → Except PyExc β)
    (w : β) (h : Except.bind x g = .ok w) : ∃ a, x = .ok a ∧ g a = .ok w := by
  cases x with
  | error e => simp [Except.bind] at h
  | ok a => exact ⟨a, rfl, h⟩

theorem foldlM_inv_mem {β σ : Type} (P : σ → Prop) (l : List β)
    (f : σ → β → Except PyExc σ)
    (hf : ∀ s bb s', bb ∈ l → P s → f s bb = .ok s' → P s') :
    ∀ s s', P s → l.foldlM f s = .ok s' → P s' := by
  induction l with
  | nil =>
      intro s s' hP h
      simp only [List.foldlM_nil, pure, Except.pure] at h
      cases h
      exact hP
  | cons bb t ih =>
      intro s s' hP h
      simp only [List.foldlM_cons] at h
      cases hb : f s bb with
      | error e => rw [hb] at h; simp [Except.bind, bind] at h
      | ok s₁ =>
          rw [hb] at h
          simp only [Except.bind, bind] at h
          exact ih
            (fun s2 b2 s2' hm hP2 hstep =>
              hf s2 b2 s2' (List.mem_cons_of_mem _ hm) hP2 hstep)
            s₁ s' (hf s bb s₁ (List.mem_cons_self _ _) hP hb) h

theorem foldlM_cons_ok {β σ : Type} (f : σ → β → Except PyExc σ) (bb : β)
    (l : List β) (s s' : σ) (h : (bb :: l).foldlM f s = .ok s') :
    ∃ m, f s bb = .ok m ∧ l.foldlM f m = .ok s' := by
  simp only [List.foldlM_cons] at h
  cases hb : f s bb with
  | error e => rw [hb] at h; simp [Except.bind, bind] at h
  | ok s₁ =>
      rw [hb] at h
      simp only [Except.bind, bind] at h
      exact ⟨s₁, rfl, h⟩

theorem foldlM_append_ok {β σ : Type} (f : σ → β → Except PyExc σ)
    (l₁ l₂ : List β) (s s' : σ)
    (h : (l₁ ++ l₂).foldlM f s = .ok s') :
    ∃ m, l₁.foldlM f s = .ok m ∧ l₂.foldlM f m = .ok s' := by
  induction l₁ generalizing s with
  | nil =>
      refine ⟨s, ?_, by simpa using h⟩
      simp [List.foldlM_nil, pure, Except.pure]
  | cons bb t ih =>
      simp only [List.cons_append, List.foldlM_cons] at h
      cases hb : f s bb with
      | error e => rw [hb] at h; simp [Except.bind, bind] at h
      | ok s₁ =>
          rw [hb] at h
          simp only [Except.bind, bind] at h
          obtain ⟨m, h1, h2⟩ := ih s₁ h
          refine ⟨m, ?_, h2⟩
          simp only [List.foldlM_cons, hb, Except.bind, bind]
          exact h1

theorem lookupKey_split [DecidableEq κ] (l : List (κ × α)) (k : κ) (v : α)
    (h : lookupKey l k = Option.some v) :
    ∃ l₁ l₂, l = l₁ ++ (k, v) :: l₂ ∧ ∀ p ∈ l₁, p.1 ≠ k := by
  induction l with
  | nil => simp [lookupKey] at h
  | cons p t ih =>
      obtain ⟨k₀, v₀⟩ := p
      by_cases h0 : k₀ = k
      · subst h0
        simp [lookupKey] at h
        subst h
        exact ⟨[], t, rfl, by simp⟩
      · simp only [lookupKey, if_neg h0] at h
        obtain ⟨l₁, l₂, rfl, hne⟩ := ih h
        refine ⟨(k₀, v₀) :: l₁, l₂, rfl, ?_⟩
        intro p hp
        rcases List.mem_cons.mp hp with rfl | hp2
        · exact h0
        · exact hne p hp2

theorem keys_nodup_middle [DecidableEq κ] (l₁ l₂ : List (κ × α)) (k : κ) (v : α)
    (h : ((l₁ ++ (k, v) :: l₂).map Prod.fst).Nodup) : ∀ p ∈ l₂, p.1 ≠ k := by
  intro p hp
  rw [List.map_append] at h
  have h2 := h.of_append_right
  simp only [List.map_cons, List.nodup_cons] at h2
  intro hpk
  exact h2.1 (by rw [← hpk]; exact List.mem_map_of_mem Prod.fst hp)

theorem mem_setKey [DecidableEq κ] (l : List (κ × α)) (k : κ) (v : α) (p : κ × α)
    (h : p ∈ setKey l k v) : p ∈ l ∨ p = (k, v) := by
  induction l with
  | nil =>
      simp only [setKey, List.mem_singleton] at h
      exact Or.inr h
  | cons q t ih =>
      obtain ⟨k₀, v₀⟩ := q
      by_cases h0 : k₀ = k
      · rw [setKey, if_pos h0] at h
        rcases List.mem_cons.mp h with rfl | hp2
        · exact Or.inr rfl
        · exact Or.inl (List.mem_cons_of_mem _ hp2)
      · rw [setKey, if_neg h0] at h
        rcases List.mem_cons.mp h with rfl | hp2
        · exact Or.inl (List.mem_cons_self _ _)
        · rcases ih hp2 with hm | hp3
          · exact Or.inl (List.mem_cons_of_mem _ hm)
          · exact Or.inr hp3

theorem mem_keys_setKey [DecidableEq κ] (l : List (κ × α)) (k a : κ) (v : α)
    (h : a ∈ (setKey l k v).map Prod.fst) : a ∈ l.map Prod.fst ∨ a = k := by
  rcases List.mem_map.mp h with ⟨p, hp, rfl⟩
  rcases mem_setKey l k v p hp with hm | hp2
  · exact Or.inl (List.mem_map_of_mem Prod.fst hm)
  · rw [hp2]
    exact Or.inr rfl

theorem nodupKeys_setKey [DecidableEq κ] (l : List (κ × α)) (k : κ) (v : α)
    (h : (l.map Prod.fst).Nodup) : ((setKey l k v).map Prod.fst).Nodup := by
  induction l with
  | nil => simp [setKey]
  | cons q t ih =>
      obtain ⟨k₀, v₀⟩ := q
      simp only [List.map_cons, List.nodup_cons] at h
      by_cases h0 : k₀ = k
      · subst h0
        rw [setKey, if_pos rfl]
        simp only [List.map_cons, List.nodup_cons]
        exact h
      · rw [setKey, if_neg h0]
        simp only [List.map_cons, List.nodup_cons]
        refine ⟨?_, ih h.2⟩
        intro hmem
        rcases mem_keys_setKey t k k₀ v hmem with hm | hp2
        · exact h.1 hm
        · exact h0 hp2

/-! ### Entry-level facts about the write path -/

/-- `_build_for_file`'s type-filling normalization never touches `value` or
`lock`, and is the identity when `type` is already present. -/
theorem ensureType_spec (settings : Option Entry) (e e' : Entry)
    (h : ensureType settings e = .ok e') :
    e'.value? = e.value? ∧ e'.lock? = e.lock? ∧
    (e.type? ≠ Option.none → e' = e) := by
  unfold ensureType at h
  cases ht : e.type? with
  | some t =>
      rw [ht] at h
      cases h
      exact ⟨rfl, rfl, fun _ => rfl⟩
  | none =>
      rw [ht] at h
      cases hv : e.value? with
      | some v =>
          rw [hv] at h
          dsimp only at h
          cases h
          exact ⟨rfl, rfl, fun hc => absurd rfl hc⟩
      | none =>
          rw [hv] at h
          dsimp only at h
          cases settings with
          | none => simp at h
          | some ds =>
              dsimp only at h
              cases hdt : ds.type? with
              | some t =>
                  rw [hdt] at h
                  dsimp only at h
                  cases h
                  exact ⟨rfl, rfl, fun hc => absurd rfl hc⟩
              | none => rw [hdt] at h; simp at h

/-- The value setter only writes the `value` slot. -/
theorem setValue_meta (d w : Entry) (t : TypeTag) (value : PyVal)
    (h : setValue d t value = .ok w) : metaOf w = metaOf d := by
  rcases setValue_spec d w t value h with ⟨_, rfl⟩ | ⟨u, _, rfl⟩
  · rfl
  · simp [metaOf]

theorem lockedE_eq_of_lock (d d' : Entry) (h : d'.lock? = d.lock?) :
    lockedE d' = lockedE d := by
  simp [lockedE, h]

theorem iteOk {σ : Type} (c : Prop) [Decidable c] (a b : Except PyExc σ) (w : σ)
    (h : (if c then a else b) = .ok w) : a = .ok w ∨ b = .ok w := by
  by_cases hc : c
  · rw [if_pos hc] at h
    exact Or.inl h
  · rw [if_neg hc] at h
    exact Or.inr h

theorem exceptCasesOk {α σ : Type} (x : Except PyExc α) (f : α → Except PyExc σ)
    (w : σ)
    (h : (match x with
          | Except.error err => Except.error err
          | Except.ok a => f a) = Except.ok w) :
    ∃ a, x = .ok a ∧ f a = .ok w := by
  cases x with
  | error e => simp at h
  | ok a => exact ⟨a, rfl, h⟩

/-- `entryAt` unfolded. -/
theorem entryAt_eq (st : ConfigState) (h v : String) :
    entryAt st h v = (lookupKey st.data h).bind (fun vs => lookupKey vs v) := rfl

/-- `_ConfigDict.__setitem__` leaves every other variable alone. -/
theorem dictSetitem_lookup_ne (settings : Option Entry) (ed : Bool) (vars : Vars)
    (item : String) (value : PyVal) (vars' : Vars)
    (hok : dictSetitem settings ed vars item value = .ok vars')
    (v : String) (hne : v ≠ item) : lookupKey vars' v = lookupKey vars v := by
  unfold dictSetitem at hok
  cases hl : lookupKey vars item with
  | some info =>
      rw [hl] at hok
      simp only [Except.bind, bind, pure, Except.pure] at hok
      by_cases hlock : pyTruthy ((info.lock?).getD (.bool false)) = true
      · rw [if_pos hlock] at hok
        cases hok
        rfl
      · rw [if_neg hlock] at hok
        cases hcc : createConfigItem info with
        | error e => rw [hcc] at hok; simp at hok
        | ok p =>
            rw [hcc] at hok
            obtain ⟨d, t⟩ := p
            dsimp only at hok
            cases hsv : setValue d t value with
            | error e => rw [hsv] at hok; simp at hok
            | ok d' =>
                rw [hsv] at hok
                dsimp only at hok
                cases hdv : d'.value? with
                | none => rw [hdv] at hok; simp at hok
                | some w =>
                    rw [hdv] at hok
                    dsimp only at hok
                    cases hok
                    exact lookupKey_setKey_ne vars item v d' hne
  | none =>
      rw [hl] at hok
      simp only [Except.bind, bind, pure, Except.pure, throw, throwThe,
        MonadExceptOf.throw] at hok
      by_cases hed : ed = true
      · rw [if_pos hed] at hok
        rcases iteOk _ _ _ _ hok with h5 | h5
        · cases h5
          exact lookupKey_setKey_ne vars item v _ hne
        · split at h5
          · simp at h5
          · split at h5
            · simp at h5
            · split at h5
              · cases h5
                rw [lookupKey_setKey_ne, lookupKey_setKey_ne] <;> exact hne
              · simp at h5
      · rw [if_neg hed] at hok
        simp at hok

/-- `_ConfigDict.__setitem__` on an existing variable: no-op when locked,
else a `create_config_item` + validated write at that key. -/
theorem dictSetitem_existing (settings : Option Entry) (ed : Bool) (vars : Vars)
    (item : String) (value : PyVal) (vars' : Vars) (e : Entry)
    (hl : lookupKey vars item = Option.some e)
    (hok : dictSetitem settings ed vars item value = .ok vars') :
    (lockedE e = true ∧ vars' = vars) ∨
    (lockedE e = false ∧ ∃ d t d', createConfigItem e = .ok (d, t) ∧
      setValue d t value = .ok d' ∧ (d'.value?).isSome = true ∧
      vars' = setKey vars item d') := by
  unfold dictSetitem at hok
  rw [hl] at hok
  simp only [Except.bind, bind, pure, Except.pure] at hok
  by_cases hlock : pyTruthy ((e.lock?).getD (.bool false)) = true
  · rw [if_pos hlock] at hok
    cases hok
    exact Or.inl ⟨by simpa [lockedE] using hlock, rfl⟩
  · rw [if_neg hlock] at hok
    rw [Bool.not_eq_true] at hlock
    cases hcc : createConfigItem e with
    | error err => rw [hcc] at hok; simp at hok
    | ok p =>
        rw [hcc] at hok
        obtain ⟨d, t⟩ := p
        dsimp only at hok
        cases hsv : setValue d t value with
        | error err => rw [hsv] at hok; simp at hok
        | ok d' =>
            rw [hsv] at hok
            dsimp only at hok
            cases hdv : d'.value? with
            | none => rw [hdv] at hok; simp at hok
            | some w =>
                rw [hdv] at hok
                dsimp only at hok
                cases hok
                exact Or.inr ⟨by simpa [lockedE] using hlock,
                  d, t, d', rfl, hsv, by simp [hdv], rfl⟩

/-- A store-level write leaves every other `(heading, variable)` slot
alone. -/
theorem configSetVar_entry_ne (st : ConfigState) (h' i' : String) (value : PyVal)
    (st₂ : ConfigState) (hok : configSetVar st h' i' value = .ok st₂)
    (h v : String) (hne : ¬(h = h' ∧ v = i')) :
    entryAt st₂ h v = entryAt st h v := by
  unfold configSetVar at hok
  cases hl : lookupKey st.data h' with
  | none => rw [hl] at hok; simp [throw, throwThe, MonadExceptOf.throw] at hok
  | some vars =>
      rw [hl] at hok
      simp only [Except.bind, bind] at hok
      cases hds : dictSetitem st.default_settings st.editable_dict vars i' value with
      | error e => rw [hds] at hok; simp at hok
      | ok vars' =>
          rw [hds] at hok
          simp only [pure, Except.pure] at hok
          cases hok
          by_cases hh : h = h'
          · subst hh
            have hvne : v ≠ i' := fun hv2 => hne ⟨rfl, hv2⟩
            rw [entryAt_eq, entryAt_eq]
            rw [lookupKey_setKey_self st.data h vars', hl]
            simp only [Option.some_bind]
            exact dictSetitem_lookup_ne _ _ _ _ _ _ hds v hvne
          · rw [entryAt_eq, entryAt_eq]
            rw [lookupKey_setKey_ne st.data h' h vars' hh]

/-- A store-level write at an existing `(heading, variable)` slot: no-op on
a locked entry, else the validated-store path. -/
theorem configSetVar_entry_eq (st st₂ : ConfigState) (h i : String)
    (value : PyVal) (e : Entry)
    (he : entryAt st h i = Option.some e)
    (hok : configSetVar st h i value = .ok st₂) :
    (lockedE e = true ∧ entryAt st₂ h i = Option.some e) ∨
    (lockedE e = false ∧ ∃ d t d', createConfigItem e = .ok (d, t) ∧
      setValue d t value = .ok d' ∧ (d'.value?).isSome = true ∧
      entryAt st₂ h i = Option.some d') := by
  unfold configSetVar at hok
  cases hl : lookupKey st.data h with
  | none => rw [hl] at hok; simp [throw, throwThe, MonadExceptOf.throw] at hok
  | some vars =>
      rw [hl] at hok
      simp only [Except.bind, bind] at hok
      cases hds : dictSetitem st.default_settings st.editable_dict vars i value with
      | error e2 => rw [hds] at hok; simp at hok
      | ok vars' =>
          rw [hds] at hok
          simp only [pure, Except.pure] at hok
          cases hok
          have hv : lookupKey vars i = Option.some e := by
            rw [entryAt_eq, hl] at he
            simpa [Option.some_bind] using he
          rcases dictSetitem_existing _ _ _ _ _ _ e hv hds with
            ⟨hlk, rfl⟩ | ⟨hlk, d, t, d', hcc, hsv, hvs, rfl⟩
          · left
            refine ⟨hlk, ?_⟩
            rw [entryAt_eq]
            rw [lookupKey_setKey_self]
            simp only [Option.some_bind]
            exact hv
          · right
            refine ⟨hlk, d, t, d', hcc, hsv, hvs, ?_⟩
            rw [entryAt_eq]
            rw [lookupKey_setKey_self]
            simp only [Option.some_bind]
            exact lookupKey_setKey_self vars i d'

/-! ### The reload invariant: what survives every post-construction
operation -/

/-- What any operation preserves about the entry recorded for a backup
value `b`: a locked entry keeps its lock and its (backup) value; an
unlocked entry keeps all its validation metadata. -/
def presEntry (b : PyVal) (e₀ e : Entry) : Prop :=
  (lockedE e₀ = true → lockedE e = true ∧ e.value? = Option.some b) ∧
  (lockedE e₀ = false → metaOf e = metaOf e₀)

/-- Every backup slot of the freshly built store still has an entry, and
that entry is `presEntry`-related to the one built at construction. -/
def reloadInv (st₀ st : ConfigState) : Prop :=
  ∀ h v b, backupVal st₀ h v = Option.some b →
    ∃ e₀ e, entryAt st₀ h v = Option.some e₀ ∧ entryAt st h v = Option.some e ∧
      presEntry b e₀ e

/-- The per-entry well-formedness hypothesis of the amended reload claim:
each backup value is either frozen by `lock`, or validates to itself under
the entry's own metadata. -/
def backupFixed (st₀ : ConfigState) : Prop :=
  ∀ h v b, backupVal st₀ h v = Option.some b →
    ∀ e₀, entryAt st₀ h v = Option.some e₀ →
      lockedE e₀ = true ∨ ∃ t, e₀.type? = Option.some t ∧
        validateItem e₀ t b = .ok (Option.some b)

theorem configSetVar_reloadInv (st₀ st st₂ : ConfigState) (h' i' : String)
    (val : PyVal) (hok : configSetVar st h' i' val = .ok st₂)
    (hinv : reloadInv st₀ st) : reloadInv st₀ st₂ := by
  intro h v b hb
  obtain ⟨e₀, e, he₀, he, hpe⟩ := hinv h v b hb
  by_cases hp : h = h' ∧ v = i'
  · obtain ⟨rfl, rfl⟩ := hp
    rcases configSetVar_entry_eq st st₂ h v val e he hok with
      ⟨hlk, he2⟩ | ⟨hlk, d, t, d', hcc, hsv, hvs, he2⟩
    · exact ⟨e₀, e, he₀, he2, hpe⟩
    · have hl0 : lockedE e₀ = false := by
        cases hlb : lockedE e₀ with
        | false => rfl
        | true =>
            have h1 := (hpe.1 hlb).1
            rw [hlk] at h1
            exact absurd h1 (by decide)
      have hme : metaOf e = metaOf e₀ := hpe.2 hl0
      have hmeta : metaOf d' = metaOf e₀ := by
        rw [setValue_meta d d' t val hsv, (createConfigItem_spec e d t hcc).2.1, hme]
      refine ⟨e₀, d', he₀, he2, ?_, fun _ => hmeta⟩
      intro hl
      exact absurd (hl0.symm.trans hl) (by decide)
  · refine ⟨e₀, e, he₀, ?_, hpe⟩
    rw [configSetVar_entry_ne st h' i' val st₂ hok h v hp]
    exact he

/-- A processed line either leaves the store untouched or is one
store-level write. -/
theorem processLine_cases (st : ConfigState) (hdr : Option String) (line : String)
    (st₂ : ConfigState) (hdr' : Option String)
    (hok : processLine st hdr line = .ok (st₂, hdr')) :
    st₂ = st ∨ ∃ h i val, configSetVar st h i val = .ok st₂ := by
  unfold processLine at hok
  cases hcs : stripChars (takeBeforeComment (stripChars line.data)) with
  | nil =>
      rw [hcs] at hok
      simp only [pure, Except.pure] at hok
      cases hok
      exact Or.inl rfl
  | cons c rest =>
      rw [hcs] at hok
      dsimp only at hok
      by_cases hbr : c = '[' ∧ (c :: rest).getLast (by simp) = ']'
      · rw [if_pos hbr] at hok
        simp only [pure, Except.pure] at hok
        cases hok
        exact Or.inl rfl
      · rw [if_neg hbr] at hok
        cases hsp : splitFirstEq (c :: rest) with
        | none => rw [hsp] at hok; simp [throw, throwThe, MonadExceptOf.throw] at hok
        | some ab =>
            obtain ⟨a, b⟩ := ab
            rw [hsp] at hok
            cases hdr with
            | none => simp [throw, throwThe, MonadExceptOf.throw] at hok
            | some hd =>
                dsimp only at hok
                cases hset : configSetVar st hd (String.mk (stripChars a))
                    (.str (String.mk (stripChars b))) with
                | ok st₃ =>
                    rw [hset] at hok
                    simp only [pure, Except.pure] at hok
                    cases hok
                    exact Or.inr ⟨hd, String.mk (stripChars a),
                      .str (String.mk (stripChars b)), hset⟩
                | error e =>
                    rw [hset] at hok
                    cases e with
                    | keyError =>
                        simp only [pure, Except.pure] at hok
                        cases hok
                        exact Or.inl rfl
                    | valueError => simp [throw, throwThe, MonadExceptOf.throw] at hok
                    | typeError => simp [throw, throwThe, MonadExceptOf.throw] at hok
                    | attributeError => simp [throw, throwThe, MonadExceptOf.throw] at hok
                    | nameError => simp [throw, throwThe, MonadExceptOf.throw] at hok

theorem updateFromFileLines_reloadInv (st₀ st st₂ : ConfigState)
    (lines : List String) (hok : updateFromFileLines st lines = .ok st₂)
    (hinv : reloadInv st₀ st) : reloadInv st₀ st₂ := by
  unfold updateFromFileLines at hok
  cases hfold : lines.foldlM
      (fun (acc : ConfigState × Option String) line => processLine acc.1 acc.2 line)
      (st, (Option.none : Option String)) with
  | error e => rw [hfold] at hok; simp [Except.bind, bind] at hok
  | ok p =>
      rw [hfold] at hok
      simp only [Except.bind, bind, pure, Except.pure] at hok
      cases hok
      refine foldlM_inv_mem (fun acc : ConfigState × Option String => reloadInv st₀ acc.1)
        lines _ ?_ (st, Option.none) p hinv hfold
      intro s bb s' _ hP hstep
      rcases processLine_cases s.1 s.2 bb s'.1 s'.2 (by
        cases s' with
        | mk a c => exact hstep) with rfl2 | ⟨h, i, val, hset⟩
      · rw [rfl2] at *
        exact hP
      · exact configSetVar_reloadInv st₀ s.1 s'.1 h i val hset hP

/-- `configReload` preserves the reload invariant (it is a sequence of
store-level writes). -/
theorem configReload_reloadInv (st₀ st st₂ : ConfigState)
    (hok : configReload st = .ok st₂) (hinv : reloadInv st₀ st) :
    reloadInv st₀ st₂ := by
  unfold configReload at hok
  refine foldlM_inv_mem (fun s => reloadInv st₀ s) st.backup _ ?_ st st₂ hinv hok
  intro s hv s' _ hP hstep
  refine foldlM_inv_mem (fun s2 => reloadInv st₀ s2) hv.2 _ ?_ s s' hP hstep
  intro s2 ve s2' _ hP2 hstep2
  exact configSetVar_reloadInv st₀ s2 s2' hv.1 ve.1 ve.2 hstep2 hP2

/-! ### What a `changes=True` save does to the live data -/

/-- The per-entry effect of `_build_for_file`'s normalization pass on
`_data`: values and locks survive, and entries that already carry a type
are untouched. -/
def valueKept (dt dt' : Data) : Prop :=
  ∀ h v e, (lookupKey dt h).bind (fun vs => lookupKey vs v) = Option.some e →
    ∃ e', (lookupKey dt' h).bind (fun vs => lookupKey vs v) = Option.some e' ∧
      e'.value? = e.value? ∧ e'.lock? = e.lock? ∧ (e.type? ≠ Option.none → e' = e)

theorem valueKept_refl (dt : Data) : valueKept dt dt :=
  fun _ _ e he => ⟨e, he, rfl, rfl, fun _ => rfl⟩

theorem valueKept_trans (a b c : Data) (h1 : valueKept a b) (h2 : valueKept b c) :
    valueKept a c := by
  intro h v e he
  obtain ⟨e', he', hv1, hl1, ht1⟩ := h1 h v e he
  obtain ⟨e'', he'', hv2, hl2, ht2⟩ := h2 h v e' he'
  refine ⟨e'', he'', hv2.trans hv1, hl2.trans hl1, ?_⟩
  intro htn
  have hee : e' = e := ht1 htn
  rw [ht2 (by rw [hee]; exact htn), hee]

theorem buildVar_valueKept (keysOnly : Bool) (cs mcs : Int) (ic : Bool)
    (settings : Option Entry) (data : Data) (defaults : Schema)
    (heading varName : String) (line : String) (data' : Data) (defaults' : Schema)
    (hok : buildVar true keysOnly cs mcs ic settings data defaults heading varName
      = .ok (line, data', defaults')) :
    valueKept data data' := by
  unfold buildVar at hok
  simp only [if_true, Except.bind, bind, pure, Except.pure, throw, throwThe,
    MonadExceptOf.throw] at hok
  cases hl : lookupKey data heading with
  | none => rw [hl] at hok; simp at hok
  | some vars =>
      rw [hl] at hok
      dsimp only at hok
      cases hv : lookupKey vars varName with
      | none => rw [hv] at hok; simp at hok
      | some e₁ =>
          rw [hv] at hok
          dsimp only at hok
          cases het : ensureType settings e₁ with
          | error err => rw [het] at hok; simp at hok
          | ok e₂ =>
              rw [het] at hok
              dsimp only at hok
              cases ht2 : e₂.type? with
              | none => rw [ht2] at hok; simp at hok
              | some t =>
                  rw [ht2] at hok
                  dsimp only at hok
                  cases hdv : defaultValueFor t with
                  | error err => rw [hdv] at hok; simp at hok
                  | ok dv =>
                      rw [hdv] at hok
                      dsimp only at hok
                      simp only [Except.ok.injEq, Prod.mk.injEq] at hok
                      obtain ⟨-, hdata, -⟩ := hok
                      rw [← hdata]
                      intro h v e he
                      obtain ⟨he1, he2, he3⟩ := ensureType_spec settings e₁ e₂ het
                      by_cases hh : h = heading
                      · subst hh
                        rw [hl] at he
                        simp only [Option.some_bind] at he
                        rw [lookupKey_setKey_self]
                        simp only [Option.some_bind]
                        by_cases hvv : v = varName
                        · subst hvv
                          rw [hv] at he
                          cases he
                          refine ⟨e₂, lookupKey_setKey_self vars v e₂, he1, he2, ?_⟩
                          intro htn
                          exact he3 htn
                        · rw [lookupKey_setKey_ne vars varName v e₂ hvv]
                          exact ⟨e, he, rfl, rfl, fun _ => rfl⟩
                      · rw [lookupKey_setKey_ne data heading h
                          (setKey vars varName e₂) hh]
                        exact ⟨e, he, rfl, rfl, fun _ => rfl⟩

theorem buildVarStep_valueKept (keysOnly : Bool) (cs mcs : Int) (ic : Bool)
    (settings : Option Entry) (editable : Bool) (heading : String)
    (acc acc' : List String × Data × Schema) (varName : String)
    (hok : buildVarStep true keysOnly cs mcs ic settings editable heading acc varName
      = .ok acc') : valueKept acc.2.1 acc'.2.1 := by
  obtain ⟨output, data, defaults⟩ := acc
  unfold buildVarStep at hok
  simp only [Except.bind, bind, pure, Except.pure] at hok
  rcases iteOk _ _ _ _ hok with h5 | h5
  · cases h5
    exact valueKept_refl data
  · cases hbv : buildVar true keysOnly cs mcs ic settings data defaults heading varName with
    | error err => rw [hbv] at h5; simp at h5
    | ok p =>
        obtain ⟨line, data', defaults'⟩ := p
        rw [hbv] at h5
        dsimp only at h5
        cases h5
        exact buildVar_valueKept keysOnly cs mcs ic settings data defaults heading
          varName line data' defaults' hbv

theorem buildHeadingStep_valueKept (keysOnly : Bool) (cs mcs : Int) (ic : Bool)
    (settings : Option Entry) (editable : Bool)
    (acc acc' : List String × Data × Schema) (heading : String)
    (hok : buildHeadingStep true keysOnly cs mcs ic settings editable acc heading
      = .ok acc') : valueKept acc.2.1 acc'.2.1 := by
  obtain ⟨output, data, defaults⟩ := acc
  unfold buildHeadingStep at hok
  simp only [Except.bind, bind, pure, Except.pure, throw, throwThe,
    MonadExceptOf.throw] at hok
  rcases iteOk _ _ _ _ hok with h5 | h5
  · cases h5
    exact valueKept_refl data
  · cases hrv : lookupKey defaults heading with
    | none => rw [hrv] at h5; simp at h5
    | some rv =>
        rw [hrv] at h5
        dsimp only at h5
        cases hil : headingInfoLines rv with
        | error err => rw [hil] at h5; simp at h5
        | ok infoLines =>
            rw [hil] at h5
            dsimp only at h5
            cases hfold : (_get_priority_order rv prioOfRawVal Option.none true).foldlM
                (buildVarStep true keysOnly cs mcs ic settings editable heading)
                (output ++ ["[" ++ heading ++ "]"] ++ infoLines, data, defaults) with
            | error err => rw [hfold] at h5; simp at h5
            | ok acc2 =>
                rw [hfold] at h5
                dsimp only at h5
                cases h5
                refine foldlM_inv_mem
                  (fun a : List String × Data × Schema => valueKept data a.2.1)
                  _ _ ?_ _ acc2 (valueKept_refl data) hfold
                intro s bb s' _ hP hstep
                exact valueKept_trans data s.2.1 s'.2.1 hP
                  (buildVarStep_valueKept keysOnly cs mcs ic settings editable
                    heading s s' bb hstep)

theorem buildForFile_valueKept (st : ConfigState) (keysOnly : Bool)
    (cs mcs : Int) (ic : Bool) (out : List String) (st' : ConfigState)
    (hok : buildForFile st true keysOnly cs mcs ic = .ok (out, st')) :
    valueKept st.data st'.data := by
  unfold buildForFile at hok
  cases hfold : (_get_priority_order st.defaults prioOfRawVars Option.none true).foldlM
      (buildHeadingStep true keysOnly cs mcs ic st.default_settings st.editable_dict)
      ([], st.data, st.defaults) with
  | error err => rw [hfold] at hok; simp [Except.bind, bind] at hok
  | ok acc =>
      rw [hfold] at hok
      simp only [Except.bind, bind, pure, Except.pure, Except.ok.injEq,
        Prod.mk.injEq] at hok
      obtain ⟨-, hst⟩ := hok
      rw [← hst]
      refine foldlM_inv_mem
        (fun a : List String × Data × Schema => valueKept st.data a.2.1)
        _ _ ?_ _ acc (valueKept_refl st.data) hfold
      intro s bb s' _ hP hstep
      exact valueKept_trans st.data s.2.1 s'.2.1 hP
        (buildHeadingStep_valueKept keysOnly cs mcs ic st.default_settings
          st.editable_dict s s' bb hstep)

/-- One post-construction operation preserves the reload invariant, given
the per-entry well-formedness of the schema (`backupFixed`). -/
theorem applyOp_reloadInv (st₀ st st₂ : ConfigState) (op : Op)
    (hOK : backupFixed st₀) (hinv : reloadInv st₀ st)
    (hok : applyOp st op = .ok st₂) : reloadInv st₀ st₂ := by
  cases op with
  | write h i v => exact configSetVar_reloadInv st₀ st st₂ h i v hok hinv
  | loadFile lines => exact updateFromFileLines_reloadInv st₀ st st₂ lines hok hinv
  | markNew =>
      unfold applyOp at hok
      simp only [pure, Except.pure] at hok
      cases hok
      exact hinv
  | reload => exact configReload_reloadInv st₀ st st₂ hok hinv
  | save keysOnly =>
      unfold applyOp configSave at hok
      simp only [Except.bind, bind, pure, Except.pure] at hok
      cases hbf : buildForFile st true keysOnly 0 8 false with
      | error err => rw [hbf] at hok; simp at hok
      | ok p =>
          obtain ⟨out, st'⟩ := p
          rw [hbf] at hok
          dsimp only at hok
          cases hok
          have hvk := buildForFile_valueKept st keysOnly 0 8 false out st₂ hbf
          intro h v b hb
          obtain ⟨e₀, e, he₀, he, hpe⟩ := hinv h v b hb
          rw [entryAt_eq] at he
          obtain ⟨e', he', hv1, hl1, ht1⟩ := hvk h v e he
          refine ⟨e₀, e', he₀, by rw [entryAt_eq]; exact he', ?_, ?_⟩
          · intro hl
            obtain ⟨hle, hve⟩ := hpe.1 hl
            rw [lockedE_eq_of_lock e e' hl1, hle, hv1, hve]
            exact ⟨rfl, rfl⟩
          · intro hl0
            have hme : metaOf e = metaOf e₀ := hpe.2 hl0
            rcases hOK h v b hb e₀ he₀ with hlk0 | ⟨t, htyp, -⟩
            · exact absurd (hl0.symm.trans hlk0) (by decide)
            · have htyp2 : e.type? = Option.some t := by
                rw [(metaOf_fields e e₀ hme).1, htyp]
              rw [ht1 (by rw [htyp2]; exact fun hc => Option.noConfusion hc)]
              exact hme

/-- Any sequence of post-construction operations preserves the reload
invariant. -/
theorem applyOps_reloadInv (st₀ st st₂ : ConfigState) (ops : List Op)
    (hOK : backupFixed st₀) (hinv : reloadInv st₀ st)
    (hok : applyOps st ops = .ok st₂) : reloadInv st₀ st₂ := by
  unfold applyOps at hok
  refine foldlM_inv_mem (fun s => reloadInv st₀ s) ops _ ?_ st st₂ hinv hok
  intro s op s' _ hP hstep
  exact applyOp_reloadInv st₀ s s' op hOK hP hstep

/-! ### What construction records in `_data` and `_backup` -/

/-- `entryValue` unfolded. -/
theorem entryValue_eq (st : ConfigState) (h v : String) :
    entryValue st h v = (entryAt st h v).bind (fun e => e.value?) := rfl

/-- Every backup value recorded by `_load_from_dict` is the `value` of the
entry recorded in the live data at the same keys. -/
theorem initConfig_entries (S : Schema) (settings : Option Entry) (editable : Bool)
    (st₀ : ConfigState) (h0 : initConfig S settings editable = .ok st₀) :
    ∀ h v b, backupVal st₀ h v = Option.some b →
      ∃ e₀, entryAt st₀ h v = Option.some e₀ ∧ e₀.value? = Option.some b := by
  unfold initConfig at h0
  cases hfold : S.foldlM (initHeadingStep settings) ([], []) with
  | error e => rw [hfold] at h0; simp [Except.bind, bind] at h0
  | ok p =>
      obtain ⟨data, backup⟩ := p
      rw [hfold] at h0
      simp only [Except.bind, bind, pure, Except.pure] at h0
      cases h0
      have key : ∀ h v b,
          (lookupKey backup h).bind (fun bk => lookupKey bk v) = Option.some b →
          ∃ e, (lookupKey data h).bind (fun vs => lookupKey vs v) = Option.some e ∧
            e.value? = Option.some b := by
        refine foldlM_inv_mem
          (fun acc : Data × List (String × List (String × PyVal)) =>
            ∀ h v b,
              (lookupKey acc.2 h).bind (fun bk => lookupKey bk v) = Option.some b →
              ∃ e, (lookupKey acc.1 h).bind (fun vs => lookupKey vs v) = Option.some e ∧
                e.value? = Option.some b)
          S _ ?_ ([], []) (data, backup) (by intro h v b hb; simp [lookupKey] at hb)
          hfold
        intro acc hv2 acc' _ hP hstep
        obtain ⟨dataA, backupA⟩ := acc
        unfold initHeadingStep at hstep
        simp only [Except.bind, bind, pure, Except.pure] at hstep
        cases hfi : hv2.2.foldlM (initVarStep settings) ([], []) with
        | error e => rw [hfi] at hstep; simp at hstep
        | ok q =>
            obtain ⟨vars, bk⟩ := q
            rw [hfi] at hstep
            dsimp only at hstep
            cases hstep
            have inner : ∀ v b, lookupKey bk v = Option.some b →
                ∃ e, lookupKey vars v = Option.some e ∧ e.value? = Option.some b := by
              refine foldlM_inv_mem
                (fun acc2 : Vars × List (String × PyVal) =>
                  ∀ v b, lookupKey acc2.2 v = Option.some b →
                    ∃ e, lookupKey acc2.1 v = Option.some e ∧
                      e.value? = Option.some b)
                hv2.2 _ ?_ ([], []) (vars, bk)
                (by intro v b hb; simp [lookupKey] at hb) hfi
              intro acc2 ve acc2' _ hP2 hstep2
              obtain ⟨varsA, bkA⟩ := acc2
              unfold initVarStep at hstep2
              simp only [Except.bind, bind, pure, Except.pure, throw, throwThe,
                MonadExceptOf.throw] at hstep2
              cases hni : normalizeInfo settings ve.2 with
              | none =>
                  rw [hni] at hstep2
                  dsimp only at hstep2
                  cases hstep2
                  exact hP2
              | some r =>
                  rw [hni] at hstep2
                  dsimp only at hstep2
                  cases hr : r with
                  | error e => rw [hr] at hstep2; simp at hstep2
                  | ok info =>
                      rw [hr] at hstep2
                      dsimp only at hstep2
                      cases hiv : info.value? with
                      | none => rw [hiv] at hstep2; simp at hstep2
                      | some w =>
                          rw [hiv] at hstep2
                          dsimp only at hstep2
                          cases hstep2
                          intro v b hb
                          by_cases hvv : v = ve.1
                          · subst hvv
                            rw [lookupKey_setKey_self] at hb
                            rw [lookupKey_setKey_self]
                            cases hb
                            exact ⟨info, rfl, hiv⟩
                          · rw [lookupKey_setKey_ne bkA ve.1 v w hvv] at hb
                            rw [lookupKey_setKey_ne varsA ve.1 v info hvv]
                            exact hP2 v b hb
            intro h v b hb
            by_cases hh : h = hv2.1
            · subst hh
              rw [lookupKey_setKey_self] at hb
              simp only [Option.some_bind] at hb
              obtain ⟨e, he, hve⟩ := inner v b hb
              refine ⟨e, ?_, hve⟩
              rw [lookupKey_setKey_self]
              simp only [Option.some_bind]
              exact he
            · rw [lookupKey_setKey_ne backupA hv2.1 h bk hh] at hb
              obtain ⟨e, he, hve⟩ := hP h v b hb
              refine ⟨e, ?_, hve⟩
              rw [lookupKey_setKey_ne dataA hv2.1 h vars hh]
              exact he
      exact key

/-- The backup snapshot has no duplicate heading keys and no duplicate
variable keys inside a heading. -/
theorem initConfig_backup_nodup (S : Schema) (settings : Option Entry)
    (editable : Bool) (st₀ : ConfigState)
    (h0 : initConfig S settings editable = .ok st₀) :
    (st₀.backup.map Prod.fst).Nodup ∧
    ∀ p ∈ st₀.backup, (p.2.map Prod.fst).Nodup := by
  unfold initConfig at h0
  cases hfold : S.foldlM (initHeadingStep settings) ([], []) with
  | error e => rw [hfold] at h0; simp [Except.bind, bind] at h0
  | ok p =>
      obtain ⟨data, backup⟩ := p
      rw [hfold] at h0
      simp only [Except.bind, bind, pure, Except.pure] at h0
      cases h0
      refine foldlM_inv_mem
        (fun acc : Data × List (String × List (String × PyVal)) =>
          ((acc.2.map Prod.fst).Nodup ∧ ∀ p2 ∈ acc.2, (p2.2.map Prod.fst).Nodup))
        S _ ?_ ([], []) (data, backup) (by simp) hfold
      intro acc hv2 acc' _ hP hstep
      obtain ⟨dataA, backupA⟩ := acc
      unfold initHeadingStep at hstep
      simp only [Except.bind, bind, pure, Except.pure] at hstep
      cases hfi : hv2.2.foldlM (initVarStep settings) ([], []) with
      | error e => rw [hfi] at hstep; simp at hstep
      | ok q =>
          obtain ⟨vars, bk⟩ := q
          rw [hfi] at hstep
          dsimp only at hstep
          cases hstep
          have hbknd : (bk.map Prod.fst).Nodup := by
            refine (foldlM_inv_mem
              (fun acc2 : Vars × List (String × PyVal) =>
                (acc2.2.map Prod.fst).Nodup)
              hv2.2 _ ?_ ([], []) (vars, bk) (by simp) hfi)
            intro acc2 ve acc2' _ hP2 hstep2
            obtain ⟨varsA, bkA⟩ := acc2
            unfold initVarStep at hstep2
            simp only [Except.bind, bind, pure, Except.pure, throw, throwThe,
              MonadExceptOf.throw] at hstep2
            cases hni : normalizeInfo settings ve.2 with
            | none =>
                rw [hni] at hstep2
                dsimp only at hstep2
                cases hstep2
                exact hP2
            | some r =>
                rw [hni] at hstep2
                dsimp only at hstep2
                cases hr : r with
                | error e => rw [hr] at hstep2; simp at hstep2
                | ok info =>
                    rw [hr] at hstep2
                    dsimp only at hstep2
                    cases hiv : info.value? with
                    | none => rw [hiv] at hstep2; simp at hstep2
                    | some w =>
                        rw [hiv] at hstep2
                        dsimp only at hstep2
                        cases hstep2
                        exact nodupKeys_setKey bkA ve.1 w hP2
          constructor
          · exact nodupKeys_setKey backupA hv2.1 bk hP.1
          · intro p2 hp2
            rcases mem_setKey backupA hv2.1 bk p2 hp2 with hm | hp3
            · exact hP.2 p2 hm
            · rw [hp3]
              exact hbknd

/-! ### The reload pass restores each well-formed backup value -/

/-- One reloading write restores the backup value at its own keys. -/
theorem configSetVar_restore (st st₂ : ConfigState) (h v : String) (b : PyVal)
    (e₀ e : Entry) (he : entryAt st h v = Option.some e)
    (hpe : presEntry b e₀ e)
    (hok2 : lockedE e₀ = true ∨ ∃ t, e₀.type? = Option.some t ∧
      validateItem e₀ t b = .ok (Option.some b))
    (hok : configSetVar st h v b = .ok st₂) :
    entryValue st₂ h v = Option.some b := by
  rcases configSetVar_entry_eq st st₂ h v b e he hok with
    ⟨hlk, he2⟩ | ⟨hlk, d, t', d', hcc, hsv, hvs, he2⟩
  · have hl0 : lockedE e₀ = true := by
      cases hlb : lockedE e₀ with
      | true => rfl
      | false =>
          have hme := hpe.2 hlb
          have hc := lockedE_congr e e₀ hme
          rw [hlk, hlb] at hc
          exact absurd hc (by decide)
    obtain ⟨-, hve⟩ := hpe.1 hl0
    rw [entryValue_eq, he2]
    simp only [Option.some_bind]
    exact hve
  · have hl0 : lockedE e₀ = false := by
      cases hlb : lockedE e₀ with
      | false => rfl
      | true =>
          have h1 := (hpe.1 hlb).1
          rw [hlk] at h1
          exact absurd h1 (by decide)
    have hme : metaOf e = metaOf e₀ := hpe.2 hl0
    rcases hok2 with hlk0 | ⟨t, htyp, hval⟩
    · exact absurd (hl0.symm.trans hlk0) (by decide)
    · have hsp := createConfigItem_spec e d t' hcc
      have htt : t' = t := by
        have h1 : e.type? = Option.some t := by
          rw [(metaOf_fields e e₀ hme).1, htyp]
        rw [hsp.1] at h1
        exact (Option.some.injEq _ _).mp h1
      subst htt
      have hvd : validateItem d t' b = .ok (Option.some b) := by
        rw [validateItem_congr d e₀ t' b (by rw [hsp.2.1, hme])]
        exact hval
      rcases setValue_spec d d' t' b hsv with ⟨hnone, rfl⟩ | ⟨u, hsome, rfl⟩
      · rw [hvd] at hnone
        simp at hnone
      · rw [hvd] at hsome
        simp only [Except.ok.injEq, Option.some.injEq] at hsome
        subst hsome
        rw [entryValue_eq, he2]
        simp only [Option.some_bind]

/-- A run of reloading writes at other variables of the same heading does
not touch `(h, v)`. -/
theorem innerFold_entry_ne (h₁ h v : String) (bk : List (String × PyVal))
    (hne : h₁ ≠ h ∨ ∀ p ∈ bk, p.1 ≠ v) (s s' : ConfigState)
    (hok : bk.foldlM (fun s2 ve => configSetVar s2 h₁ ve.1 ve.2) s = .ok s') :
    entryAt s' h v = entryAt s h v := by
  refine foldlM_inv_mem (fun s2 => entryAt s2 h v = entryAt s h v) bk _ ?_
    s s' rfl hok
  intro s2 ve s2' hm hP hstep
  rw [← hP]
  refine configSetVar_entry_ne s2 h₁ ve.1 ve.2 s2' hstep h v ?_
  rcases hne with hne1 | hne2
  · exact fun hc => hne1 hc.1.symm
  · exact fun hc => hne2 ve hm hc.2.symm

/-- A run of heading blocks of reloading writes at other headings does not
touch `(h, v)`. -/
theorem outerFold_entry_ne (h v : String)
    (L : List (String × List (String × PyVal)))
    (hne : ∀ p ∈ L, p.1 ≠ h) (s s' : ConfigState)
    (hok : L.foldlM (fun s2 hv2 => hv2.2.foldlM
      (fun s3 ve => configSetVar s3 hv2.1 ve.1 ve.2) s2) s = .ok s') :
    entryAt s' h v = entryAt s h v := by
  refine foldlM_inv_mem (fun s2 => entryAt s2 h v = entryAt s h v) L _ ?_
    s s' rfl hok
  intro s2 hv2 s2' hm hP hstep
  rw [← hP]
  exact innerFold_entry_ne hv2.1 h v hv2.2 (Or.inl (hne hv2 hm)) s2 s2' hstep

/-- The reload pass writes each backup value back, and the write sticks for
every well-formed entry. -/
theorem reload_restores (st₀ st st' : ConfigState)
    (hbk : st.backup = st₀.backup)
    (hnd1 : (st₀.backup.map Prod.fst).Nodup)
    (hnd2 : ∀ p ∈ st₀.backup, (p.2.map Prod.fst).Nodup)
    (hinv : reloadInv st₀ st)
    (hOK : backupFixed st₀)
    (hr : configReload st = .ok st') :
    ∀ h v b, backupVal st₀ h v = Option.some b →
      entryValue st' h v = Option.some b := by
  intro h v b hb
  have hb' := hb
  unfold backupVal at hb'
  cases hlb : lookupKey st₀.backup h with
  | none => rw [hlb] at hb'; simp at hb'
  | some bk =>
      rw [hlb] at hb'
      simp only [Option.some_bind] at hb'
      obtain ⟨L₁, L₂, hsplit, hL₁⟩ := lookupKey_split st₀.backup h bk hlb
      have hnd1' := hnd1
      rw [hsplit] at hnd1'
      have hL₂ : ∀ p ∈ L₂, p.1 ≠ h := keys_nodup_middle L₁ L₂ h bk hnd1'
      obtain ⟨m₁, m₂, hmsplit, hm₁⟩ := lookupKey_split bk v b hb'
      have hbknd : (bk.map Prod.fst).Nodup := by
        refine hnd2 (h, bk) ?_
        rw [hsplit]
        exact List.mem_append_right _ (List.mem_cons_self _ _)
      have hbknd' := hbknd
      rw [hmsplit] at hbknd'
      have hm₂ : ∀ p ∈ m₂, p.1 ≠ v := keys_nodup_middle m₁ m₂ v b hbknd'
      unfold configReload at hr
      rw [hbk, hsplit] at hr
      obtain ⟨s₁, hr1, hr2⟩ := foldlM_append_ok _ L₁ ((h, bk) :: L₂) st st' hr
      obtain ⟨s₂, hr3, hr4⟩ := foldlM_cons_ok _ (h, bk) L₂ s₁ st' hr2
      dsimp only at hr3
      rw [hmsplit] at hr3
      obtain ⟨u₁, hu1, hu2⟩ := foldlM_append_ok _ m₁ ((v, b) :: m₂) s₁ s₂ hr3
      obtain ⟨u₂, hu3, hu4⟩ := foldlM_cons_ok _ (v, b) m₂ u₁ s₂ hu2
      dsimp only at hu3
      have hinv1 : reloadInv st₀ s₁ := by
        refine foldlM_inv_mem (fun s => reloadInv st₀ s) L₁ _ ?_ st s₁ hinv hr1
        intro s hv2 s' _ hP hstep
        refine foldlM_inv_mem (fun s2 => reloadInv st₀ s2) hv2.2 _ ?_ s s' hP hstep
        intro s2 ve s2' _ hP2 hstep2
        exact configSetVar_reloadInv st₀ s2 s2' hv2.1 ve.1 ve.2 hstep2 hP2
      have hinvu : reloadInv st₀ u₁ := by
        refine foldlM_inv_mem (fun s2 => reloadInv st₀ s2) m₁ _ ?_ s₁ u₁ hinv1 hu1
        intro s2 ve s2' _ hP2 hstep2
        exact configSetVar_reloadInv st₀ s2 s2' h ve.1 ve.2 hstep2 hP2
      obtain ⟨e₀, e, he₀, he, hpe⟩ := hinvu h v b hb
      have hres : entryValue u₂ h v = Option.some b :=
        configSetVar_restore u₁ u₂ h v b e₀ e he hpe (hOK h v b hb e₀ he₀) hu3
      have hafter1 : entryAt s₂ h v = entryAt u₂ h v :=
        innerFold_entry_ne h h v m₂ (Or.inr hm₂) u₂ s₂ hu4
      have hafter2 : entryAt st' h v = entryAt s₂ h v :=
        outerFold_entry_ne h v L₂ hL₂ s₂ st' hr4
      rw [entryValue_eq, hafter2, hafter1, ← entryValue_eq]
      exact hres

/-! ### Claim C2 — reload after arbitrary mutations -/

/-- C2 (amended): on a store built from a default schema whose backup
values are each either frozen by `lock` or fixed points of their own
entry's validation, after any sequence of `load`s, entry writes, `save`s
and `reload`s, a `reload()` that completes restores every entry's value to
its backup-snapshot value; and the reload touches neither the default
schema, the backup snapshot, the default settings, nor the editable flag.
(The fixed-point hypothesis is necessary: `reload()` routes each backup
value through the validating write path, so an initial value outside its
own declared constraints is re-validated — see the counterexample, where
an initial `99` under `max = 10` reloads as `10`.) -/
theorem C2_reload_amended (S : Schema) (settings : Option Entry) (editable : Bool)
    (ops : List Op) (st₀ st st' : ConfigState)
    (h0 : initConfig S settings editable = .ok st₀)
    (hops : applyOps st₀ ops = .ok st)
    (hOK : backupFixed st₀)
    (hr : configReload st = .ok st') :
    (∀ h v b, backupVal st₀ h v = Option.some b →
      entryValue st' h v = Option.some b) ∧ sameShell st st' := by
  constructor
  · have hsh := applyOps_shell st₀ ops st hops
    have hinv0 : reloadInv st₀ st₀ := by
      intro h v b hb
      obtain ⟨e₀, he₀, hv₀⟩ := initConfig_entries S settings editable st₀ h0 h v b hb
      exact ⟨e₀, e₀, he₀, he₀, fun hl => ⟨hl, hv₀⟩, fun _ => rfl⟩
    have hinv : reloadInv st₀ st := applyOps_reloadInv st₀ st₀ st ops hOK hinv0 hops
    obtain ⟨hnd1, hnd2⟩ := initConfig_backup_nodup S settings editable st₀ h0
    exact reload_restores st₀ st st' hsh.2.1 hnd1 hnd2 hinv hOK hr
  · exact configReload_shell st st' hr

/-- The C2 counterexample schema: an int entry whose initial value `99`
violates its own declared bound `max = 10`. -/
def c2schema : Schema :=
  [("H", [("v", .dict { value? := Option.some (.int 99),
                        type? := Option.some .int,
                        max? := Option.some (.int 10) })])]

/-- The store built from `c2schema` (backup records `99` unvalidated). -/
def c2st : ConfigState where
  data := [("H", [("v",
    { value? := Option.some (.int 99), type? := Option.some .int,
      max? := Option.some (.int 10), default? := Option.some (.int 99) })])]
  backup := [("H", [("v", .int 99)])]
  defaults := c2schema
  default_settings := Option.none
  editable_dict := true
  is_new := false

/-- The result of `reload()` on `c2st`: the backup value was clamped. -/
def c2stR : ConfigState where
  data := [("H", [("v",
    { value? := Option.some (.int 10), type? := Option.some .int,
      max? := Option.some (.int 10), default? := Option.some (.int 99) })])]
  backup := [("H", [("v", .int 99)])]
  defaults := c2schema
  default_settings := Option.none
  editable_dict := true
  is_new := false

/-- C2 counterexample: on the store built from `c2schema` — with no
intervening operation at all — `reload()` completes but stores `10`, not
the construction-time value `99`: reload re-validates the backup value, so
it does not restore values that violate their own entry's constraints. -/
theorem C2_counterexample :
    initConfig c2schema Option.none true = .ok c2st ∧
    backupVal c2st "H" "v" = Option.some (.int 99) ∧
    entryValue c2st "H" "v" = Option.some (.int 99) ∧
    configReload c2st = .ok c2stR ∧
    entryValue c2stR "H" "v" = Option.some (.int 10) ∧
    entryValue c2stR "H" "v" ≠ backupVal c2st "H" "v" := by
  refine ⟨?_, ?_, ?_, ?_, ?_, ?_⟩ <;> decide

/-- The C2 witness schema: a plain int entry with value `5`. -/
def w2schema : Schema := [("H", [("v", .scalar (.int 5))])]

/-- The store built from `w2schema`. -/
def w2st0 : ConfigState where
  data := [("H", [("v",
    { value? := Option.some (.int 5), type? := Option.some .int,
      default? := Option.some (.int 5) })])]
  backup := [("H", [("v", .int 5)])]
  defaults := w2schema
  default_settings := Option.none
  editable_dict := true
  is_new := false

/-- The C2 witness operations: one write that changes the value to `7`. -/
def w2ops : List Op := [Op.write "H" "v" (.int 7)]

/-- `w2st0` after the write. -/
def w2st1 : ConfigState where
  data := [("H", [("v",
    { value? := Option.some (.int 7), type? := Option.some .int,
      default? := Option.some (.int 5) })])]
  backup := [("H", [("v", .int 5)])]
  defaults := w2schema
  default_settings := Option.none
  editable_dict := true
  is_new := false

/-- `w2st1` after `reload()`: the value is back to `5`. -/
def w2st2 : ConfigState where
  data := [("H", [("v",
    { value? := Option.some (.int 5), type? := Option.some .int,
      default? := Option.some (.int 5) })])]
  backup := [("H", [("v", .int 5)])]
  defaults := w2schema
  default_settings := Option.none
  editable_dict := true
  is_new := false

/-- The single backup value of `w2st0` is a fixed point of its entry's
validation. -/
theorem w2st0_backupFixed : backupFixed w2st0 := by
  intro h v b hb e₀ he₀
  by_cases hh : "H" = h
  · subst hh
    by_cases hv : "v" = v
    · subst hv
      have hb0 : backupVal w2st0 "H" "v" = Option.some (.int 5) := by decide
      rw [hb0] at hb
      have hb5 : b = PyVal.int 5 := ((Option.some.injEq _ _).mp hb).symm
      subst hb5
      have he0 : entryAt w2st0 "H" "v" = Option.some
          ({ value? := Option.some (.int 5), type? := Option.some .int,
             default? := Option.some (.int 5) } : Entry) := by decide
      rw [he0] at he₀
      have he5 := (Option.some.injEq _ _).mp he₀
      rw [← he5]
      exact Or.inr ⟨.int, by decide, by decide⟩
    · exfalso
      have hn : backupVal w2st0 "H" v = Option.none := by
        simp [backupVal, w2st0, lookupKey, hv]
      rw [hn] at hb
      exact Option.noConfusion hb
  · exfalso
    have hn : backupVal w2st0 h v = Option.none := by
      simp [backupVal, w2st0, lookupKey, hh]
    rw [hn] at hb
    exact Option.noConfusion hb

/-- Witness for C2: the amended theorem applied to a concrete store taken
through a write and a reload; the value written over is restored. -/
theorem C2_witness : entryValue w2st2 "H" "v" = Option.some (.int 5) :=
  (C2_reload_amended w2schema Option.none true w2ops w2st0 w2st1 w2st2
      (by decide) (by decide) w2st0_backupFixed (by decide)).1
    "H" "v" (.int 5) (by decide)

/-! ### The shape of one parsed line (for the save/load round trip) -/

/-- The heading order `_build_for_file` iterates. -/
def headOrder (S : Schema) : List String :=
  _get_priority_order S prioOfRawVars Option.none true

/-- The variable order `_build_for_file` iterates inside one heading. -/
def varOrder (rv : RawVars) : List String :=
  _get_priority_order rv prioOfRawVal Option.none true

/-- What `_update_from_file` recognises as a `[Heading]` line (after
comment stripping and trimming): the extracted heading name. -/
def parseHeading (line : String) : Option String :=
  match stripChars (takeBeforeComment (stripChars line.data)) with
  | [] => Option.none
  | c :: rest =>
      if c = '[' ∧ (c :: rest).getLast (by simp) = ']' then
        Option.some (String.mk ((c :: rest).drop 1).dropLast)
      else Option.none

/-- What `_update_from_file` recognises as a `variable = value` line: the
trimmed variable name and the trimmed right-hand text. -/
def parseAssign (line : String) : Option (String × String) :=
  match stripChars (takeBeforeComment (stripChars line.data)) with
  | [] => Option.none
  | c :: rest =>
      if c = '[' ∧ (c :: rest).getLast (by simp) = ']' then Option.none
      else
        match splitFirstEq (c :: rest) with
        | Option.none => Option.none
        | Option.some (a, b) =>
            Option.some (String.mk (stripChars a), String.mk (stripChars b))

theorem processLine_of_parseHeading (st : ConfigState) (hdr : Option String)
    (line h₃ : String) (hp : parseHeading line = Option.some h₃) :
    processLine st hdr line = .ok (st, Option.some h₃) := by
  unfold parseHeading at hp
  unfold processLine
  cases hcs : stripChars (takeBeforeComment (stripChars line.data)) with
  | nil => rw [hcs] at hp; simp at hp
  | cons c rest =>
      rw [hcs] at hp
      dsimp only at hp
      dsimp only
      by_cases hbr : c = '[' ∧ (c :: rest).getLast (by simp) = ']'
      · rw [if_pos hbr] at hp
        rw [if_pos hbr]
        simp only [Option.some.injEq] at hp
        rw [hp]
        rfl
      · rw [if_neg hbr] at hp
        simp at hp

theorem processLine_of_blank (st : ConfigState) (hdr : Option String)
    (line : String)
    (hp : stripChars (takeBeforeComment (stripChars line.data)) = []) :
    processLine st hdr line = .ok (st, hdr) := by
  unfold processLine
  rw [hp]
  rfl

theorem processLine_of_parseAssign (st : ConfigState) (hd line n p : String)
    (hp : parseAssign line = Option.some (n, p)) :
    processLine st (Option.some hd) line =
      match configSetVar st hd n (.str p) with
      | .ok st2 => .ok (st2, Option.some hd)
      | .error .keyError => .ok (st, Option.some hd)
      | .error e => .error e := by
  unfold parseAssign at hp
  unfold processLine
  cases hcs : stripChars (takeBeforeComment (stripChars line.data)) with
  | nil => rw [hcs] at hp; simp at hp
  | cons c rest =>
      rw [hcs] at hp
      dsimp only at hp
      dsimp only
      by_cases hbr : c = '[' ∧ (c :: rest).getLast (by simp) = ']'
      · rw [if_pos hbr] at hp
        simp at hp
      · rw [if_neg hbr] at hp
        rw [if_neg hbr]
        cases hsp : splitFirstEq (c :: rest) with
        | none => rw [hsp] at hp; simp at hp
        | some ab =>
            obtain ⟨a, b⟩ := ab
            rw [hsp] at hp
            dsimp only at hp
            dsimp only
            simp only [Option.some.injEq, Prod.mk.injEq] at hp
            obtain ⟨hpn, hpp⟩ := hp
            rw [hpn, hpp]
            cases hset : configSetVar st hd n (.str p) with
            | ok st2 => rfl
            | error e => cases e <;> rfl

/-- A recognised assignment line is not a recognised heading line. -/
theorem parseHeading_of_parseAssign (line n p : String)
    (hp : parseAssign line = Option.some (n, p)) :
    parseHeading line = Option.none := by
  unfold parseAssign at hp
  unfold parseHeading
  cases hcs : stripChars (takeBeforeComment (stripChars line.data)) with
  | nil => rfl
  | cons c rest =>
      rw [hcs] at hp
      dsimp only at hp
      dsimp only
      by_cases hbr : c = '[' ∧ (c :: rest).getLast (by simp) = ']'
      · rw [if_pos hbr] at hp
        simp at hp
      · rw [if_neg hbr]

/-- Complete case analysis of one successfully processed line. -/
theorem processLine_cases2 (st : ConfigState) (hdr : Option String) (line : String)
    (st₂ : ConfigState) (hdr' : Option String)
    (hok : processLine st hdr line = .ok (st₂, hdr')) :
    (st₂ = st ∧ hdr' = hdr) ∨
    (st₂ = st ∧ ∃ h₃, parseHeading line = Option.some h₃ ∧ hdr' = Option.some h₃) ∨
    (hdr' = hdr ∧ ∃ hd n p, hdr = Option.some hd ∧
      parseAssign line = Option.some (n, p) ∧
      (configSetVar st hd n (.str p) = .ok st₂ ∨
        (st₂ = st ∧ configSetVar st hd n (.str p) = .error .keyError))) := by
  unfold processLine at hok
  cases hcs : stripChars (takeBeforeComment (stripChars line.data)) with
  | nil =>
      rw [hcs] at hok
      simp only [pure, Except.pure] at hok
      cases hok
      exact Or.inl ⟨rfl, rfl⟩
  | cons c rest =>
      rw [hcs] at hok
      dsimp only at hok
      by_cases hbr : c = '[' ∧ (c :: rest).getLast (by simp) = ']'
      · rw [if_pos hbr] at hok
        simp only [pure, Except.pure] at hok
        cases hok
        refine Or.inr (Or.inl ⟨rfl, String.mk ((c :: rest).drop 1).dropLast, ?_, rfl⟩)
        unfold parseHeading
        rw [hcs]
        dsimp only
        rw [if_pos hbr]
      · rw [if_neg hbr] at hok
        cases hsp : splitFirstEq (c :: rest) with
        | none => rw [hsp] at hok; simp [throw, throwThe, MonadExceptOf.throw] at hok
        | some ab =>
            obtain ⟨a, b⟩ := ab
            rw [hsp] at hok
            cases hdr with
            | none => simp [throw, throwThe, MonadExceptOf.throw] at hok
            | some hd =>
                dsimp only at hok
                have hpa : parseAssign line =
                    Option.some (String.mk (stripChars a), String.mk (stripChars b)) := by
                  unfold parseAssign
                  rw [hcs]
                  dsimp only
                  rw [if_neg hbr, hsp]
                cases hset : configSetVar st hd (String.mk (stripChars a))
                    (.str (String.mk (stripChars b))) with
                | ok st₃ =>
                    rw [hset] at hok
                    simp only [pure, Except.pure] at hok
                    cases hok
                    exact Or.inr (Or.inr ⟨rfl, hd, String.mk (stripChars a),
                      String.mk (stripChars b), rfl, hpa, Or.inl hset⟩)
                | error e =>
                    rw [hset] at hok
                    cases e with
                    | keyError =>
                        simp only [pure, Except.pure] at hok
                        cases hok
                        exact Or.inr (Or.inr ⟨rfl, hd, String.mk (stripChars a),
                          String.mk (stripChars b), rfl, hpa, Or.inr ⟨rfl, hset⟩⟩)
                    | valueError => simp [throw, throwThe, MonadExceptOf.throw] at hok
                    | typeError => simp [throw, throwThe, MonadExceptOf.throw] at hok
                    | attributeError => simp [throw, throwThe, MonadExceptOf.throw] at hok
                    | nameError => simp [throw, throwThe, MonadExceptOf.throw] at hok

/-- Stripping keeps the leading `//` of a comment line. -/
theorem stripChars_comment (cs : List Char) :
    ∃ Y, stripChars ('/' :: '/' :: cs) = '/' :: '/' :: Y := by
  have hsp : pyIsSpace '/' = false := rfl
  unfold stripChars
  simp only [List.dropWhile_cons, hsp, Bool.false_eq_true, if_false,
    List.reverse_cons, List.append_assoc, List.singleton_append]
  rw [List.dropWhile_append]
  by_cases hemp : (cs.reverse.dropWhile pyIsSpace).isEmpty
  · rw [if_pos hemp]
    simp only [List.dropWhile_cons, hsp, Bool.false_eq_true, if_false]
    exact ⟨[], rfl⟩
  · rw [if_neg hemp]
    refine ⟨(cs.reverse.dropWhile pyIsSpace).reverse, ?_⟩
    rw [List.reverse_append]
    rfl

/-- A generated `// comment` line is skipped by the parser. -/
theorem commentLine_blank (s : String) :
    stripChars (takeBeforeComment (stripChars ("// " ++ s).data)) = [] := by
  have hsd : ("// " ++ s).data = '/' :: '/' :: ' ' :: s.data := by
    simp [String.data_append]
  rw [hsd]
  obtain ⟨Y, hY⟩ := stripChars_comment (' ' :: s.data)
  rw [hY]
  rfl

/-! ### The exact text a `changes=True, keys_only=False` save emits -/

/-- The line `_build_for_file` emits for one variable (given the entry is in
the live data; the fallback is never reached under the hypotheses used). -/
def savedVarLineD (data : Data) (heading v : String) : String :=
  match (lookupKey data heading).bind (fun vs => lookupKey vs v) with
  | Option.some e =>
      buildVarLine false 0 8 false v ((e.value?).getD (.bool false)) e.info?
  | Option.none => ""

/-- The heading-comment lines emitted for one heading. -/
def headInfoD (defaults : Schema) (h : String) : List String :=
  match lookupKey defaults h with
  | Option.some rv =>
      match headingInfoLines rv with
      | .ok L => L
      | .error _ => []
  | Option.none => []

/-- The variable order of one heading of the schema. -/
def varsOfD (defaults : Schema) (h : String) : List String :=
  match lookupKey defaults h with
  | Option.some rv => varOrder rv
  | Option.none => []

/-- One heading's block of emitted lines. -/
def blockD (data : Data) (defaults : Schema) (h : String) : List String :=
  (("[" ++ h ++ "]") :: headInfoD defaults h)
    ++ (varsOfD defaults h).map (savedVarLineD data h) ++ [""]

/-- The whole emitted line list (before the final `[:-1]`). -/
def savedLinesD (data : Data) (defaults : Schema) : List String :=
  ((headOrder defaults).map (blockD data defaults)).flatten

/-- The save-side well-formedness of one variable: present in the live
data, carrying a usable type and a value. -/
def varClean (vars : Vars) (v : String) : Prop :=
  ∃ e t, lookupKey vars v = Option.some e ∧ e.type? = Option.some t ∧
    t ≠ .noneType ∧ (e.value?).isSome = true

/-- The save-side well-formedness of one heading. -/
def saveCleanAt (st : ConfigState) (h : String) : Prop :=
  ∃ rv vars, lookupKey st.defaults h = Option.some rv ∧
    lookupKey st.data h = Option.some vars ∧
    (∃ L, headingInfoLines rv = .ok L) ∧
    ∀ v ∈ varOrder rv, varClean vars v

theorem defaultValueFor_ok (t : TypeTag) (h : t ≠ .noneType) :
    ∃ dv, defaultValueFor t = .ok dv := by
  cases t with
  | noneType => exact absurd rfl h
  | int => exact ⟨_, rfl⟩
  | float => exact ⟨_, rfl⟩
  | str => exact ⟨_, rfl⟩
  | bool => exact ⟨_, rfl⟩

theorem saveVarFold (settings : Option Entry) (editable : Bool)
    (data : Data) (defaults : Schema) (heading : String) (vars : Vars)
    (hvars : lookupKey data heading = Option.some vars) :
    ∀ (vs : List String) (output : List String), (∀ v ∈ vs, varClean vars v) →
      vs.foldlM (buildVarStep true false 0 8 false settings editable heading)
        (output, data, defaults)
      = .ok (output ++ vs.map (savedVarLineD data heading), data, defaults) := by
  intro vs
  induction vs with
  | nil =>
      intro output hv
      simp [List.foldlM_nil, pure, Except.pure]
  | cons v vs' ih =>
      intro output hv
      obtain ⟨e, t, hve, hty, htn, hvs⟩ := hv v (List.mem_cons_self _ _)
      obtain ⟨val, hval⟩ := Option.isSome_iff_exists.mp hvs
      obtain ⟨dv, hdv⟩ := defaultValueFor_ok t htn
      have hline : savedVarLineD data heading v
          = buildVarLine false 0 8 false v val e.info? := by
        unfold savedVarLineD
        rw [hvars]
        simp only [Option.some_bind]
        rw [hve]
        dsimp only
        rw [hval]
        rfl
      have hstep : buildVarStep true false 0 8 false settings editable heading
          (output, data, defaults) v
          = .ok (output ++ [savedVarLineD data heading v], data, defaults) := by
        rw [hline]
        unfold buildVarStep buildVar
        simp [hvars, hve, hty, hval, hdv, ensureType,
          setKey_eq_of_lookup vars v e hve,
          setKey_eq_of_lookup data heading vars hvars,
          pure, Except.pure, Except.bind, bind]
      rw [List.foldlM_cons, hstep]
      simp only [Except.bind, bind]
      rw [ih (output ++ [savedVarLineD data heading v])
        (fun v2 hm => hv v2 (List.mem_cons_of_mem _ hm))]
      simp [List.map_cons, List.append_assoc]

theorem saveHeadFold (st : ConfigState) :
    ∀ (hs : List String) (output : List String), (∀ h ∈ hs, saveCleanAt st h) →
      hs.foldlM (buildHeadingStep true false 0 8 false st.default_settings
        st.editable_dict) (output, st.data, st.defaults)
      = .ok (output ++ (hs.map (blockD st.data st.defaults)).flatten,
          st.data, st.defaults) := by
  intro hs
  induction hs with
  | nil =>
      intro output hcl
      simp [List.foldlM_nil, pure, Except.pure]
  | cons h hs' ih =>
      intro output hcl
      obtain ⟨rv, vars, hrv, hvars, ⟨L, hL⟩, hv⟩ := hcl h (List.mem_cons_self _ _)
      have hstep : buildHeadingStep true false 0 8 false st.default_settings
          st.editable_dict (output, st.data, st.defaults) h
          = .ok (output ++ blockD st.data st.defaults h, st.data, st.defaults) := by
        unfold buildHeadingStep
        dsimp only
        have hcond : ¬(st.editable_dict = true ∧ lookupKey st.data h = Option.none) := by
          rintro ⟨-, hc⟩
          rw [hvars] at hc
          exact Option.noConfusion hc
        rw [if_neg hcond]
        simp only [Except.bind, bind, pure, Except.pure, throw, throwThe,
          MonadExceptOf.throw]
        rw [hrv]
        dsimp only
        rw [hL]
        dsimp only
        have hfold := saveVarFold st.default_settings st.editable_dict st.data
          st.defaults h vars hvars
          (_get_priority_order rv prioOfRawVal Option.none true)
          (output ++ ["[" ++ h ++ "]"] ++ L) (fun v hm => hv v hm)
        rw [hfold]
        dsimp only
        unfold blockD headInfoD varsOfD varOrder
        rw [hrv]
        dsimp only
        rw [hL]
        dsimp only
        simp [List.append_assoc]
      rw [List.foldlM_cons, hstep]
      simp only [Except.bind, bind]
      rw [ih (output ++ blockD st.data st.defaults h)
        (fun h2 hm => hcl h2 (List.mem_cons_of_mem _ hm))]
      simp [List.map_cons, List.append_assoc]

/-- Under per-heading cleanliness, `save(changes=True)` emits exactly the
described blocks (minus the final blank) and leaves the store unchanged. -/
theorem configSave_characterize (st : ConfigState)
    (hcl : ∀ h ∈ headOrder st.defaults, saveCleanAt st h) :
    configSave st false = .ok ((savedLinesD st.data st.defaults).dropLast, st) := by
  unfold configSave buildForFile
  simp only [Except.bind, bind, pure, Except.pure]
  have hfold := saveHeadFold st (headOrder st.defaults) [] hcl
  rw [show headOrder st.defaults
      = _get_priority_order st.defaults prioOfRawVars Option.none true from rfl]
    at hfold
  rw [hfold]
  dsimp only
  rfl

theorem join_blocks_end_blank (data : Data) (defaults : Schema) :
    ∀ hs : List String, hs ≠ [] →
      ∃ X, ((hs.map (blockD data defaults)).flatten) = X ++ [""] := by
  intro hs
  induction hs with
  | nil => intro h; exact absurd rfl h
  | cons h t ih =>
      intro _
      cases t with
      | nil =>
          refine ⟨("[" ++ h ++ "]") :: headInfoD defaults h
            ++ (varsOfD defaults h).map (savedVarLineD data h), ?_⟩
          simp [blockD, List.append_assoc]
      | cons h2 t2 =>
          obtain ⟨X, hX⟩ := ih (by simp)
          refine ⟨blockD data defaults h ++ X, ?_⟩
          rw [List.map_cons, List.flatten_cons, hX, List.append_assoc]

/-! ### Replaying the saved lines through `_update_from_file` -/

theorem configLoad_primary (st : ConfigState) (lines : List String) :
    configLoad st (Option.some lines) [] = updateFromFileLines st lines := rfl

theorem updateFromFileLines_fold (st st₂ : ConfigState) (lines : List String)
    (hok : updateFromFileLines st lines = .ok st₂) :
    ∃ hdr', lines.foldlM (fun (acc : ConfigState × Option String) line =>
      processLine acc.1 acc.2 line) (st, Option.none) = .ok (st₂, hdr') := by
  unfold updateFromFileLines at hok
  cases hfold : lines.foldlM
      (fun (acc : ConfigState × Option String) line => processLine acc.1 acc.2 line)
      (st, (Option.none : Option String)) with
  | error e => rw [hfold] at hok; simp [Except.bind, bind] at hok
  | ok p =>
      rw [hfold] at hok
      simp only [Except.bind, bind, pure, Except.pure] at hok
      cases hok
      exact ⟨p.2, rfl⟩

theorem foldlM_append_eq {β σ : Type} (f : σ → β → Except PyExc σ)
    (l₁ l₂ : List β) (s : σ) :
    (l₁ ++ l₂).foldlM f s
      = Except.bind (l₁.foldlM f s) (fun m => l₂.foldlM f m) := by
  induction l₁ generalizing s with
  | nil => simp [List.foldlM_nil, pure, Except.pure, Except.bind]
  | cons b t ih =>
      simp only [List.cons_append, List.foldlM_cons]
      cases hb : f s b with
      | error e => simp [hb, Except.bind, bind]
      | ok m => simp [hb, Except.bind, bind, ih]

theorem fold_append_blank (ls : List String) (s p : ConfigState × Option String)
    (hok : ls.foldlM (fun (acc : ConfigState × Option String) line =>
      processLine acc.1 acc.2 line) s = .ok p) :
    (ls ++ [""]).foldlM (fun (acc : ConfigState × Option String) line =>
      processLine acc.1 acc.2 line) s = .ok p := by
  rw [foldlM_append_eq, hok]
  simp only [Except.bind]
  simp [List.foldlM_cons, List.foldlM_nil, processLine_of_blank p.1 p.2 "" rfl,
    pure, Except.pure, Except.bind, bind]

/-- A line that the parser will never take for a `[h]` heading line. -/
def lineSafe (h ℓ : String) : Prop :=
  ∀ h₃, parseHeading ℓ = Option.some h₃ → h₃ ≠ h

theorem parseHeading_comment (s : String) :
    parseHeading ("// " ++ s) = Option.none := by
  unfold parseHeading
  rw [commentLine_blank]

theorem parseHeading_empty : parseHeading "" = Option.none := rfl

/-- The heading-comment lines all start with `// `. -/
theorem headingInfoLines_shape (rv : RawVars) (L : List String)
    (h : headingInfoLines rv = .ok L) : ∀ l ∈ L, ∃ s, l = "// " ++ s := by
  unfold headingInfoLines at h
  cases hl : lookupKey rv "__info__" with
  | none =>
      rw [hl] at h
      simp only [Except.ok.injEq] at h
      rw [← h]
      intro l hm
      exact absurd hm (List.not_mem_nil l)
  | some rw0 =>
      rw [hl] at h
      cases rw0 with
      | dict e => simp at h
      | scalar sv =>
          cases sv with
          | str s =>
              simp only [Except.ok.injEq] at h
              rw [← h]
              intro l hm
              rcases List.mem_map.mp hm with ⟨cs, -, rfl⟩
              exact ⟨String.mk cs, rfl⟩
          | int n => simp at h
          | float q => simp at h
          | bool b => simp at h
          | none => simp at h

/-- The emitted variable line, under the lookups that hold for it. -/
theorem savedVarLineD_eq (data : Data) (h v : String) (vars : Vars) (e : Entry)
    (val : PyVal) (hvars : lookupKey data h = Option.some vars)
    (hve : lookupKey vars v = Option.some e) (hval : e.value? = Option.some val) :
    savedVarLineD data h v = buildVarLine false 0 8 false v val e.info? := by
  unfold savedVarLineD
  rw [hvars]
  simp only [Option.some_bind]
  rw [hve]
  dsimp only
  rw [hval]
  rfl

/-- Processing a run of lines that cannot re-establish the heading `h`,
starting away from `h`, leaves every `(h, v)` entry alone. -/
theorem foldSegment_ne (h v : String) (ls : List String)
    (hsafe : ∀ ℓ ∈ ls, lineSafe h ℓ)
    (acc acc' : ConfigState × Option String)
    (hok : ls.foldlM (fun (a : ConfigState × Option String) line =>
      processLine a.1 a.2 line) acc = .ok acc')
    (hP : acc.2 ≠ Option.some h) :
    entryAt acc'.1 h v = entryAt acc.1 h v ∧ acc'.2 ≠ Option.some h := by
  refine foldlM_inv_mem
    (fun a : ConfigState × Option String =>
      entryAt a.1 h v = entryAt acc.1 h v ∧ a.2 ≠ Option.some h)
    ls _ ?_ acc acc' ⟨rfl, hP⟩ hok
  intro a ℓ a' hm hPa hstep
  rcases processLine_cases2 a.1 a.2 ℓ a'.1 a'.2
      (by cases a' with | mk x y => exact hstep) with
    ⟨hst, hhdr⟩ | ⟨hst, h₃, hph, hhdr⟩ | ⟨hhdr, hd, n, p, hhd, hpa, hcs⟩
  · exact ⟨by rw [hst]; exact hPa.1, by rw [hhdr]; exact hPa.2⟩
  · refine ⟨by rw [hst]; exact hPa.1, ?_⟩
    rw [hhdr]
    intro hc
    exact hsafe ℓ hm h₃ hph ((Option.some.injEq _ _).mp hc)
  · have hhd_ne : hd ≠ h := by
      intro hc
      rw [hc] at hhd
      exact hPa.2 hhd
    rcases hcs with hok2 | ⟨hst, -⟩
    · refine ⟨?_, by rw [hhdr]; exact hPa.2⟩
      rw [configSetVar_entry_ne a.1 hd n (.str p) a'.1 hok2 h v
        (fun hc => hhd_ne hc.1.symm)]
      exact hPa.1
    · exact ⟨by rw [hst]; exact hPa.1, by rw [hhdr]; exact hPa.2⟩

/-- Processing a run of assignment lines of the current heading whose
variable names avoid `v` leaves `(h, v)` alone and keeps the heading. -/
theorem foldAssignSeg_ne (h v : String) (ls : List String)
    (hws : ∀ ℓ ∈ ls, ∃ n p, parseAssign ℓ = Option.some (n, p) ∧ n ≠ v)
    (acc acc' : ConfigState × Option String)
    (hok : ls.foldlM (fun (a : ConfigState × Option String) line =>
      processLine a.1 a.2 line) acc = .ok acc')
    (hhdr : acc.2 = Option.some h) :
    entryAt acc'.1 h v = entryAt acc.1 h v ∧ acc'.2 = Option.some h := by
  refine foldlM_inv_mem
    (fun a : ConfigState × Option String =>
      entryAt a.1 h v = entryAt acc.1 h v ∧ a.2 = Option.some h)
    ls _ ?_ acc acc' ⟨rfl, hhdr⟩ hok
  intro a ℓ a' hm hPa hstep
  obtain ⟨n, p, hpa, hnv⟩ := hws ℓ hm
  rw [hPa.2, processLine_of_parseAssign a.1 h ℓ n p hpa] at hstep
  cases hset : configSetVar a.1 h n (.str p) with
  | ok st₃ =>
      rw [hset] at hstep
      dsimp only at hstep
      cases hstep
      refine ⟨?_, rfl⟩
      rw [configSetVar_entry_ne a.1 h n (.str p) st₃ hset h v
        (fun hc => hnv hc.2.symm)]
      exact hPa.1
  | error e =>
      rw [hset] at hstep
      cases e with
      | keyError =>
          dsimp only at hstep
          cases hstep
          exact ⟨hPa.1, rfl⟩
      | valueError => simp at hstep
      | typeError => simp at hstep
      | attributeError => simp at hstep
      | nameError => simp at hstep

theorem lineSafe_of_heading_none (h ℓ : String)
    (hp : parseHeading ℓ = Option.none) : lineSafe h ℓ := by
  intro h₃ hph
  rw [hp] at hph
  exact absurd hph (by simp)

/-- Processing a run of blank-after-stripping lines changes nothing. -/
theorem foldNoop_seg (ls : List String)
    (hns : ∀ ℓ ∈ ls, stripChars (takeBeforeComment (stripChars ℓ.data)) = [])
    (acc acc' : ConfigState × Option String)
    (hok : ls.foldlM (fun (a : ConfigState × Option String) line =>
      processLine a.1 a.2 line) acc = .ok acc') : acc' = acc := by
  refine foldlM_inv_mem (fun a : ConfigState × Option String => a = acc)
    ls _ ?_ acc acc' rfl hok
  intro a ℓ a' hm hPa hstep
  have hstep' : processLine a.1 a.2 ℓ = .ok a' := hstep
  rw [processLine_of_blank a.1 a.2 ℓ (hns ℓ hm)] at hstep'
  have : a' = (a.1, a.2) := by
    cases hstep'
    rfl
  rw [this]
  exact hPa

/-- Processing the blocks of headings other than `h` leaves every `(h, v)`
entry alone, from any starting header. -/
theorem foldBlocks_ne (data : Data) (defaults : Schema) (h v : String)
    (hs : List String) :
    ∀ (acc acc' : ConfigState × Option String),
      (∀ h2 ∈ hs, h2 ≠ h ∧
        parseHeading ("[" ++ h2 ++ "]") = Option.some h2 ∧
        ∀ ℓ ∈ headInfoD defaults h2
            ++ ((varsOfD defaults h2).map (savedVarLineD data h2) ++ [""]),
          lineSafe h ℓ) →
      ((hs.map (blockD data defaults)).flatten).foldlM
        (fun (a : ConfigState × Option String) line =>
          processLine a.1 a.2 line) acc = .ok acc' →
      entryAt acc'.1 h v = entryAt acc.1 h v := by
  induction hs with
  | nil =>
      intro acc acc' _ hok
      simp only [List.map_nil, List.flatten_nil, List.foldlM_nil, pure,
        Except.pure] at hok
      cases hok
      rfl
  | cons h2 hs' ih =>
      intro acc acc' hcond hok
      obtain ⟨hne, hph, hlsafe⟩ := hcond h2 (List.mem_cons_self _ _)
      rw [List.map_cons, List.flatten_cons] at hok
      have hblock : blockD data defaults h2
          = ("[" ++ h2 ++ "]") :: (headInfoD defaults h2
            ++ ((varsOfD defaults h2).map (savedVarLineD data h2) ++ [""])) := by
        unfold blockD
        simp [List.cons_append, List.append_assoc]
      rw [hblock, List.cons_append] at hok
      obtain ⟨m1, hstep1, hrest⟩ := foldlM_cons_ok _ _ _ _ _ hok
      have hstep1' : processLine acc.1 acc.2 ("[" ++ h2 ++ "]") = .ok m1 := hstep1
      rw [processLine_of_parseHeading acc.1 acc.2 ("[" ++ h2 ++ "]") h2 hph]
        at hstep1'
      have hm1 : m1 = (acc.1, Option.some h2) := by
        cases hstep1'
        rfl
      subst hm1
      obtain ⟨m2, hseg, hrest2⟩ := foldlM_append_ok _ _ _ _ _ hrest
      have hseg2 := foldSegment_ne h v _ hlsafe (acc.1, Option.some h2) m2 hseg
        (fun hc => hne ((Option.some.injEq _ _).mp hc))
      have hih := ih m2 acc' (fun h3 hm => hcond h3 (List.mem_cons_of_mem _ hm))
        hrest2
      rw [hih, hseg2.1]

/-! ### The written file re-splits into the emitted lines -/

theorem splitNewlines_cons_ne (c : Char) (rest : List Char) (hc : c ≠ '\n') :
    splitNewlines (c :: rest) =
      match splitNewlines rest with
      | l :: ls => (c :: l) :: ls
      | [] => [[c]] := by
  conv_lhs => rw [splitNewlines.eq_def]
  split
  · rename_i heq
    exact absurd heq (List.cons_ne_nil _ _)
  · rename_i r2 heq
    exact absurd ((List.cons.inj heq).1) hc
  · rename_i x c2 r2 hne2 heq
    obtain ⟨h1, h2⟩ := List.cons.inj heq
    rw [← h1, ← h2]

theorem splitNewlines_single (cs : List Char) (h : '\n' ∉ cs) :
    splitNewlines cs = [cs] := by
  induction cs with
  | nil => rfl
  | cons c rest ih =>
      have hc : c ≠ '\n' := fun hce => h (hce ▸ List.mem_cons_self _ _)
      have hr : '\n' ∉ rest := fun hm => h (List.mem_cons_of_mem _ hm)
      rw [splitNewlines_cons_ne c rest hc, ih hr]

theorem splitNewlines_append (l X : List Char) (h : '\n' ∉ l) :
    splitNewlines (l ++ '\n' :: X) = l :: splitNewlines X := by
  induction l with
  | nil => rfl
  | cons c l2 ih =>
      have hc : c ≠ '\n' := fun hce => h (hce ▸ List.mem_cons_self _ _)
      have hr : '\n' ∉ l2 := fun hm => h (List.mem_cons_of_mem _ hm)
      rw [List.cons_append, splitNewlines_cons_ne c _ hc, ih hr]

theorem mem_splitNewlines_no_newline (cs : List Char) :
    ∀ l ∈ splitNewlines cs, '\n' ∉ l := by
  induction cs with
  | nil =>
      intro l hm
      rcases List.mem_singleton.mp hm with rfl
      exact List.not_mem_nil _
  | cons c rest ih =>
      intro l hm
      by_cases hc : c = '\n'
      · subst hc
        rw [show splitNewlines ('\n' :: rest) = [] :: splitNewlines rest
          from rfl] at hm
        rcases List.mem_cons.mp hm with rfl | hm2
        · exact List.not_mem_nil _
        · exact ih l hm2
      · rw [splitNewlines_cons_ne c rest hc] at hm
        cases hsp : splitNewlines rest with
        | nil =>
            rw [hsp] at hm
            dsimp only at hm
            rcases List.mem_singleton.mp hm with rfl
            intro hmem
            rcases List.mem_singleton.mp hmem with h2
            exact hc h2.symm
        | cons l0 ls =>
            rw [hsp] at hm
            dsimp only at hm
            rcases List.mem_cons.mp hm with rfl | hm2
            · intro hmem
              rcases List.mem_cons.mp hmem with h2 | hm3
              · exact hc h2.symm
              · exact ih l0 (by rw [hsp]; exact List.mem_cons_self _ _) hm3
            · exact ih l (by rw [hsp]; exact List.mem_cons_of_mem _ hm2)

theorem splitNewlines_join (ls : List (List Char)) (hne : ls ≠ [])
    (h : ∀ l ∈ ls, '\n' ∉ l) : splitNewlines (joinNewlines ls) = ls := by
  induction ls with
  | nil => exact absurd rfl hne
  | cons l ls ih =>
      cases ls with
      | nil =>
          rw [show joinNewlines [l] = l from rfl]
          exact splitNewlines_single l (h l (List.mem_cons_self _ _))
      | cons l2 ls2 =>
          rw [show joinNewlines (l :: l2 :: ls2)
              = l ++ '\n' :: joinNewlines (l2 :: ls2) from rfl]
          rw [splitNewlines_append _ _ (h l (List.mem_cons_self _ _))]
          rw [ih (List.cons_ne_nil _ _)
            (fun x hx => h x (List.mem_cons_of_mem _ hx))]

/-- A nonempty batch of newline-free lines comes back from the file
verbatim: re-splitting the `'\n'`-joined text restores the line list. -/
theorem fileRoundTrip_eq (lines : List String) (hne : lines ≠ [])
    (h : ∀ s ∈ lines, '\n' ∉ s.data) : fileRoundTrip lines = lines := by
  unfold fileRoundTrip
  rw [splitNewlines_join (lines.map String.data)
    (by intro hc; exact hne (List.map_eq_nil_iff.mp hc))
    (by
      intro l hl
      rcases List.mem_map.mp hl with ⟨s, hs, rfl⟩
      exact h s hs)]
  rw [List.map_map]
  exact List.map_id lines

theorem escapeNewlines_no_newline (cs : List Char) :
    '\n' ∉ escapeNewlines cs := by
  intro hc
  unfold escapeNewlines at hc
  rw [List.mem_flatMap] at hc
  obtain ⟨c, hcm, hmem⟩ := hc
  by_cases h : c = '\n'
  · rw [if_pos h] at hmem
    rcases List.mem_cons.mp hmem with h1 | h2
    · exact absurd h1 (by decide)
    · rcases List.mem_singleton.mp h2 with h3
      exact absurd h3 (by decide)
  · rw [if_neg h] at hmem
    exact h (List.mem_singleton.mp hmem).symm

theorem bracket_noNewline (h : String) (hnl : '\n' ∉ h.data) :
    '\n' ∉ ("[" ++ h ++ "]").data := by
  intro hc
  rw [String.data_append, String.data_append] at hc
  have h1 : "[".data = ['['] := rfl
  have h2 : "]".data = [']'] := rfl
  rw [h1, h2] at hc
  rcases List.mem_append.mp hc with hc1 | hc2
  · rcases List.mem_append.mp hc1 with hc3 | hc4
    · exact absurd (List.mem_singleton.mp hc3) (by decide)
    · exact hnl hc4
  · exact absurd (List.mem_singleton.mp hc2) (by decide)

theorem commentPrefix_noNewline (l : List Char) (hl : '\n' ∉ l) :
    '\n' ∉ ("// " ++ String.mk l).data := by
  intro hc
  rw [String.data_append] at hc
  have h1 : "// ".data = ['/', '/', ' '] := rfl
  have h2 : (String.mk l).data = l := rfl
  rw [h1, h2] at hc
  rcases List.mem_append.mp hc with hc1 | hc2
  · exact absurd hc1 (by decide)
  · exact hl hc2

/-- The emitted assignment line is newline-free: the `name = value` part is
newline-escaped by the code, and a newline-free `__info__` comment keeps
the appended `// comment` tail clean too. -/
theorem buildVarLine_noNewline (v : String) (value : PyVal)
    (info? : Option String)
    (hinfo : ∀ s, info? = Option.some s → '\n' ∉ s.data) :
    '\n' ∉ (buildVarLine false 0 8 false v value info?).data := by
  unfold buildVarLine
  cases info? with
  | none =>
      dsimp only
      exact escapeNewlines_no_newline _
  | some comment =>
      have hcnl : '\n' ∉ comment.data := hinfo comment rfl
      dsimp only
      simp only [Bool.false_eq_true, if_false]
      by_cases hce : comment = ""
      · rw [if_pos hce]
        exact escapeNewlines_no_newline _
      · rw [if_neg hce]
        intro hc
        rw [String.data_append, String.data_append, String.data_append] at hc
        rcases List.mem_append.mp hc with hc1 | hc2
        · rcases List.mem_append.mp hc1 with hc3 | hc4
          · rcases List.mem_append.mp hc3 with hc5 | hc6
            · exact escapeNewlines_no_newline _ hc5
            · have := List.eq_of_mem_replicate
                (show '\n' ∈ List.replicate _ ' ' from hc6)
              exact absurd this (by decide)
          · have h1 : "// ".data = ['/', '/', ' '] := rfl
            rw [h1] at hc4
            exact absurd hc4 (by decide)
        · exact hcnl hc2

/-- The heading-comment lines are newline-free: the `__info__` text is
split on newlines before the `// ` prefixes are attached. -/
theorem headingInfoLines_noNewline (rv : RawVars) (L : List String)
    (hL : headingInfoLines rv = .ok L) : ∀ ℓ ∈ L, '\n' ∉ ℓ.data := by
  unfold headingInfoLines at hL
  cases hlk : lookupKey rv "__info__" with
  | none =>
      rw [hlk] at hL
      simp only [Except.ok.injEq] at hL
      rw [← hL]
      intro ℓ hm
      exact absurd hm (List.not_mem_nil ℓ)
  | some rw0 =>
      rw [hlk] at hL
      cases rw0 with
      | dict e => simp at hL
      | scalar sv =>
          cases sv with
          | str s =>
              simp only [Except.ok.injEq] at hL
              rw [← hL]
              intro ℓ hm
              rcases List.mem_map.mp hm with ⟨cs, hcsm, rfl⟩
              exact commentPrefix_noNewline cs
                (mem_splitNewlines_no_newline s.data cs hcsm)
          | int n => simp at hL
          | float q => simp at hL
          | bool b => simp at hL
          | none => simp at hL

/-- The round-trip well-formedness of one store against its fresh copy:
every serialized heading line reads back as itself and holds no literal
newline, every `__info__` comment is newline-free (those are emitted
unescaped, so a newline in them would split the written line in two on
disk), and every serialized variable line reads back as an assignment that
the fresh entry validates to exactly the original value. -/
def roundClean (st stF : ConfigState) : Prop :=
  (headOrder st.defaults).Nodup ∧
  ∀ h ∈ headOrder st.defaults,
    parseHeading ("[" ++ h ++ "]") = Option.some h ∧
    '\n' ∉ h.data ∧
    ∃ rv vars, lookupKey st.defaults h = Option.some rv ∧
      lookupKey st.data h = Option.some vars ∧
      (∃ L, headingInfoLines rv = .ok L) ∧
      (varOrder rv).Nodup ∧
      ∀ v ∈ varOrder rv,
        ∃ e t val, lookupKey vars v = Option.some e ∧
          e.type? = Option.some t ∧ t ≠ .noneType ∧
          e.value? = Option.some val ∧
          (∀ info, e.info? = Option.some info → '\n' ∉ info.data) ∧
          ∃ p, parseAssign (buildVarLine false 0 8 false v val e.info?) =
              Option.some (v, p) ∧
            ∃ eF, entryAt stF h v = Option.some eF ∧ lockedE eF = false ∧
              ∃ e₁ t₁, createConfigItem eF = .ok (e₁, t₁) ∧
                validateItem e₁ t₁ (.str p) = .ok (Option.some val)

theorem roundClean_save (st stF : ConfigState) (hrc : roundClean st stF) :
    ∀ h ∈ headOrder st.defaults, saveCleanAt st h := by
  intro h hm
  obtain ⟨-, -, rv, vars, hrv, hvars, hinfo, -, hv⟩ := hrc.2 h hm
  refine ⟨rv, vars, hrv, hvars, hinfo, ?_⟩
  intro v hvm
  obtain ⟨e, t, val, hve, hty, htn, hval, -, -⟩ := hv v hvm
  exact ⟨e, t, hve, hty, htn, by rw [hval]; rfl⟩

/-- The non-heading lines of a block are never mistaken for a heading. -/
theorem blockTail_safe (st stF : ConfigState) (hrc : roundClean st stF)
    (h h2 : String) (hm : h2 ∈ headOrder st.defaults) :
    ∀ ℓ ∈ headInfoD st.defaults h2
        ++ ((varsOfD st.defaults h2).map (savedVarLineD st.data h2) ++ [""]),
      lineSafe h ℓ := by
  obtain ⟨-, -, rv, vars, hrv, hvars, ⟨L, hL⟩, -, hv⟩ := hrc.2 h2 hm
  have hHID : headInfoD st.defaults h2 = L := by
    unfold headInfoD
    rw [hrv]
    dsimp only
    rw [hL]
  have hVOD : varsOfD st.defaults h2 = varOrder rv := by
    unfold varsOfD
    rw [hrv]
  intro ℓ hmem
  rcases List.mem_append.mp hmem with hm1 | hm2
  · rw [hHID] at hm1
    obtain ⟨s, rfl⟩ := headingInfoLines_shape rv L hL ℓ hm1
    exact lineSafe_of_heading_none h _ (parseHeading_comment s)
  · rcases List.mem_append.mp hm2 with hm3 | hm4
    · rw [hVOD] at hm3
      rcases List.mem_map.mp hm3 with ⟨v2, hv2m, rfl⟩
      obtain ⟨e, t, val, hve, hty, htn, hval, -, p, hpa, -⟩ := hv v2 hv2m
      rw [savedVarLineD_eq st.data h2 v2 vars e val hvars hve hval]
      exact lineSafe_of_heading_none h _
        (parseHeading_of_parseAssign _ v2 p hpa)
    · rcases List.mem_singleton.mp hm4 with rfl
      exact lineSafe_of_heading_none h "" parseHeading_empty

/-- Under `roundClean`, every line the save emits is newline-free, so the
written file re-splits into exactly the emitted lines. -/
theorem savedLines_noNewline (st stF : ConfigState) (hrc : roundClean st stF) :
    ∀ ℓ ∈ savedLinesD st.data st.defaults, '\n' ∉ ℓ.data := by
  intro ℓ hm
  unfold savedLinesD at hm
  rw [List.mem_flatten] at hm
  obtain ⟨blk, hblk, hlm⟩ := hm
  rcases List.mem_map.mp hblk with ⟨h, hhm, rfl⟩
  obtain ⟨-, hnl, rv, vars, hrv, hvars, ⟨L, hL⟩, -, hv⟩ := hrc.2 h hhm
  have hHID : headInfoD st.defaults h = L := by
    unfold headInfoD
    rw [hrv]
    dsimp only
    rw [hL]
  have hVOD : varsOfD st.defaults h = varOrder rv := by
    unfold varsOfD
    rw [hrv]
  unfold blockD at hlm
  rcases List.mem_cons.mp hlm with rfl | hlm1
  · exact bracket_noNewline h hnl
  · rcases List.mem_append.mp hlm1 with hlm2 | hlm3
    · rcases List.mem_append.mp hlm2 with hlm4 | hlm5
      · rw [hHID] at hlm4
        exact headingInfoLines_noNewline rv L hL ℓ hlm4
      · rw [hVOD] at hlm5
        rcases List.mem_map.mp hlm5 with ⟨v2, hv2m, rfl⟩
        obtain ⟨e, t, val, hve, hty, htn, hval, hinl, -⟩ := hv v2 hv2m
        rw [savedVarLineD_eq st.data h v2 vars e val hvars hve hval]
        exact buildVarLine_noNewline v2 val e.info? hinl
    · rcases List.mem_singleton.mp hlm3 with rfl
      exact List.not_mem_nil _

/-- C1 (amended): for a store whose serialized form reads back cleanly —
every heading line parses back to its own heading, heading names and
`__info__` comments hold no literal newline (those are written unescaped,
so the joined file would otherwise re-split mid-line), every variable line
parses back to an assignment to its own variable, and the fresh store's
entry validates the parsed text to exactly the original value — `save()`
followed by building a fresh store from the same default schema and
`load()`-ing the saved file — the `'\n'`-joined text re-split on `'\n'`,
exactly as the file written by `save` is read back — reproduces the
original current value of every (non-hidden) schema entry.  (The
validation hypothesis is necessary: values are re-validated on load, so a
stored value outside its own entry's constraints comes back altered — see
the counterexample, where a stored `99` under `max = 10` round-trips to
`10`.) -/
theorem C1_roundtrip_amended (st stF st₁ st₂ : ConfigState)
    (settings : Option Entry) (editable : Bool) (lines : List String)
    (hinit : initConfig st.defaults settings editable = .ok stF)
    (hsave : configSave st false = .ok (lines, st₁))
    (hrc : roundClean st stF)
    (hload : configLoad stF (Option.some (fileRoundTrip lines)) [] = .ok st₂) :
    ∀ h ∈ headOrder st.defaults, ∀ rv, lookupKey st.defaults h = Option.some rv →
      ∀ v ∈ varOrder rv, entryValue st₂ h v = entryValue st h v := by
  have hchar := configSave_characterize st (roundClean_save st stF hrc)
  rw [hchar] at hsave
  simp only [Except.ok.injEq, Prod.mk.injEq] at hsave
  obtain ⟨hlines, -⟩ := hsave
  intro h hmem rv hrv v hvmem
  obtain ⟨hph, -, rv', vars, hrv', hvars, ⟨L, hL⟩, hvnd, hvpkg⟩ := hrc.2 h hmem
  rw [hrv] at hrv'
  obtain rfl : rv = rv' := (Option.some.injEq _ _).mp hrv'
  obtain ⟨e, t, val, hve, hty, htn, hval, -, p, hpa, eF, heF, hlockF, e₁, t₁,
    hcc, hvalid⟩ := hvpkg v hvmem
  have hstval : entryValue st h v = Option.some val := by
    rw [entryValue_eq, entryAt_eq, hvars]
    simp only [Option.some_bind]
    rw [hve]
    simp only [Option.some_bind]
    exact hval
  rw [hstval]
  have hhne : headOrder st.defaults ≠ [] := by
    intro hc
    rw [hc] at hmem
    exact absurd hmem (List.not_mem_nil h)
  obtain ⟨X, hX⟩ := join_blocks_end_blank st.data st.defaults
    (headOrder st.defaults) hhne
  have hlinesX : lines = X := by
    rw [← hlines]
    unfold savedLinesD
    rw [hX]
    simp
  obtain ⟨o₁, o₂, hsplit⟩ := List.append_of_mem hmem
  have hXne : X ≠ [] := by
    intro hc
    rw [hc, List.nil_append] at hX
    have hlen := congrArg List.length hX
    rw [hsplit, List.map_append, List.map_cons, List.flatten_append,
      List.flatten_cons] at hlen
    simp [blockD] at hlen
    omega
  have hnlLines : ∀ ℓ ∈ lines, '\n' ∉ ℓ.data := by
    rw [hlinesX]
    intro ℓ hmem2
    have hms : ℓ ∈ savedLinesD st.data st.defaults := by
      unfold savedLinesD
      rw [hX]
      exact List.mem_append_left _ hmem2
    exact savedLines_noNewline st stF hrc ℓ hms
  have hlinesNe : lines ≠ [] := by
    rw [hlinesX]
    exact hXne
  have hload' : configLoad stF (Option.some lines) [] = .ok st₂ := by
    rw [fileRoundTrip_eq lines hlinesNe hnlLines] at hload
    exact hload
  have hupd : updateFromFileLines stF lines = .ok st₂ := by
    rw [← configLoad_primary]
    exact hload'
  obtain ⟨hdr', hfoldL⟩ := updateFromFileLines_fold stF st₂ lines hupd
  have hfoldS : ((headOrder st.defaults).map (blockD st.data st.defaults)).flatten.foldlM
      (fun (a : ConfigState × Option String) line => processLine a.1 a.2 line)
      (stF, Option.none) = .ok (st₂, hdr') := by
    rw [show ((headOrder st.defaults).map (blockD st.data st.defaults)).flatten
        = X ++ [""] from hX]
    apply fold_append_blank
    rw [← hlinesX]
    exact hfoldL
  have hnd' := hrc.1
  rw [hsplit] at hnd'
  obtain ⟨nd1, nd2, hdisj⟩ := List.nodup_append.mp hnd'
  have ho₁ : ∀ h2 ∈ o₁, h2 ≠ h := by
    intro h2 hm hc
    exact hdisj hm (by rw [hc]; exact List.mem_cons_self _ _)
  have ho₂ : ∀ h2 ∈ o₂, h2 ≠ h := by
    have hnc := List.nodup_cons.mp nd2
    intro h2 hm hc
    rw [hc] at hm
    exact hnc.1 hm
  rw [hsplit, List.map_append, List.map_cons, List.flatten_append,
    List.flatten_cons] at hfoldS
  obtain ⟨s₁, hpre, hrest⟩ := foldlM_append_ok _ _ _ _ _ hfoldS
  have hmemOf : ∀ h2 ∈ o₁, h2 ∈ headOrder st.defaults := by
    intro h2 hm
    rw [hsplit]
    exact List.mem_append_left _ hm
  have hmemOf2 : ∀ h2 ∈ o₂, h2 ∈ headOrder st.defaults := by
    intro h2 hm
    rw [hsplit]
    exact List.mem_append_right _ (List.mem_cons_of_mem _ hm)
  have hpreEnt : entryAt s₁.1 h v = entryAt stF h v :=
    foldBlocks_ne st.data st.defaults h v o₁ (stF, Option.none) s₁
      (fun h2 hm => ⟨ho₁ h2 hm, (hrc.2 h2 (hmemOf h2 hm)).1,
        blockTail_safe st stF hrc h h2 (hmemOf h2 hm)⟩)
      hpre
  have hHID : headInfoD st.defaults h = L := by
    unfold headInfoD
    rw [hrv]
    dsimp only
    rw [hL]
  have hVOD : varsOfD st.defaults h = varOrder rv := by
    unfold varsOfD
    rw [hrv]
  obtain ⟨w₁, w₂, hvsplit⟩ := List.append_of_mem hvmem
  have hvnd' := hvnd
  rw [hvsplit] at hvnd'
  obtain ⟨vnd1, vnd2, hvdisj⟩ := List.nodup_append.mp hvnd'
  have hw₁ : ∀ v2 ∈ w₁, v2 ≠ v := by
    intro v2 hm hc
    exact hvdisj hm (by rw [hc]; exact List.mem_cons_self _ _)
  have hw₂ : ∀ v2 ∈ w₂, v2 ≠ v := by
    have hnc := List.nodup_cons.mp vnd2
    intro v2 hm hc
    rw [hc] at hm
    exact hnc.1 hm
  have hvline : ∀ v2 ∈ varOrder rv, ∃ p2,
      parseAssign (savedVarLineD st.data h v2) = Option.some (v2, p2) := by
    intro v2 hm
    obtain ⟨e2, t2, val2, hve2, -, -, hval2, -, p2, hpa2, -⟩ := hvpkg v2 hm
    refine ⟨p2, ?_⟩
    rw [savedVarLineD_eq st.data h v2 vars e2 val2 hvars hve2 hval2]
    exact hpa2
  have hblockh : blockD st.data st.defaults h
      = ("[" ++ h ++ "]")
        :: (L ++ ((varOrder rv).map (savedVarLineD st.data h) ++ [""])) := by
    unfold blockD
    rw [hHID, hVOD]
    simp [List.cons_append, List.append_assoc]
  rw [hblockh, List.cons_append] at hrest
  obtain ⟨m1, hstep1, hrest1⟩ := foldlM_cons_ok _ _ _ _ _ hrest
  have hstep1' : processLine s₁.1 s₁.2 ("[" ++ h ++ "]") = .ok m1 := hstep1
  rw [processLine_of_parseHeading s₁.1 s₁.2 ("[" ++ h ++ "]") h hph] at hstep1'
  have hm1 : m1 = (s₁.1, Option.some h) := by
    cases hstep1'
    rfl
  subst hm1
  rw [hvsplit, List.map_append, List.map_cons] at hrest1
  simp only [List.append_assoc, List.cons_append, List.singleton_append] at hrest1
  obtain ⟨m2, hLseg, hrest2⟩ := foldlM_append_ok _ _ _ _ _ hrest1
  have hm2 : m2 = (s₁.1, Option.some h) := by
    refine foldNoop_seg L ?_ _ m2 hLseg
    intro ℓ hm
    obtain ⟨s, rfl⟩ := headingInfoLines_shape rv L hL ℓ hm
    exact commentLine_blank s
  subst hm2
  obtain ⟨u₁, hw1seg, hrest3⟩ := foldlM_append_ok _ _ _ _ _ hrest2
  have hw1 := foldAssignSeg_ne h v (w₁.map (savedVarLineD st.data h))
    (by
      intro ℓ hm
      rcases List.mem_map.mp hm with ⟨v2, hv2m, rfl⟩
      obtain ⟨p2, hpa2⟩ := hvline v2
        (by rw [hvsplit]; exact List.mem_append_left _ hv2m)
      exact ⟨v2, p2, hpa2, hw₁ v2 hv2m⟩)
    (s₁.1, Option.some h) u₁ hw1seg rfl
  obtain ⟨u₂, hstepT, hrest4⟩ := foldlM_cons_ok _ _ _ _ _ hrest3
  have hentU : entryAt u₁.1 h v = Option.some eF := by
    rw [hw1.1]
    dsimp only
    rw [hpreEnt]
    exact heF
  obtain ⟨varsU, hlu, hvluU⟩ : ∃ varsU, lookupKey u₁.1.data h = Option.some varsU
      ∧ lookupKey varsU v = Option.some eF := by
    have hentU2 := hentU
    rw [entryAt_eq] at hentU2
    cases hlu : lookupKey u₁.1.data h with
    | none =>
        rw [hlu] at hentU2
        simp at hentU2
    | some varsU =>
        rw [hlu] at hentU2
        simp only [Option.some_bind] at hentU2
        exact ⟨varsU, rfl, hentU2⟩
  have hstepT' : processLine u₁.1 u₁.2 (savedVarLineD st.data h v) = .ok u₂ :=
    hstepT
  rw [hw1.2] at hstepT'
  rw [savedVarLineD_eq st.data h v vars e val hvars hve hval] at hstepT'
  rw [processLine_of_parseAssign u₁.1 h _ v p hpa] at hstepT'
  rw [configSetVar_store u₁.1 h v varsU eF e₁ t₁ (.str p) val hlu hvluU hlockF
    hcc hvalid] at hstepT'
  dsimp only at hstepT'
  have hu2 : u₂ = ({ u₁.1 with data := setKey u₁.1.data h (setKey varsU v { e₁ with value? := Option.some val }) }, Option.some h) := by
    cases hstepT'
    rfl
  subst hu2
  obtain ⟨u₃, hw2seg, hrest5⟩ := foldlM_append_ok _ _ _ _ _ hrest4
  have hw2 := foldAssignSeg_ne h v (w₂.map (savedVarLineD st.data h))
    (by
      intro ℓ hm
      rcases List.mem_map.mp hm with ⟨v2, hv2m, rfl⟩
      obtain ⟨p2, hpa2⟩ := hvline v2
        (by rw [hvsplit]; exact List.mem_append_right _ (List.mem_cons_of_mem _ hv2m))
      exact ⟨v2, p2, hpa2, hw₂ v2 hv2m⟩)
    _ u₃ hw2seg rfl
  obtain ⟨u₄, hblank, hFseg⟩ := foldlM_cons_ok _ _ _ _ _ hrest5
  have hblank' : processLine u₃.1 u₃.2 "" = .ok u₄ := hblank
  rw [processLine_of_blank u₃.1 u₃.2 "" rfl] at hblank'
  have hu4 : u₄ = (u₃.1, u₃.2) := by
    cases hblank'
    rfl
  subst hu4
  have hFent : entryAt st₂ h v = entryAt u₃.1 h v :=
    foldBlocks_ne st.data st.defaults h v o₂ (u₃.1, u₃.2) (st₂, hdr')
      (fun h2 hm => ⟨ho₂ h2 hm, (hrc.2 h2 (hmemOf2 h2 hm)).1,
        blockTail_safe st stF hrc h h2 (hmemOf2 h2 hm)⟩)
      hFseg
  rw [entryValue_eq, hFent, hw2.1]
  dsimp only
  rw [entryAt_eq]
  dsimp only
  rw [lookupKey_setKey_self]
  simp only [Option.some_bind]
  rw [lookupKey_setKey_self]
  simp only [Option.some_bind]

/-- The C1 counterexample schema: an unlocked int entry whose stored value
`99` violates its own declared bound `max = 10`. -/
def c1schema : Schema :=
  [("H", [("v", .dict { value? := Option.some (.int 99),
                        type? := Option.some .int,
                        max? := Option.some (.int 10) })])]

/-- The store built from `c1schema` (no locked entries; value `99`). -/
def c1st : ConfigState where
  data := [("H", [("v",
    { value? := Option.some (.int 99), type? := Option.some .int,
      max? := Option.some (.int 10), default? := Option.some (.int 99) })])]
  backup := [("H", [("v", .int 99)])]
  defaults := c1schema
  default_settings := Option.none
  editable_dict := true
  is_new := false

/-- The fresh store after loading the saved file: the value came back
clamped. -/
def c1loaded : ConfigState where
  data := [("H", [("v",
    { value? := Option.some (.int 10), type? := Option.some .int,
      max? := Option.some (.int 10), default? := Option.some (.int 99) })])]
  backup := [("H", [("v", .int 99)])]
  defaults := c1schema
  default_settings := Option.none
  editable_dict := true
  is_new := false

/-- C1 counterexample: a store with no locked entries whose value `99`
violates its own `max = 10` bound.  `save()` writes `v = 99`; a fresh
store built from the same schema `load()`-ing that file re-validates the
text and stores the clamped `10`, so the round trip does not reproduce the
original current value. -/
theorem C1_counterexample :
    initConfig c1schema Option.none true = .ok c1st ∧
    (∀ p ∈ c1st.data, ∀ q ∈ p.2, lockedE q.2 = false) ∧
    configSave c1st false = .ok (["[H]", "v = 99"], c1st) ∧
    configLoad c1st (Option.some ["[H]", "v = 99"]) [] = .ok c1loaded ∧
    entryValue c1st "H" "v" = Option.some (.int 99) ∧
    entryValue c1loaded "H" "v" = Option.some (.int 10) ∧
    entryValue c1loaded "H" "v" ≠ entryValue c1st "H" "v" := by
  refine ⟨?_, ?_, ?_, ?_, ?_, ?_, ?_⟩ <;> decide

/-- The C1 witness schema. -/
def w1schema : Schema := [("H", [("v", .scalar (.int 5))])]

/-- The C1 witness store: built from `w1schema`, then the value was
changed to `7` (in-policy). -/
def w1st : ConfigState where
  data := [("H", [("v",
    { value? := Option.some (.int 7), type? := Option.some .int,
      default? := Option.some (.int 5) })])]
  backup := [("H", [("v", .int 5)])]
  defaults := w1schema
  default_settings := Option.none
  editable_dict := true
  is_new := false

/-- The fresh store built from `w1schema`. -/
def w1stF : ConfigState where
  data := [("H", [("v",
    { value? := Option.some (.int 5), type? := Option.some .int,
      default? := Option.some (.int 5) })])]
  backup := [("H", [("v", .int 5)])]
  defaults := w1schema
  default_settings := Option.none
  editable_dict := true
  is_new := false

/-- The fresh store after loading the saved file of `w1st`. -/
def w1loaded : ConfigState where
  data := [("H", [("v",
    { value? := Option.some (.int 7), type? := Option.some .int,
      default? := Option.some (.int 5) })])]
  backup := [("H", [("v", .int 5)])]
  defaults := w1schema
  default_settings := Option.none
  editable_dict := true
  is_new := false

/-- The witness store reads back cleanly. -/
theorem w1st_roundClean : roundClean w1st w1stF := by
  constructor
  · decide
  · intro h hm
    have hh : h = "H" := by
      have hho : headOrder w1st.defaults = ["H"] := by decide
      rw [hho] at hm
      exact List.mem_singleton.mp hm
    subst hh
    refine ⟨by decide, by decide, [("v", .scalar (.int 5))],
      [("v", { value? := Option.some (.int 7), type? := Option.some .int, default? := Option.some (.int 5) })],
      by decide, by decide, ⟨[], by decide⟩, by decide, ?_⟩
    intro v hv
    have hv2 : v = "v" := by
      have hvo : varOrder [("v", RawVal.scalar (.int 5))] = ["v"] := by decide
      rw [hvo] at hv
      exact List.mem_singleton.mp hv
    subst hv2
    exact ⟨{ value? := Option.some (.int 7), type? := Option.some .int, default? := Option.some (.int 5) },
      .int, .int 7, by decide, by decide, by decide, by decide,
      fun info hinfo => Option.noConfusion hinfo,
      "7", by decide,
      { value? := Option.some (.int 5), type? := Option.some .int, default? := Option.some (.int 5) },
      by decide, by decide,
      { value? := Option.some (.int 5), type? := Option.some .int, default? := Option.some (.int 5) },
      .int, by decide, by decide⟩

/-- Witness for C1: the amended round-trip theorem applied to a concrete
clean store — save, rebuild from the schema, load the re-split of the
joined file text; the written-over value `7` survives the round trip. -/
theorem C1_witness : entryValue w1loaded "H" "v" = entryValue w1st "H" "v" :=
  C1_roundtrip_amended w1st w1stF w1st w1loaded Option.none true
    ["[H]", "v = 7"] (by decide) (by decide) w1st_roundClean (by decide)
    "H" (by decide) [("v", .scalar (.int 5))] (by decide) "v" (by decide)

/-! ### Claim C9 — the default schema is never mutated -/

/-- C9: after any sequence of `load`s, `save`s (changes mode with or
without `keys_only`), entry writes and `reload`s, the default schema held
by the store is exactly the mapping captured at construction.  (In the
modelled `changes=True` save modes, `_build_for_file`'s type-filling writes
go to `_data`, never `_default`.) -/
theorem C9_default_schema_immutable (S : Schema) (settings : Option Entry)
    (editable : Bool) (ops : List Op) (st₀ st : ConfigState)
    (h0 : initConfig S settings editable = .ok st₀)
    (hops : applyOps st₀ ops = .ok st) :
    st.defaults = S := by
  have h1 := (applyOps_shell st₀ ops st hops).1
  have h2 := (initConfig_defaults S settings editable st₀ h0).1
  rw [h1, h2]

/-- The concrete store used by the C9 witness. -/
def c9schema : Schema := [("H", [("v", .scalar (.int 5))])]

/-- The C9 witness store (the result of constructing from `c9schema`). -/
def c9st : ConfigState where
  data := [("H", [("v",
    { value? := Option.some (.int 5), type? := Option.some .int,
      default? := Option.some (.int 5) })])]
  backup := [("H", [("v", .int 5)])]
  defaults := [("H", [("v", .scalar (.int 5))])]
  default_settings := Option.none
  editable_dict := true
  is_new := false

/-- The C9 witness operations: a write, both save modes, a load, a reload. -/
def c9ops : List Op :=
  [Op.write "H" "v" (.int 7), Op.save false, Op.save true,
   Op.loadFile ["[H]", "v = 3"], Op.reload]

/-- Witness for C9: a concrete store taken through a write, both save
modes, a load and a reload keeps its default schema. -/
theorem C9_witness :
    (applyOps c9st c9ops).map ConfigState.defaults = .ok c9schema := by
  have h0 : initConfig c9schema Option.none true = .ok c9st := by decide
  have hops : applyOps c9st c9ops = .ok c9st := by decide
  rw [hops]
  simp only [Except.map]
  rw [C9_default_schema_immutable c9schema Option.none true c9ops c9st c9st h0 hops]

end Ini
